import Mathlib

/-! # LRU eviction engine (`lru/lru.go`): shallow embedding and verified properties

The Go code of `lru/lru.go` is translated function by function (namespace `Lru`).  Two
small units outside the eviction engine come first: the archive readers of
`ais/archive.go` (namespace `Ais`) and the normalisation of the communication type in
`cmd/cli/cli/etl.go` (namespace `Cli`); their properties are at the end.

* `int64` byte counters and nanosecond time stamps (`curSize`, `totalSize`, `newest`,
  object sizes, `atime`) are `Int`; the sums of byte counts stay far below `2^63`, so
  `+`/`-` on them is not wrapped.  Two computations are modelled bit-exactly (`% 2^64`):
  `evictSize`, which mixes `uint64` and `int64` arithmetic and conversions, and the sums
  `atime + DontEvictTime` and `mtime + DontEvictTime` of the don't-evict guards, where
  the configured `DontEvictTime` can be any `int64` (`addI64`).  The division of `int64`
  values in `_throttle` truncates toward zero (`Int.tdiv`).
* Everything the jogger asks of its surroundings (file system, bucket metadata, clock,
  abort channels, configuration owner) goes through a record `Env W` of operations over
  an arbitrary world type `W`; operations with an effect return the next world.
* Loops that Go writes with `for` are recursive functions; where the recursion is not
  structural a fuel argument bounds the number of iterations and the caller supplies a
  bound that the loop cannot exceed.
-/

/-! ## Reading a file out of an archive (`ais/archive.go`)

The packages `archive/tar`, `compress/gzip` and `archive/zip` of the Go library are
represented by what their calls return: the headers that successive `tr.Next()` calls
deliver, the reader that `gzip.NewReader` opens, the files that `zip.NewReader` lists. -/

namespace Ais

/-- Errors of the archive readers. -/
inductive ArchErr where
  /-- Go `io.EOF` -/
  | eof
  /-- Go `cmn.NewNotFoundError("file %q in archive %q", filename, archname)` -/
  | notFound (filename archname : String)
  /-- any other error of the tar, gzip and zip readers -/
  | other (msg : String)
  deriving DecidableEq, Repr

/-- Go `func notFoundInArch(filename, archname string) error` -/
def notFoundInArch (filename archname : String) : ArchErr :=
  ArchErr.notFound filename archname

/-- The fields of `tar.Header` that are read. -/
structure TarHeader where
  /-- Go `hdr.Name` -/
  name : String
  /-- Go `hdr.Size` -/
  size : Int
  deriving DecidableEq, Repr

/-- What successive calls of `tr.Next()` return on a `*tar.Reader`: the headers of
the entries, in order, and then an error (`io.EOF` at the end of the archive). -/
structure TarStream where
  headers : List TarHeader
  err : ArchErr
  deriving DecidableEq, Repr

/-- What is read of a `*zip.File`; `F` is the type of open files. -/
structure ZipFile (F : Type) where
  /-- Go `f.FileHeader.Name` -/
  name : String
  /-- Go `f.FileInfo().IsDir()` -/
  isDir : Bool
  /-- Go `f.FileInfo().Size()` -/
  size : Int
  /-- Go `f.Open()` -/
  opened : Except ArchErr F

/-- The archive packages over readers `Rd` and open files `F`. -/
structure ArchLib (Rd F : Type) where
  /-- Go `tar.NewReader(reader)`, with the results of its `Next()` calls -/
  tarNewReader : Rd → TarStream
  /-- Go `gzip.NewReader(reader)` -/
  gzipNewReader : Rd → Except ArchErr Rd
  /-- Go `zip.NewReader(readerAt, size)`: the list `zr.File` -/
  zipNewReader : Rd → Int → Except ArchErr (List (ZipFile F))

/-- Go `cslLimited struct { io.LimitedReader }`, an `io.LimitedReader{R, N}`. -/
structure cslLimited (Rd : Type) where
  R : Rd
  N : Int
  deriving DecidableEq, Repr

/-- Go `func (csl *cslLimited) Size() int64` -/
def cslLimited.Size {Rd : Type} (csl : cslLimited Rd) : Int := csl.N

/-- Go `cslClose struct { gzr io.ReadCloser; R io.Reader; N int64 }` -/
structure cslClose (Rd : Type) where
  gzr : Rd
  R : cslLimited Rd
  N : Int
  deriving DecidableEq, Repr

/-- Go `func (csc *cslClose) Size() int64` -/
def cslClose.Size {Rd : Type} (csc : cslClose Rd) : Int := csc.N

/-- Go `cslFile struct { file io.ReadCloser; size int64 }`; `file` is nil when `none`. -/
structure cslFile (F : Type) where
  file : Option F
  size : Int
  deriving DecidableEq, Repr

/-- Go `func (csf *cslFile) Size() int64` -/
def cslFile.Size {F : Type} (csf : cslFile F) : Int := csf.size

/-- The loop `for { hdr, err := tr.Next(); ... }` of `freadTar` over the remaining results
of `tr.Next()`. -/
def freadTarLoop {Rd : Type} (reader : Rd) (filename archname : String) :
    List TarHeader → ArchErr → Except ArchErr (cslLimited Rd)
  | [], err =>
    if err = ArchErr.eof then .error (notFoundInArch filename archname) else .error err
  | hdr :: rest, err =>
    if hdr.name ≠ filename then freadTarLoop reader filename archname rest err
    else .ok { R := reader, N := hdr.size }

/-- Go `func freadTar(reader io.Reader, filename, archname string) (*cslLimited, error)` -/
def freadTar {Rd F : Type} (lib : ArchLib Rd F) (reader : Rd) (filename archname : String) :
    Except ArchErr (cslLimited Rd) :=
  let tr := lib.tarNewReader reader
  freadTarLoop reader filename archname tr.headers tr.err

/-- Go `func freadTgz(reader io.Reader, filename, archname string) (csc *cslClose, err error)` -/
def freadTgz {Rd F : Type} (lib : ArchLib Rd F) (reader : Rd) (filename archname : String) :
    Except ArchErr (cslClose Rd) :=
  match lib.gzipNewReader reader with
  | .error err => .error err
  | .ok gzr =>
    match freadTar lib gzr filename archname with
    | .error err => .error err
    | .ok csl => .ok { gzr := gzr, R := csl, N := csl.N }

/-- The loop `for _, f := range zr.File { ... }` of `freadZip`: the results `csf` (nil when
`none`) and `err`. -/
def freadZipLoop {F : Type} (filename archname : String) :
    List (ZipFile F) → Option (cslFile F) × Option ArchErr
  | [] => (none, some (notFoundInArch filename archname))
  | f :: rest =>
    if f.name ≠ filename then freadZipLoop filename archname rest
    else if f.isDir then freadZipLoop filename archname rest
    else
      match f.opened with
      | .ok file => (some { file := some file, size := f.size }, none)
      | .error err => (some { file := none, size := f.size }, some err)

/-- Go `func freadZip(readerAt cos.ReadReaderAt, filename, archname string, size int64)
(csf *cslFile, err error)` -/
def freadZip {Rd F : Type} (lib : ArchLib Rd F) (readerAt : Rd) (filename archname : String)
    (size : Int) : Option (cslFile F) × Option ArchErr :=
  match lib.zipNewReader readerAt size with
  | .error err => (none, some err)
  | .ok files => freadZipLoop filename archname files

/-- An archive library over readers that are their own content: a reader is the list of
the tar headers to come. -/
def exLib : ArchLib (List TarHeader) String :=
  { tarNewReader := fun r => { headers := r, err := ArchErr.eof }
    gzipNewReader := fun r => .ok r
    zipNewReader := fun r _ =>
      .ok (r.map (fun h => { name := h.name, isDir := false, size := h.size,
                             opened := .ok h.name })) }

/-- An archive of two files. -/
def exArchive : List TarHeader := [{ name := "a.txt", size := 3 }, { name := "b.txt", size := 7 }]

/-- Go `zip.ErrAlgorithm`, the error of `f.Open()` for a file stored with a compression
method that `archive/zip` does not know. -/
def errAlgorithm : ArchErr := ArchErr.other "zip: unsupported compression algorithm"

/-- The archive library `exLib` reading zip archives whose files are stored with an
unknown compression method: `f.Open()` fails. -/
def exLibNoMethod : ArchLib (List TarHeader) String :=
  { exLib with
    zipNewReader := fun r _ =>
      .ok (r.map (fun h => { name := h.name, isDir := false, size := h.size,
                             opened := .error errAlgorithm })) }

end Ais

/-! ## The communication type of `etl init code` (`cmd/cli/cli/etl.go`) -/

namespace Cli

/-- Go `strings.HasSuffix(s, suffix)`.  Go compares bytes; the suffixes tested here are
ASCII, for which the comparison of the characters of a UTF-8 string gives the same. -/
def hasSuffix (s suffix : String) : Bool := suffix.data.isSuffixOf s.data

/-- The statements of `etlInitCodeHandler` that normalise the communication type
`msg.CommTypeX` taken from the command line: from `if msg.CommTypeX != ""` to the end of
that block; the result is the final value of `msg.CommTypeX`. -/
def etlInitCodeHandler_commTypeX (commTypeX : String) : String :=
  if commTypeX ≠ "" then
    -- Missing `/` at the end, eg. `hpush:/` (should be `hpush://`)
    let c1 := if hasSuffix commTypeX ":/" then commTypeX ++ "/" else commTypeX
    -- Missing `://` at the end, eg. `hpush` (should be `hpush://`)
    if !hasSuffix c1 "://" then c1 ++ "://" else c1
  else commTypeX

end Cli

namespace Lru

/-! ## Machine integers -/

/-- Conversion `uint64(x)` of an `int64` value: the residue modulo `2^64`. -/
def toU64 (x : Int) : Nat := (x % 2 ^ 64).toNat

/-- Conversion `int64(x)` of a `uint64` value `x < 2^64` (two's complement
reinterpretation). -/
def toI64 (x : Nat) : Int := if x < 2 ^ 63 then (x : Int) else (x : Int) - 2 ^ 64

/-- Wrap an integer into the `int64` range (result of a 64-bit signed operation). -/
def wrapI64 (x : Int) : Int := (x + 2 ^ 63) % 2 ^ 64 - 2 ^ 63

/-- Subtraction of `uint64` values (`a, b < 2^64`), `a - b`. -/
def subU64 (a b : Nat) : Nat := (a + 2 ^ 64 - b) % 2 ^ 64

/-- Multiplication of `uint64` values, `a * b`. -/
def mulU64 (a b : Nat) : Nat := (a * b) % 2 ^ 64

/-- Multiplication of `int64` values, `a * b`. -/
def mulI64 (a b : Int) : Int := wrapI64 (a * b)

/-- Addition of `int64` values, `a + b`. -/
def addI64 (a b : Int) : Int := wrapI64 (a + b)

/-! ## Data model -/

/-- Errors that travel through the jogger (`error` values of the Go code). -/
inductive Err where
  /-- Go `cmn.NewErrAborted` -/
  | aborted
  /-- Go `fs.ErrNoMountpaths` -/
  | noMountpaths
  /-- an error for which `cmn.IsErrBckNotFound` holds -/
  | bckNotFound
  /-- an error for which `cmn.IsErrRemoteBckNotFound` holds -/
  | remoteBckNotFound
  /-- an error for which `cmn.IsErrObjNought` holds -/
  | objNought
  /-- an error for which `os.IsNotExist` holds -/
  | notExist
  /-- any other error (I/O failure, failed `statfs`, ...) -/
  | other (msg : String)
  /-- not an `error` value: the run-time panic of an integer division by zero -/
  | divideByZero
  deriving DecidableEq, Repr

/-- Bucket identifier `cmn.Bck`. -/
structure Bck where
  name : String
  provider : String
  ns : String
  deriving DecidableEq, Repr

/-- The part of `cmn.Config` that the jogger reads. -/
structure Config where
  /-- Go `config.LRU.LowWM` (int64) -/
  lowWM : Int
  /-- Go `config.LRU.HighWM` (int64) -/
  highWM : Int
  /-- Go `config.LRU.DontEvictTime` as nanoseconds (int64) -/
  dontEvictTime : Int
  /-- Go `config.Disk.DiskUtilLowWM` -/
  diskUtilLowWM : Int
  /-- Go `config.Disk.DiskUtilHighWM` -/
  diskUtilHighWM : Int
  deriving DecidableEq, Repr

/-- What the jogger reads from a `*cluster.LOM`. -/
structure LOM where
  /-- Go `lom.ObjName` -/
  objName : String
  /-- Go `lom.FQN` -/
  fqn : String
  /-- Go `lom.AtimeUnix()`, nanoseconds; `lom.Atime()` is the same instant -/
  atime : Int
  /-- Go `lom.SizeBytes()` -/
  size : Int
  /-- Go `lom.HasCopies()` -/
  hasCopies : Bool
  /-- Go `lom.IsCopy()` -/
  isCopy : Bool
  /-- Go `lom.IsHRW()` -/
  isHRW : Bool
  /-- Go `lom.Bprops().EC.Enabled` -/
  ecEnabled : Bool
  deriving DecidableEq, Repr

/-- What the jogger reads from a `*cluster.CT`. -/
structure CT where
  /-- Go `ct.FQN()` -/
  fqn : String
  /-- Go `ct.Bck().Props.EC.Enabled` -/
  ecEnabled : Bool
  /-- Go `ct.MtimeUnix()`, valid after `LoadFromFS` -/
  mtime : Int
  /-- Go `ct.SizeBytes()` -/
  size : Int
  deriving DecidableEq, Repr

/-! ## The min-heap (`minHeap` and Go's `container/heap`)

`minHeap` implements `heap.Interface`; `heap.Init`, `heap.Push` and `heap.Pop`, with their
helpers `up` and `down`, are the functions of the package `container/heap` of the Go
standard library, translated from its source. -/

/-- The Go type `minHeap []*cluster.LOM`. -/
abbrev minHeap := List LOM

namespace minHeap

/-- Go `func (h minHeap) Len() int` -/
def Len (h : minHeap) : Nat := h.length

/-- Go `func (h minHeap) Less(i, j int) bool`: `h[i].Atime().Before(h[j].Atime())`. -/
def Less (h : minHeap) (i j : Nat) : Bool :=
  match h[i]?, h[j]? with
  | some a, some b => decide (a.atime < b.atime)
  | _, _ => false

/-- Go `func (h minHeap) Swap(i, j int)`: `h[i], h[j] = h[j], h[i]`. -/
def Swap (h : minHeap) (i j : Nat) : minHeap :=
  match h[i]?, h[j]? with
  | some a, some b => (h.set i b).set j a
  | _, _ => h

/-- Go `func (h *minHeap) Push(x interface{})`: append. -/
def Push (h : minHeap) (x : LOM) : minHeap := h ++ [x]

/-- Go `func (h *minHeap) Pop() interface{}`: remove and return the last element. -/
def Pop (h : minHeap) : Option LOM × minHeap := (h.getLast?, h.dropLast)

end minHeap

namespace heap

/-- The loop of `container/heap.up(h, j)`; `(j - 1) / 2` is `0` for `j = 0` in Go as in
`Nat`.  Every round moves `j` to its parent, so `j + 1` rounds of fuel are never used up. -/
def upLoop : Nat → minHeap → Nat → minHeap
  | 0, h, _ => h
  | fuel + 1, h, j =>
    let i := (j - 1) / 2 -- parent
    if i = j ∨ !h.Less j i then h
    else upLoop fuel (h.Swap i j) i

/-- Go `container/heap.up(h, j)`. -/
def up (h : minHeap) (j : Nat) : minHeap := upLoop (j + 1) h j

/-- The loop of `container/heap.down(h, i0, n)` (its boolean result is not used by
`Init`, `Push` and `Pop`).  Every round moves `i` to a child below `n`, so `n` rounds of
fuel are never used up. -/
def downLoop : Nat → minHeap → Nat → Nat → minHeap
  | 0, h, _, _ => h
  | fuel + 1, h, i, n =>
    let j1 := 2 * i + 1
    if j1 ≥ n then h
    else
      let j := if j1 + 1 < n ∧ h.Less (j1 + 1) j1 then j1 + 1 else j1
      if !h.Less j i then h
      else downLoop fuel (h.Swap i j) j n

/-- Go `container/heap.down(h, i0, n)`. -/
def down (h : minHeap) (i0 n : Nat) : minHeap := downLoop n h i0 n

/-- Go `container/heap.Init(h)`: `for i := n/2 - 1; i >= 0; i-- { down(h, i, n) }`. -/
def Init (h : minHeap) : minHeap :=
  (List.range (h.Len / 2)).reverse.foldl (fun acc i => down acc i h.Len) h

/-- Go `container/heap.Push(h, x)`: `h.Push(x); up(h, h.Len()-1)`. -/
def Push (h : minHeap) (x : LOM) : minHeap :=
  let h1 := minHeap.Push h x
  up h1 (h1.Len - 1)

/-- Go `container/heap.Pop(h)`: `n := h.Len() - 1; h.Swap(0, n); down(h, 0, n); return h.Pop()`.
On an empty heap Go panics (index out of range); the caller pops only when `Len() > 0`. -/
def Pop (h : minHeap) : Option LOM × minHeap :=
  if h.Len = 0 then (none, h)
  else
    let n := h.Len - 1
    minHeap.Pop (down (h.Swap 0 n) 0 n)

/-- Pop until the heap is empty, collecting the popped objects in order. -/
def popAll : Nat → minHeap → List LOM
  | 0, _ => []
  | fuel + 1, h =>
    match Pop h with
    | (some x, h1) => x :: popAll fuel h1
    | (none, _) => []

end heap

/-! ## The jogger and its surroundings -/

/-- Result of `ini.GetFSStats(path)`: `blocks, bavail uint64, bsize int64`
(`blocks, bavail < 2^64`). -/
structure FSStats where
  blocks : Nat
  bavail : Nat
  bsize : Int
  deriving DecidableEq, Repr

/-- Content types of `fs` (`fs.WorkfileType`, `fs.ObjectType`, `fs.ECSliceType`,
`fs.ECMetaType`) and any other string. -/
inductive ContentType where
  | work
  | obj
  | ecSlice
  | ecMeta
  | unknown (s : String)
  deriving DecidableEq, Repr

/-- The fields of `fs.ParsedFQN` that the jogger reads. -/
structure ParsedFQN where
  contentType : ContentType
  objName : String
  deriving DecidableEq, Repr

/-- Bucket properties as seen by `allow()` after a successful `b.Init(bowner)`. -/
structure BckProps where
  /-- Go `b.Props.LRU.Enabled` -/
  lruEnabled : Bool
  /-- Go `b.Props.EC.Enabled` -/
  ecEnabled : Bool
  /-- Go `b.Allow(cmn.AccessObjDELETE) == nil` -/
  allowDelete : Bool
  deriving DecidableEq, Repr

/-- Result of `xreg.GetRebMarked()` and of `xreg.GetResilverMarked()`. -/
structure XactMarked where
  /-- Go `.Interrupted` -/
  interrupted : Bool
  /-- Go `.Xact != nil` -/
  running : Bool
  deriving DecidableEq, Repr

/-- One entry handed by `fs.Walk` and `fs.Scanner` to their callback. -/
structure DirEntry where
  fqn : String
  isDir : Bool
  deriving DecidableEq, Repr

/-- What a directory traversal delivers: the entries handed to the callback, in order,
and the error with which the traversal itself ends, if any. -/
structure WalkPlan where
  entries : List DirEntry
  err : Option Err
  deriving DecidableEq, Repr

/-- The two pauses of the jogger, `cmn.ThrottleMin` and `cmn.ThrottleMax`. -/
inductive Pause where
  | throttleMin
  | throttleMax
  deriving DecidableEq, Repr

/-- The fields of `InitLRU` that steer the jogger (its callbacks are in `Env`). -/
structure InitLRU where
  /-- Go `Buckets []cmn.Bck`: list of buckets to run LRU -/
  buckets : List Bck
  /-- Go `Force`: ignore LRU prop when set to be true -/
  force : Bool
  /-- Go `Cleanup`: true - only remove trash, false - run LRU -/
  cleanup : Bool
  deriving DecidableEq, Repr

/-- The anonymous struct `lruJ.misplaced`. -/
structure Misplaced where
  loms : List LOM
  ec : List CT
  deriving DecidableEq, Repr

/-- The Go struct `lruJ`: a single LRU context and a single jogger that traverses and
evicts a single given mountpath. -/
structure lruJ where
  curSize : Int
  totalSize : Int
  newest : Int
  heap : minHeap
  oldWork : List String
  misplaced : Misplaced
  bck : Bck
  now : Int
  /-- Go `j.ini` (the same value as `j.p.ini`) -/
  ini : InitLRU
  /-- Go `j.mpathInfo.Path` -/
  mpath : String
  config : Config
  throttle : Bool
  allowDelObj : Bool
  deriving DecidableEq, Repr

/-- What the jogger did, in order.  The trace has no counterpart in the Go code: it
records the calls with an effect outside the jogger so that properties can speak about
them. -/
inductive Event where
  /-- Go `jogBck` starts `fs.Walk` over the bucket, with the current `j.allowDelObj` -/
  | walkBck (bck : Bck) (allowDelObj : Bool)
  /-- Go `j.ini.T.TrashNonExistingBucket(bck)` -/
  | trashBck (bck : Bck)
  /-- Go `os.RemoveAll` / `os.Remove` in `removeTrash`, with its success -/
  | rmTrash (fqn : String) (ok : Bool)
  /-- Go `cos.RemoveFile(workfqn)` in step 1 of `evict`, with its success -/
  | rmWork (fqn : String) (ok : Bool)
  /-- removal of a misplaced object in step 2 of `evict`, with the final `removed` flag -/
  | rmMisplacedLom (fqn : String) (ok : Bool)
  /-- Go `os.Remove(ct.FQN())` in step 3 of `evict`, with its success -/
  | rmMisplacedEC (fqn : String) (ok : Bool)
  /-- Go `evictObj(lom)` in step 4 of `evict`, with its result -/
  | evictObj (lom : LOM) (ok : Bool)
  deriving DecidableEq, Repr

/-- The operations of the surroundings over a world `W`.  Observers read the world;
operations with an effect return the next world, which may differ in any way (other
goroutines, peers and the clock act between two calls). -/
structure Env (W : Type) where
  /-- Go `ini.GetFSStats(path)` -/
  getFSStats : W → String → Except Err FSStats
  /-- Go `ini.GetFSUsedPercentage(path)` -/
  getFSUsedPercentage : W → String → Int × Bool
  /-- Go `cmn.GCO.Get()` -/
  gcoGet : W → Config
  /-- Go `time.Now().UnixNano()` -/
  nowUnixNano : W → Int
  /-- Go `fs.Get()`: the available mountpaths -/
  availablePaths : W → List String
  /-- Go `cmn.Providers.ToSlice()` -/
  providers : List String
  /-- Go `cluster.NewBckEmbed(bck).Init(bowner)` and the properties it loads -/
  bckInit : W → Bck → Except Err BckProps
  /-- Go `j.ini.T.TrashNonExistingBucket(bck)` -/
  trashNonExistingBucket : W → Bck → W
  /-- Go `fs.AllMpathBcks(&opts)` for a mountpath and a provider -/
  allMpathBcks : W → String → String → Except Err (List Bck)
  /-- Go `ios.GetDirSize(j.mpathInfo.MakePathCT(bck, fs.ObjectType))` -/
  getDirSize : W → String → Bck → Nat
  /-- Go `fs.Walk(opts)` over a bucket of a mountpath -/
  fsWalk : W → String → Bck → WalkPlan
  /-- Go `fs.Scanner(j.mpathInfo.MakePathTrash(), ...)` -/
  scanTrash : W → String → WalkPlan
  /-- Go `os.RemoveAll(fqn) == nil` -/
  osRemoveAll : W → String → Bool × W
  /-- Go `os.Remove(fqn) == nil` -/
  osRemove : W → String → Bool × W
  /-- Go `cos.RemoveFile(fqn) == nil` -/
  removeFile : W → String → Bool × W
  /-- Go `os.Stat(fqn)`: the size when there is no error -/
  osStat : W → String → Option Int
  /-- Go `fs.Access(fqn) == nil` -/
  fsAccess : W → String → Bool
  /-- Go `cluster.ResolveFQN(fqn)`; `none` is an error -/
  resolveFQN : W → String → Option ParsedFQN
  /-- Go `fs.CSM.RegisteredContentTypes[fs.WorkfileType].ParseUniqueFQN(base)`: `(old, ok)` -/
  parseUniqueFQN : W → String → Bool × Bool
  /-- Go `fs.CSM.GenContentFQN(x, fs.ECMetaType, "")` from the FQN of a LOM or CT -/
  ecMetaFQN : String → String
  /-- Go `ct.Clone(fs.ECSliceType).FQN()` from the FQN of a CT -/
  ecSliceFQN : String → String
  /-- Go `ct.Clone(fs.ObjectType).FQN()` from the FQN of a CT -/
  objectFQN : String → String
  /-- Go `cluster.NewCTFromFQN(fqn, bowner)`; `none` is an error -/
  newCTFromFQN : W → String → Option CT
  /-- Go `ct.LoadFromFS()`; `none` is an error -/
  ctLoadFromFS : W → CT → Option CT
  /-- Go `cluster.NewCTFromLOM(lom, fs.ObjectType)` -/
  newCTFromLOM : LOM → CT
  /-- Go `lom := &cluster.LOM{ObjName: name}; lom.Init(bck)`; `none` is an error -/
  lomInit : W → Bck → String → Option LOM
  /-- Go `lom.Load(false, false)`; `none` is an error -/
  lomLoad : W → LOM → Option LOM
  /-- Go `lom.FromFS()`; `none` is an error -/
  lomFromFS : W → LOM → Option LOM
  /-- Go `lom.DelExtraCopies(fqn)`: its first result -/
  delExtraCopies : W → LOM → String → Bool × W
  /-- Go `lom.Lock(true); lom.Remove() == nil; lom.Unlock(true)` -/
  lomRemove : W → LOM → Bool × W
  /-- Go `xreg.GetRebMarked()` -/
  rebMarked : W → XactMarked
  /-- Go `xreg.GetResilverMarked()` -/
  resilverMarked : W → XactMarked
  /-- Go `<-xlru.ChanAbort()` is ready -/
  chanAbort : W → Bool
  /-- Go `<-j.stopCh` is ready (for the jogger of the given mountpath) -/
  stopCh : W → String → Bool
  /-- the world after receiving from `j.stopCh` -/
  recvStop : W → String → W
  /-- Go `xlru.Finished()` -/
  finished : W → Bool
  /-- Go `time.Sleep(d)` -/
  sleep : W → Pause → W
  /-- Go `j.mpathInfo.IsIdle(j.config)` -/
  isIdle : W → String → Config → Bool
  /-- Go `fs.GetMpathUtil(j.mpathInfo.Path)` -/
  getMpathUtil : W → String → Int
  /-- Go `cos.Ratio(high, low, curr)`; a `float32` is a rational number -/
  ratio : Int → Int → Int → Rat

/-- The state outside the jogger: the world, the counters the jogger adds to, and the
trace of what was done. -/
structure Sys (W : Type) where
  w : W
  /-- Go `stats.LruEvictSize` -/
  lruEvictSize : Int
  /-- Go `stats.LruEvictCount` -/
  lruEvictCount : Int
  /-- the xaction's object counter (`xlru.ObjectsAdd`) -/
  objs : Int
  /-- the xaction's byte counter (`xlru.BytesAdd`) -/
  bytes : Int
  trace : List Event

/-- Go `minEvictThresh = 10 * cos.MiB` -/
def minEvictThresh : Int := 10 * (1024 * 1024)

/-- Go `capCheckThresh = 256 * cos.MiB` -/
def capCheckThresh : Int := 256 * (1024 * 1024)

/-- Go `cos.KiB` -/
def KiB : Int := 1024

variable {W : Type}

/-- Record an event. -/
def Sys.log (s : Sys W) (e : Event) : Sys W := { s with trace := s.trace ++ [e] }

/-- Go `func rmMisplaced() bool` -/
def rmMisplaced (E : Env W) (w : W) : Bool :=
  let g := E.rebMarked w
  let l := E.resilverMarked w
  !g.interrupted && !l.interrupted && !g.running && !l.running

/-- Go `func (j *lruJ) evictSize() (err error)`.  All arithmetic is 64-bit: `blocks`,
`bavail`, `used`, `usedPct`, `lwmBlocks` are `uint64`, `bsize` and `totalSize` are
`int64`.  A zero `blocks` makes the division panic. -/
def evictSize (E : Env W) (j : lruJ) (w : W) : Option Err × lruJ :=
  let lwm := j.config.lowWM
  let hwm := j.config.highWM
  match E.getFSStats w j.mpath with
  | .error e => (some e, j)
  | .ok st =>
    if st.blocks = 0 then (some Err.divideByZero, j)
    else
      let used := subU64 st.blocks st.bavail
      let usedPct := mulU64 used 100 / st.blocks
      if usedPct < toU64 hwm then (none, j)
      else
        let lwmBlocks := mulU64 st.blocks (toU64 lwm) / 100
        (none, { j with totalSize := mulI64 (toI64 (subU64 used lwmBlocks)) st.bsize })

/-- Go `func (j *lruJ) allow() (ok bool, err error)` -/
def allow (E : Env W) (j : lruJ) (w : W) : Bool × Option Err :=
  match E.bckInit w j.bck with
  | .error e => (false, some e)
  | .ok props => (props.lruEnabled && props.allowDelete, none)

/-- Go `func (j *lruJ) yieldTerm() error` -/
def yieldTerm (E : Env W) (j : lruJ) (s : Sys W) : Option Err × Sys W :=
  if E.chanAbort s.w then (some Err.aborted, s)
  else if E.stopCh s.w j.mpath then (some Err.aborted, { s with w := E.recvStop s.w j.mpath })
  else
    let s1 := if j.throttle then { s with w := E.sleep s.w Pause.throttleMin } else s
    if E.finished s1.w then (some Err.aborted, s1) else (none, s1)

/-- Go `func (j *lruJ) _throttle(usedPct int64) (err error)`.  The division of `int64`
values truncates toward zero (`Int.tdiv`). -/
def _throttle (E : Env W) (j : lruJ) (s : Sys W) (usedPct : Int) :
    Option Err × lruJ × Sys W :=
  if E.isIdle s.w j.mpath j.config then (none, j, s)
  else
    let ratioCapacity := E.ratio j.config.highWM j.config.lowWM usedPct
    let curr := E.getMpathUtil s.w j.mpath
    let ratioUtilization := E.ratio j.config.diskUtilHighWM j.config.diskUtilLowWM curr
    if ratioUtilization > ratioCapacity then
      let j1 := if usedPct < Int.tdiv (j.config.lowWM + j.config.highWM) 2
        then { j with throttle := true } else j
      let s1 := { s with w := E.sleep s.w Pause.throttleMax }
      let r := yieldTerm E j1 s1
      (r.1, j1, r.2)
    else (none, j, s)

/-- Go `func (j *lruJ) postRemove(prev, size int64) (capCheck int64, err error)` -/
def postRemove (E : Env W) (j : lruJ) (s : Sys W) (prev size : Int) :
    (Int × Option Err) × lruJ × Sys W :=
  let j1 := { j with totalSize := j.totalSize - size }
  let capCheck := prev + size
  match yieldTerm E j1 s with
  | (some e, s1) => ((capCheck, some e), j1, s1)
  | (none, s1) =>
    if capCheck < capCheckThresh then ((capCheck, none), j1, s1)
    else
      -- init, recompute, and throttle - once per capCheckThresh
      let j2 := { j1 with throttle := false }
      let j3 := { j2 with allowDelObj := (allow E j2 s1.w).1 }
      let j4 := { j3 with config := E.gcoGet s1.w }
      let j5 := { j4 with now := E.nowUnixNano s1.w }
      let up := E.getFSUsedPercentage s1.w j5.mpath
      if up.2 && decide (up.1 < j5.config.highWM) then
        let r := _throttle E j5 s1 up.1
        ((0, r.1), r.2.1, r.2.2)
      else ((0, none), j5, s1)

/-- Go `func evictObj(lom *cluster.LOM) (ok bool)` -/
def evictObj (E : Env W) (s : Sys W) (lom : LOM) : Bool × Sys W :=
  let r := E.lomRemove s.w lom
  (r.1, ({ s with w := r.2 } : Sys W).log (Event.evictObj lom r.1))

/-- The zero value `&cluster.LOM{ObjName: name}`. -/
def LOM.named (name : String) : LOM :=
  { objName := name, fqn := "", atime := 0, size := 0, hasCopies := false, isCopy := false,
    isHRW := false, ecEnabled := false }

/-- Step 1 of `evict`: `for _, workfqn := range j.oldWork { ... }`; returns the freed
bytes added to `size`. -/
def evictOldWork (E : Env W) : List String → Sys W → Int → Int × Sys W
  | [], s, size => (size, s)
  | workfqn :: rest, s, size =>
    match E.osStat s.w workfqn with
    | none => evictOldWork E rest s size
    | some finfoSize =>
      let r := E.removeFile s.w workfqn
      let s1 := ({ s with w := r.2 } : Sys W).log (Event.rmWork workfqn r.1)
      if r.1 then evictOldWork E rest s1 (size + finfoSize)
      else evictOldWork E rest s1 size

/-- The removal of one misplaced object in step 2 of `evict` (the body of the loop up to
`if removed`): the final `removed` flag, the re-initialised `lom`, the next world. -/
def removeMisplacedLom (E : Env W) (j : lruJ) (w : W) (old : LOM) : Bool × LOM × W :=
  let fqn := old.fqn
  let first : Bool × LOM × W :=
    match E.lomInit w j.bck old.objName with
    | none =>
      let r := E.osRemove w fqn
      (r.1, LOM.named old.objName, r.2)
    | some lom =>
      match E.lomFromFS w lom with
      | none =>
        let r := E.osRemove w fqn
        (r.1, lom, r.2)
      | some lom1 =>
        let r := E.delExtraCopies w lom1 fqn
        (r.1, lom1, r.2)
  if !first.1 && first.2.1.fqn != fqn then
    let r := E.osRemove first.2.2 fqn
    (r.1, first.2.1, r.2)
  else first

/-- Step 2 of `evict`: `for _, lom := range j.misplaced.loms { ... }`; carries `capCheck`
and stops at the first error of `postRemove`. -/
def evictMisplacedLoms (E : Env W) :
    List LOM → lruJ → Sys W → Int → (Int × Option Err) × lruJ × Sys W
  | [], j, s, capCheck => ((capCheck, none), j, s)
  | old :: rest, j, s, capCheck =>
    let r := removeMisplacedLom E j s.w old
    let s1 := ({ s with w := r.2.2 } : Sys W).log (Event.rmMisplacedLom old.fqn r.1)
    if r.1 then
      match postRemove E j s1 capCheck r.2.1.size with
      | ((capCheck1, some e), j1, s2) => ((capCheck1, some e), j1, s2)
      | ((capCheck1, none), j1, s2) => evictMisplacedLoms E rest j1 s2 capCheck1
    else evictMisplacedLoms E rest j s1 capCheck

/-- Step 3 of `evict`: `for _, ct := range j.misplaced.ec { ... }`. -/
def evictMisplacedEC (E : Env W) :
    List CT → lruJ → Sys W → Int → (Int × Option Err) × lruJ × Sys W
  | [], j, s, capCheck => ((capCheck, none), j, s)
  | ct :: rest, j, s, capCheck =>
    if E.fsAccess s.w (E.ecMetaFQN ct.fqn) then evictMisplacedEC E rest j s capCheck
    else
      let r := E.osRemove s.w ct.fqn
      let s1 := ({ s with w := r.2 } : Sys W).log (Event.rmMisplacedEC ct.fqn r.1)
      if r.1 then
        match postRemove E j s1 capCheck ct.size with
        | ((capCheck1, some e), j1, s2) => ((capCheck1, some e), j1, s2)
        | ((capCheck1, none), j1, s2) => evictMisplacedEC E rest j1 s2 capCheck1
      else evictMisplacedEC E rest j s1 capCheck

/-- The local variables of `evict` that its last loop updates. -/
structure EvictVars where
  size : Int
  bevicted : Int
  fevicted : Int
  capCheck : Int
  deriving DecidableEq, Repr

/-- Step 4 of `evict`: `for h.Len() > 0 && j.totalSize > 0 { ... }`.  Every round pops
one object, so `h.Len()` rounds of fuel are never used up. -/
def evictHeap (E : Env W) :
    Nat → lruJ → Sys W → EvictVars → (EvictVars × Option Err) × lruJ × Sys W
  | 0, j, s, v => ((v, none), j, s)
  | fuel + 1, j, s, v =>
    if j.heap.Len > 0 ∧ j.totalSize > 0 then
      match heap.Pop j.heap with
      | (none, _) => ((v, none), j, s)
      | (some lom, h1) =>
        let j1 := { j with heap := h1 }
        let r := evictObj E s lom
        if !r.1 then evictHeap E fuel j1 r.2 v
        else
          let objSize := lom.size
          let v1 : EvictVars :=
            { v with bevicted := v.bevicted + objSize, size := v.size + objSize,
                     fevicted := v.fevicted + 1 }
          match postRemove E j1 r.2 v1.capCheck objSize with
          | ((capCheck1, some e), j2, s2) => (({ v1 with capCheck := capCheck1 }, some e), j2, s2)
          | ((capCheck1, none), j2, s2) => evictHeap E fuel j2 s2 { v1 with capCheck := capCheck1 }
    else ((v, none), j, s)

/-- Go `func (j *lruJ) evict() (size int64, err error)` -/
def evict (E : Env W) (j : lruJ) (s : Sys W) : (Int × Option Err) × lruJ × Sys W :=
  -- 1. rm older work
  let r1 := evictOldWork E j.oldWork s 0
  let size := r1.1
  let j1 := { j with oldWork := [] }
  -- 2. rm misplaced
  let r2 :=
    if rmMisplaced E r1.2.w then evictMisplacedLoms E j1.misplaced.loms j1 r1.2 0
    else ((0, none), j1, r1.2)
  match r2 with
  | ((_, some e), j2, s2) => ((size, some e), j2, s2)
  | ((capCheck2, none), j2, s2) =>
    let j2a := { j2 with misplaced := { j2.misplaced with loms := [] } }
    -- 3. rm EC slices and replicas that are still without correcponding metafile
    match evictMisplacedEC E j2a.misplaced.ec j2a s2 capCheck2 with
    | ((_, some e), j3, s3) => ((size, some e), j3, s3)
    | ((capCheck3, none), j3, s3) =>
      let j3a := { j3 with misplaced := { j3.misplaced with ec := [] } }
      -- 4. evict(sic!) and house-keep
      match evictHeap E j3a.heap.Len j3a s3
          { size := size, bevicted := 0, fevicted := 0, capCheck := capCheck3 } with
      | ((v, some e), j4, s4) => ((v.size, some e), j4, s4)
      | ((v, none), j4, s4) =>
        ((v.size, none), j4,
          { s4 with lruEvictSize := s4.lruEvictSize + v.bevicted,
                    lruEvictCount := s4.lruEvictCount + v.fevicted,
                    objs := s4.objs + v.fevicted,
                    bytes := s4.bytes + v.bevicted })

/-- The file part of `filepath.Split(fqn)`: what follows the last separator. -/
def filepathBase (fqn : String) : String :=
  String.mk (fqn.toList.reverse.takeWhile (fun c => c ≠ '/')).reverse

/-- Go `func (j *lruJ) visitCT(parsedFQN fs.ParsedFQN, fqn string)` -/
def visitCT (E : Env W) (j : lruJ) (w : W) (parsedFQN : ParsedFQN) (fqn : String) : lruJ :=
  match parsedFQN.contentType with
  | ContentType.work =>
    let r := E.parseUniqueFQN w (filepathBase fqn)
    -- workfiles: remove old or do nothing
    if r.2 && r.1 then { j with oldWork := j.oldWork ++ [fqn] } else j
  | ContentType.ecSlice =>
    match E.newCTFromFQN w fqn with
    | none => { j with oldWork := j.oldWork ++ [fqn] }
    | some ct0 =>
      if !ct0.ecEnabled then { j with oldWork := j.oldWork ++ [fqn] }
      else
        match E.ctLoadFromFS w ct0 with
        | none => j
        | some ct =>
          if addI64 ct.mtime j.config.dontEvictTime > j.now then j
          else if !E.fsAccess w (E.ecMetaFQN ct.fqn) then
            { j with misplaced := { j.misplaced with ec := j.misplaced.ec ++ [ct] } }
          else j
  | ContentType.ecMeta =>
    match E.newCTFromFQN w fqn with
    | none => { j with oldWork := j.oldWork ++ [fqn] }
    | some ct =>
      if !ct.ecEnabled then { j with oldWork := j.oldWork ++ [fqn] }
      else if E.fsAccess w (E.ecSliceFQN ct.fqn) then j
      else if E.fsAccess w (E.objectFQN ct.fqn) then j
      else { j with oldWork := j.oldWork ++ [fqn] }
  | _ => j -- debug.Assertf(false, ...)

/-- Go `func (j *lruJ) visitLOM(parsedFQN fs.ParsedFQN)` -/
def visitLOM (E : Env W) (j : lruJ) (w : W) (parsedFQN : ParsedFQN) : lruJ :=
  if !j.allowDelObj then j
  else
    match E.lomInit w j.bck parsedFQN.objName with
    | none => j
    | some lom0 =>
      match E.lomLoad w lom0 with
      | none => j
      | some lom =>
        if addI64 lom.atime j.config.dontEvictTime > j.now then j
        else if lom.hasCopies && lom.isCopy then j
        else if !lom.isHRW then
          if lom.ecEnabled then
            if !E.fsAccess w (E.ecMetaFQN lom.fqn) then
              { j with misplaced :=
                  { j.misplaced with ec := j.misplaced.ec ++ [E.newCTFromLOM lom] } }
            else j
          else { j with misplaced := { j.misplaced with loms := j.misplaced.loms ++ [lom] } }
        else if j.ini.cleanup then j
        -- do nothing if the heap's curSize >= totalSize and
        -- the file is more recent then the the heap's newest.
        else if j.curSize ≥ j.totalSize ∧ lom.atime > j.newest then j
        else
          let j1 := { j with heap := heap.Push j.heap lom, curSize := j.curSize + lom.size }
          if lom.atime > j1.newest then { j1 with newest := lom.atime } else j1

/-- Go `func (j *lruJ) walk(fqn string, de fs.DirEntry) error` -/
def walk (E : Env W) (j : lruJ) (s : Sys W) (de : DirEntry) : Option Err × lruJ × Sys W :=
  if de.isDir then (none, j, s)
  else
    match yieldTerm E j s with
    | (some e, s1) => (some e, j, s1)
    | (none, s1) =>
      match E.resolveFQN s1.w de.fqn with
      | none => (none, j, s1)
      | some parsedFQN =>
        if parsedFQN.contentType ≠ ContentType.obj then
          (none, visitCT E j s1.w parsedFQN de.fqn, s1)
        else (none, visitLOM E j s1.w parsedFQN, s1)

/-- The traversal of `fs.Walk`: the callback `j.walk` on every entry, up to the first
entry for which it returns an error. -/
def walkEntries (E : Env W) : List DirEntry → lruJ → Sys W → Option Err × lruJ × Sys W
  | [], j, s => (none, j, s)
  | de :: rest, j, s =>
    match walk E j s de with
    | (some e, j1, s1) => (some e, j1, s1)
    | (none, j1, s1) => walkEntries E rest j1 s1

/-- Step 1 of `jogBck`: `h := (*j.heap)[:0]; j.heap = &h; heap.Init(j.heap)`. -/
def resetHeap (j : lruJ) : lruJ := { j with heap := heap.Init (j.heap.take 0) }

/-- Go `func (j *lruJ) jogBck() (size int64, err error)` -/
def jogBck (E : Env W) (j : lruJ) (s : Sys W) : (Int × Option Err) × lruJ × Sys W :=
  -- 1. init per-bucket min-heap (and reuse the slice)
  let j1 := resetHeap j
  -- 2. collect
  let j2 := { j1 with now := E.nowUnixNano s.w }
  let s0 := s.log (Event.walkBck j2.bck j2.allowDelObj)
  let plan := E.fsWalk s0.w j2.mpath j2.bck
  match walkEntries E plan.entries j2 s0 with
  | (some e, j3, s3) => ((0, some e), j3, s3)
  | (none, j3, s3) =>
    match plan.err with
    | some e => ((0, some e), j3, s3)
    | none =>
      -- 3. evict
      evict E j3 s3

/-- Go `func (j *lruJ) sortBsize(bcks []cmn.Bck)`: buckets by on-disk size, biggest first
(`sort.Slice` leaves the order of buckets of equal size open; here they keep theirs). -/
def sortBsize (E : Env W) (j : lruJ) (w : W) (bcks : List Bck) : List Bck :=
  bcks.insertionSort (fun a b => E.getDirSize w j.mpath a ≥ E.getDirSize w j.mpath b)

/-- The loop of `jogBcks`: `for _, bck := range bcks { ... }`. -/
def jogBcksLoop (E : Env W) (force : Bool) :
    List Bck → lruJ → Sys W → Option Err × lruJ × Sys W
  | [], j, s => (none, j, s)
  | bck :: rest, j, s =>
    let j1 := { j with bck := bck }
    match allow E j1 s.w with
    | (ok, some e) =>
      let j2 := { j1 with allowDelObj := ok }
      let s1 :=
        if e = Err.bckNotFound ∨ e = Err.remoteBckNotFound then
          ({ s with w := E.trashNonExistingBucket s.w bck } : Sys W).log (Event.trashBck bck)
        else s
      jogBcksLoop E force rest j2 s1
    | (ok, none) =>
      let j2 := { j1 with allowDelObj := ok }
      let j3 := { j2 with allowDelObj := j2.allowDelObj || force }
      match jogBck E j3 s with
      | ((_, some e), j4, s4) => (some e, j4, s4)
      | ((size, none), j4, s4) =>
        if !j4.ini.cleanup then
          if size < KiB then jogBcksLoop E force rest j4 s4
          else
            -- recompute size-to-evict
            match evictSize E j4 s4.w with
            | (some e, j5) => (some e, j5, s4)
            | (none, j5) =>
              if j5.totalSize < KiB then (none, j5, s4)
              else jogBcksLoop E force rest j5 s4
        else jogBcksLoop E force rest j4 s4

/-- Go `func (j *lruJ) jogBcks(bcks []cmn.Bck, force bool) (err error)` -/
def jogBcks (E : Env W) (bcks : List Bck) (force : Bool) (j : lruJ) (s : Sys W) :
    Option Err × lruJ × Sys W :=
  if bcks.length = 0 then (none, j, s)
  else
    let bcks1 := if bcks.length > 1 then sortBsize E j s.w bcks else bcks
    jogBcksLoop E force bcks1 j s

/-- Go `func (j *lruJ) jog(providers []string) (err error)` -/
def jog (E : Env W) : List String → lruJ → Sys W → Option Err × lruJ × Sys W
  | [], j, s => (none, j, s)
  | provider :: rest, j, s =>
    match E.allMpathBcks s.w j.mpath provider with
    | .error e => (some e, j, s)
    | .ok bcks =>
      match jogBcks E bcks false j s with
      | (some e, j1, s1) => (some e, j1, s1)
      | (none, j1, s1) => jog E rest j1 s1

/-- The callback that `removeTrash` hands to `fs.Scanner`. -/
def removeTrashEntry (E : Env W) (j : lruJ) (s : Sys W) (de : DirEntry) :
    Option Err × lruJ × Sys W :=
  if de.isDir then
    let r := E.osRemoveAll s.w de.fqn
    let s1 := ({ s with w := r.2 } : Sys W).log (Event.rmTrash de.fqn r.1)
    if r.1 then
      let up := E.getFSUsedPercentage s1.w j.mpath
      if up.2 && decide (up.1 < j.config.highWM) then _throttle E j s1 up.1
      else (none, j, s1)
    else (none, j, s1)
  else
    let r := E.osRemove s.w de.fqn
    (none, j, ({ s with w := r.2 } : Sys W).log (Event.rmTrash de.fqn r.1))

/-- The traversal of `fs.Scanner` in `removeTrash`, up to the first error of the
callback. -/
def scanEntries (E : Env W) : List DirEntry → lruJ → Sys W → Option Err × lruJ × Sys W
  | [], j, s => (none, j, s)
  | de :: rest, j, s =>
    match removeTrashEntry E j s de with
    | (some e, j1, s1) => (some e, j1, s1)
    | (none, j1, s1) => scanEntries E rest j1 s1

/-- Go `func (j *lruJ) removeTrash() (err error)` -/
def removeTrash (E : Env W) (j : lruJ) (s : Sys W) : Option Err × lruJ × Sys W :=
  let plan := E.scanTrash s.w j.mpath
  let r := scanEntries E plan.entries j s
  let err := match r.1 with
    | some e => some e
    | none => plan.err
  if err = some Err.notExist then (none, r.2) else (err, r.2)

/-- Go `func (j *lruJ) run(providers []string)`.  The Go function returns nothing: it logs
the error it ends with.  The first component is that error (the value of `err` when the
function returns). -/
def run (E : Env W) (j : lruJ) (s : Sys W) : Option Err × lruJ × Sys W :=
  match removeTrash E j s with
  | (some e, j1, s1) => (some e, j1, s1)
  | (none, j1, s1) =>
    let jogAll := fun (j2 : lruJ) =>
      if j2.ini.buckets.length ≠ 0 then jogBcks E j2.ini.buckets j2.ini.force j2 s1
      else jog E E.providers j2 s1
    if !j1.ini.cleanup then
      -- compute the size (bytes) to free up (and do it after removing the $trash)
      match evictSize E j1 s1.w with
      | (some e, j2) => (some e, j2, s1)
      | (none, j2) =>
        if j2.totalSize < minEvictThresh then (none, j2, s1)
        else jogAll j2
    else jogAll j1

/-- The jogger that `Run` creates for a mountpath: empty heap and lists, zero values
elsewhere. -/
def newJogger (ini : InitLRU) (config : Config) (mpath : String) : lruJ :=
  { curSize := 0, totalSize := 0, newest := 0, heap := [], oldWork := [],
    misplaced := { loms := [], ec := [] }, bck := { name := "", provider := "", ns := "" },
    now := 0, ini := ini, mpath := mpath, config := config, throttle := false,
    allowDelObj := false }

/-- How `Run` ends: with a call of `xlru.Finish(err)`, or not at all when a jogger
panicked. -/
inductive RunResult where
  | finish (err : Option Err)
  | crash
  deriving DecidableEq, Repr

/-- The joggers of `Run`, one after the other (in Go they run concurrently and `Run`
waits for all of them): the errors they ended with and the state they leave. -/
def runJoggers (E : Env W) : List lruJ → Sys W → List (Option Err) × Sys W
  | [], s => ([], s)
  | j :: rest, s =>
    let r := run E j s
    let rs := runJoggers E rest r.2.2
    (r.1 :: rs.1, rs.2)

/-- Go `func Run(ini *InitLRU)` -/
def Run (E : Env W) (ini : InitLRU) (s : Sys W) : RunResult × Sys W :=
  let config := E.gcoGet s.w
  let availablePaths := E.availablePaths s.w
  let num := availablePaths.length
  if num = 0 then (RunResult.finish (some Err.noMountpaths), s)
  else
    let joggers := availablePaths.map (newJogger ini config)
    let rs := runJoggers E joggers s
    if some Err.divideByZero ∈ rs.1 then (RunResult.crash, rs.2)
    else (RunResult.finish none, rs.2)

/-! ## Notions used to state the properties -/

/-- Access time stored at index `k` (`0` past the end). -/
def keyAt (h : minHeap) (k : Nat) : Int :=
  match h[k]? with
  | some a => a.atime
  | none => 0

/-- Heap order on the first `n` slots: no slot is older than its parent. -/
def HeapOn (h : minHeap) (n : Nat) : Prop :=
  ∀ k, 0 < k → k < n → keyAt h ((k - 1) / 2) ≤ keyAt h k

/-- Heap order on the first `n` slots except below slot `i`, whose children are already
bounded by the parent of `i` (the state of `down` between two rounds). -/
def DownInv (h : minHeap) (i n : Nat) : Prop :=
  (∀ k, 0 < k → k < n → (k - 1) / 2 ≠ i → keyAt h ((k - 1) / 2) ≤ keyAt h k) ∧
  (∀ k, 0 < k → k < n → (k - 1) / 2 = i → 0 < i → keyAt h ((i - 1) / 2) ≤ keyAt h k)

/-- Heap order on the first `n` slots except above slot `j`, whose children are already
bounded by the parent of `j` (the state of `up` between two rounds). -/
def UpInv (h : minHeap) (j n : Nat) : Prop :=
  (∀ k, 0 < k → k < n → k ≠ j → keyAt h ((k - 1) / 2) ≤ keyAt h k) ∧
  (∀ k, 0 < k → k < n → (k - 1) / 2 = j → 0 < j → keyAt h ((j - 1) / 2) ≤ keyAt h k)

/-- The usage percentage of the specification (section 4.5), `used * 100 / blocks` with
`used = blocks - bavail`, in the unsigned 64-bit arithmetic of the code. -/
def specUsedPct (st : FSStats) : Nat := mulU64 (st.blocks - st.bavail) 100 / st.blocks

/-- The budget of the specification (section 4.5), `(used - lwmBlocks) * bsize` with
`used = blocks - bavail` and `lwmBlocks = blocks * LowWM / 100`, over the integers. -/
def specTotalSize (lowWM : Int) (st : FSStats) : Int :=
  ((st.blocks : Int) - st.bavail - (st.blocks : Int) * lowWM / 100) * st.bsize

/-- Sum of the sizes of the objects in a heap. -/
def heapBytes (h : minHeap) : Int := (h.map LOM.size).sum

/-- The trace `t1` is `t0` followed by events that all satisfy `P`. -/
def Extends (P : Event → Prop) (t0 t1 : List Event) : Prop :=
  ∃ evs, t1 = t0 ++ evs ∧ ∀ e ∈ evs, P e

/-- The event is the removal of a misplaced object (step 2 of `evict`). -/
def Event.isRmMisplacedLom : Event → Bool
  | Event.rmMisplacedLom _ _ => true
  | _ => false

/-- The event is the eviction of an object popped from the heap (step 4 of `evict`). -/
def Event.isEvictObj : Event → Bool
  | Event.evictObj _ _ => true
  | _ => false

/-- The objects that were popped from the heap and successfully removed, in order. -/
def evictedObjs : List Event → List LOM
  | [] => []
  | Event.evictObj lom true :: rest => lom :: evictedObjs rest
  | _ :: rest => evictedObjs rest

/-! ## A small world for concrete runs

The world is a counter of the operations with an effect; every such operation adds one.
One mountpath `/mp`, 90% full (`1000000` blocks of `4096` bytes, `100000` available), low
and high watermarks `70` and `80`, no bucket, no file, nothing running. -/

/-- The configuration of the small world. -/
def exConfig : Config :=
  { lowWM := 70, highWM := 80, dontEvictTime := 0, diskUtilLowWM := 20, diskUtilHighWM := 80 }

/-- The small world. -/
def exEnv : Env Nat :=
  { getFSStats := fun _ _ => .ok { blocks := 1000000, bavail := 100000, bsize := 4096 }
    getFSUsedPercentage := fun _ _ => (90, true)
    gcoGet := fun _ => exConfig
    nowUnixNano := fun w => 1000 + w
    availablePaths := fun _ => ["/mp"]
    providers := ["ais"]
    bckInit := fun _ _ => .ok { lruEnabled := true, ecEnabled := false, allowDelete := true }
    trashNonExistingBucket := fun w _ => w + 1
    allMpathBcks := fun _ _ _ => .ok []
    getDirSize := fun _ _ _ => 0
    fsWalk := fun _ _ _ => { entries := [], err := none }
    scanTrash := fun _ _ => { entries := [], err := none }
    osRemoveAll := fun w _ => (true, w + 1)
    osRemove := fun w _ => (true, w + 1)
    removeFile := fun w _ => (true, w + 1)
    osStat := fun _ _ => none
    fsAccess := fun _ _ => false
    resolveFQN := fun _ _ => none
    parseUniqueFQN := fun _ _ => (false, false)
    ecMetaFQN := fun fqn => fqn ++ ".meta"
    ecSliceFQN := fun fqn => fqn ++ ".slice"
    objectFQN := fun fqn => fqn ++ ".obj"
    newCTFromFQN := fun _ _ => none
    ctLoadFromFS := fun _ ct => some ct
    newCTFromLOM := fun lom => { fqn := lom.fqn, ecEnabled := lom.ecEnabled, mtime := 0, size := 0 }
    lomInit := fun _ _ _ => none
    lomLoad := fun _ lom => some lom
    lomFromFS := fun _ lom => some lom
    delExtraCopies := fun w _ _ => (true, w + 1)
    lomRemove := fun w _ => (true, w + 1)
    rebMarked := fun _ => { interrupted := false, running := false }
    resilverMarked := fun _ => { interrupted := false, running := false }
    chanAbort := fun _ => false
    stopCh := fun _ _ => false
    recvStop := fun w _ => w + 1
    finished := fun _ => false
    sleep := fun w _ => w + 1
    isIdle := fun _ _ _ => true
    getMpathUtil := fun _ _ => 0
    ratio := fun _ _ _ => 0 }

/-- The state outside the jogger at the start of a concrete run. -/
def exSys : Sys Nat :=
  { w := 0, lruEvictSize := 0, lruEvictCount := 0, objs := 0, bytes := 0, trace := [] }

/-- A fresh jogger of the small world. -/
def exJogger : lruJ :=
  newJogger { buckets := [], force := false, cleanup := false } exConfig "/mp"

/-- An object of the small world: 5 bytes, last accessed at time 10, on its HRW mountpath. -/
def exLom : LOM :=
  { objName := "o", fqn := "/mp/o", atime := 10, size := 5, hasCopies := false,
    isCopy := false, isHRW := true, ecEnabled := false }

/-- The small world at 40% usage: `1000000` blocks, `600000` available. -/
def exEnvLow : Env Nat :=
  { exEnv with
    getFSStats := fun _ _ => .ok { blocks := 1000000, bavail := 600000, bsize := 4096 } }

/-- The parsed FQN of the object of the small world. -/
def exParsed : ParsedFQN := { contentType := ContentType.obj, objName := "o" }

/-- The small world with the object `exLom` in its bucket. -/
def exEnvObj : Env Nat :=
  { exEnv with
    lomInit := fun _ _ _ => some exLom
    resolveFQN := fun _ _ => some exParsed
    fsWalk := fun _ _ _ => { entries := [{ fqn := "/mp/o", isDir := false }], err := none } }

/-- A jogger of the small world about to walk a bucket: object deletion allowed, 100 bytes
to evict, the clock at 1000. -/
def exJoggerReady : lruJ :=
  { exJogger with allowDelObj := true, totalSize := 100, now := 1000 }

/-- An EC slice of the small world. -/
def exCT : CT := { fqn := "/mp/slice", ecEnabled := true, mtime := 10, size := 3 }

/-- The small world while a rebalance is running. -/
def exEnvReb : Env Nat :=
  { exEnv with rebMarked := fun _ => { interrupted := false, running := true } }

/-- The small world in which the abort of the job arrives during the first operation with
an effect. -/
def exEnvAbort : Env Nat :=
  { exEnv with chanAbort := fun w => decide (1 ≤ w) }

/-- The small world in which `statfs` fails. -/
def exEnvStatFail : Env Nat :=
  { exEnv with getFSStats := fun _ _ => .error (Err.other "statfs") }

/-- The event is the start of the walk of a bucket. -/
def Event.isWalkBck : Event → Bool
  | Event.walkBck _ _ => true
  | _ => false

/-- A bucket of the small world. -/
def exBck : Bck := { name := "b", provider := "ais", ns := "" }

/-- The small world with the bucket `exBck` on its mountpath, LRU disabled in the
properties of the bucket. -/
def exEnvNoLru : Env Nat :=
  { exEnv with
    bckInit := fun _ _ => .ok { lruEnabled := false, ecEnabled := false, allowDelete := true }
    allMpathBcks := fun _ _ _ => .ok [exBck] }

/-- The counters of the state outside the jogger: `stats.LruEvictSize`,
`stats.LruEvictCount`, and the object and byte counters of the xaction. -/
def Sys.counters (s : Sys W) : Int × Int × Int × Int :=
  (s.lruEvictSize, s.lruEvictCount, s.objs, s.bytes)
/-! ## Further notions and concrete inputs -/

/-- The low-watermark block count of `evictSize`, `blocks * LowWM / 100`, in the unsigned
64-bit arithmetic of the code. -/
def specLwmBlocks (lowWM : Int) (blocks : Nat) : Nat := mulU64 blocks (toU64 lowWM) / 100

/-- The event is a removal in the trash directory. -/
def Event.isRmTrash : Event → Bool
  | Event.rmTrash _ _ => true
  | _ => false

/-- The object of the small world, found on a mountpath that is not its HRW winner. -/
def exLomMisplaced : LOM := { exLom with isHRW := false }

/-- The small world with the misplaced object in its bucket. -/
def exEnvMisplaced : Env Nat :=
  { exEnv with lomInit := fun _ _ _ => some exLomMisplaced }

/-- The parsed FQN of an EC slice of the small world. -/
def exParsedSlice : ParsedFQN := { contentType := ContentType.ecSlice, objName := "o" }

/-- The parsed FQN of an EC metafile of the small world. -/
def exParsedMeta : ParsedFQN := { contentType := ContentType.ecMeta, objName := "o" }

/-- The parsed FQN of a workfile of the small world. -/
def exParsedWork : ParsedFQN := { contentType := ContentType.work, objName := "o" }

/-- The small world with the EC slice `exCT` on disk and nothing else: the slice is the
only accessible file, whatever the time. -/
def exEnvSlice : Env Nat :=
  { exEnv with
    newCTFromFQN := fun _ _ => some exCT
    resolveFQN := fun _ _ => some exParsedSlice
    fsAccess := fun _ fqn => decide (fqn = "/mp/slice") }

/-- The small world in which every workfile name parses and is old. -/
def exEnvWork : Env Nat :=
  { exEnv with parseUniqueFQN := fun _ _ => (true, true) }

/-- A jogger of the small world in cleanup-only mode, about to walk a bucket. -/
def exJoggerCleanup : lruJ :=
  { exJoggerReady with ini := { buckets := [], force := false, cleanup := true } }

/-! ## Notions and concrete inputs for the throttle, the drain and the walk -/

/-- The small world with a busy disk: the mountpath is not idle, its utilisation is 90%,
and `cos.Ratio` interpolates linearly between the two watermarks. -/
def exEnvBusy : Env Nat :=
  { exEnv with
    isIdle := fun _ _ _ => false
    getMpathUtil := fun _ _ => 90
    ratio := fun high low curr =>
      if high ≤ low ∨ curr ≤ low then 0
      else if curr ≥ high then 1
      else Rat.divInt (curr - low) (high - low) }

/-- The small world in which no bucket is known to the bucket owner: `Init` fails with a
bucket-not-found error. -/
def exEnvMissing : Env Nat :=
  { exEnv with bckInit := fun _ _ => .error Err.bckNotFound }

/-- The small world in which no object can be removed: `lom.Remove()` fails. -/
def exEnvRmFail : Env Nat :=
  { exEnv with lomRemove := fun w _ => (false, w + 1) }

/-- A second object of the small world, accessed later than `exLom`. -/
def exLomNewer : LOM := { exLom with objName := "p", fqn := "/mp/p", atime := 20 }

/-- The three scratch lists of the jogger, `oldWork`, `misplaced.loms` and `misplaced.ec`,
are empty. -/
def ScratchEmpty (j : lruJ) : Prop :=
  j.oldWork = [] ∧ j.misplaced.loms = [] ∧ j.misplaced.ec = []

/-- The joggers with which the loop of `jogBcks` calls `j.jogBck()`, one for every bucket
that gets walked, in order.  The loop is the one of `jogBcksLoop`; instead of the final
state it yields the state of the jogger at each call. -/
def jogBckStarts (E : Env W) (force : Bool) : List Bck → lruJ → Sys W → List lruJ
  | [], _, _ => []
  | bck :: rest, j, s =>
    let j1 := { j with bck := bck }
    match allow E j1 s.w with
    | (ok, some e) =>
      let j2 := { j1 with allowDelObj := ok }
      let s1 :=
        if e = Err.bckNotFound ∨ e = Err.remoteBckNotFound then
          ({ s with w := E.trashNonExistingBucket s.w bck } : Sys W).log (Event.trashBck bck)
        else s
      jogBckStarts E force rest j2 s1
    | (ok, none) =>
      let j2 := { j1 with allowDelObj := ok }
      let j3 := { j2 with allowDelObj := j2.allowDelObj || force }
      j3 ::
        match jogBck E j3 s with
        | ((_, some _), _, _) => []
        | ((size, none), j4, s4) =>
          if !j4.ini.cleanup then
            if size < KiB then jogBckStarts E force rest j4 s4
            else
              match evictSize E j4 s4.w with
              | (some _, _) => []
              | (none, j5) =>
                if j5.totalSize < KiB then []
                else jogBckStarts E force rest j5 s4
          else jogBckStarts E force rest j4 s4

/-- The small world with the bucket `exBck` on its mountpath and the object `exLom`, not
on its HRW mountpath, in it. -/
def exEnvMisplacedBck : Env Nat :=
  { exEnvMisplaced with
    resolveFQN := fun _ _ => some exParsed
    fsWalk := fun _ _ _ => { entries := [{ fqn := "/mp/o", isDir := false }], err := none } }

/-- The small world on a very large file system: `10^17` blocks of `4096` bytes, none
available. -/
def exEnvHuge : Env Nat :=
  { exEnv with
    getFSStats := fun _ _ =>
      .ok { blocks := 100000000000000000, bavail := 0, bsize := 4096 } }

/-! ## The heap with and without its cap -/

/-- The function `visitLOM` without the cap on the heap: every object that gets as far as
the test `curSize >= totalSize && atime > newest` is pushed.  This is the walk that the
capped walk is compared with; it is not part of the Go code. -/
def visitLOMNoCap (E : Env W) (j : lruJ) (w : W) (parsedFQN : ParsedFQN) : lruJ :=
  if !j.allowDelObj then j
  else
    match E.lomInit w j.bck parsedFQN.objName with
    | none => j
    | some lom0 =>
      match E.lomLoad w lom0 with
      | none => j
      | some lom =>
        if addI64 lom.atime j.config.dontEvictTime > j.now then j
        else if lom.hasCopies && lom.isCopy then j
        else if !lom.isHRW then
          if lom.ecEnabled then
            if !E.fsAccess w (E.ecMetaFQN lom.fqn) then
              { j with misplaced :=
                  { j.misplaced with ec := j.misplaced.ec ++ [E.newCTFromLOM lom] } }
            else j
          else { j with misplaced := { j.misplaced with loms := j.misplaced.loms ++ [lom] } }
        else if j.ini.cleanup then j
        else
          let j1 := { j with heap := heap.Push j.heap lom, curSize := j.curSize + lom.size }
          if lom.atime > j1.newest then { j1 with newest := lom.atime } else j1

/-- The walk callback with `visitLOMNoCap` in the place of `visitLOM`. -/
def walkNoCap (E : Env W) (j : lruJ) (s : Sys W) (de : DirEntry) : Option Err × lruJ × Sys W :=
  if de.isDir then (none, j, s)
  else
    match yieldTerm E j s with
    | (some e, s1) => (some e, j, s1)
    | (none, s1) =>
      match E.resolveFQN s1.w de.fqn with
      | none => (none, j, s1)
      | some parsedFQN =>
        if parsedFQN.contentType ≠ ContentType.obj then
          (none, visitCT E j s1.w parsedFQN de.fqn, s1)
        else (none, visitLOMNoCap E j s1.w parsedFQN, s1)

/-- The traversal of a bucket with `walkNoCap` as the callback. -/
def walkEntriesNoCap (E : Env W) : List DirEntry → lruJ → Sys W → Option Err × lruJ × Sys W
  | [], j, s => (none, j, s)
  | de :: rest, j, s =>
    match walkNoCap E j s de with
    | (some e, j1, s1) => (some e, j1, s1)
    | (none, j1, s1) => walkEntriesNoCap E rest j1 s1

/-- What a visit of an object comes to before the heap is looked at. -/
inductive Visit where
  /-- the object is left alone -/
  | skip
  /-- the object goes to `misplaced.ec` -/
  | misplacedEC (ct : CT)
  /-- the object goes to `misplaced.loms` -/
  | misplacedLom (lom : LOM)
  /-- the object is a candidate for the heap -/
  | candidate (lom : LOM)
  deriving DecidableEq, Repr

/-- The guards of `visitLOM` up to the test of the cap: they read the jogger's
`allowDelObj`, `bck`, `config`, `now` and `ini`, and nothing of the heap. -/
def visitGuards (E : Env W) (j : lruJ) (w : W) (parsedFQN : ParsedFQN) : Visit :=
  if !j.allowDelObj then Visit.skip
  else
    match E.lomInit w j.bck parsedFQN.objName with
    | none => Visit.skip
    | some lom0 =>
      match E.lomLoad w lom0 with
      | none => Visit.skip
      | some lom =>
        if addI64 lom.atime j.config.dontEvictTime > j.now then Visit.skip
        else if lom.hasCopies && lom.isCopy then Visit.skip
        else if !lom.isHRW then
          if lom.ecEnabled then
            if !E.fsAccess w (E.ecMetaFQN lom.fqn) then Visit.misplacedEC (E.newCTFromLOM lom)
            else Visit.skip
          else Visit.misplacedLom lom
        else if j.ini.cleanup then Visit.skip
        else Visit.candidate lom

/-- Sum of the sizes of the objects of the heap that were accessed before `x`. -/
def olderBytes (h : minHeap) (x : LOM) : Int :=
  ((h.filter (fun y => decide (y.atime < x.atime))).map LOM.size).sum

/-- The two joggers agree on every field that is not part of the heap bookkeeping
(`heap`, `curSize`, `newest`). -/
def SameButHeap (a b : lruJ) : Prop :=
  a.totalSize = b.totalSize ∧ a.oldWork = b.oldWork ∧ a.misplaced = b.misplaced ∧
  a.bck = b.bck ∧ a.now = b.now ∧ a.ini = b.ini ∧ a.mpath = b.mpath ∧
  a.config = b.config ∧ a.throttle = b.throttle ∧ a.allowDelObj = b.allowDelObj

/-- The heap `hu` holds the objects of the heap `hc` and, besides, objects each of which
has at least `B` bytes of older objects before it in `hc`; both are heaps, the objects of
`hu` have pairwise distinct access times and sizes that are not negative. -/
def CapRel (B : Int) (hc hu : minHeap) : Prop :=
  HeapOn hc hc.length ∧ HeapOn hu hu.length ∧ (∀ x ∈ hu, 0 ≤ x.size) ∧
  ∃ D : List LOM, hu.Perm (hc ++ D) ∧ ∀ x ∈ D, B ≤ olderBytes hc x

/-- The jogger `jc` of the capped walk and the jogger `ju` of the walk without the cap,
at the same point of the walk of a bucket whose budget is `T`. -/
def WalkRel (T : Int) (jc ju : lruJ) : Prop :=
  SameButHeap jc ju ∧ jc.totalSize = T ∧ jc.curSize = heapBytes jc.heap ∧
  (∀ x ∈ jc.heap, x.atime ≤ jc.newest) ∧ CapRel T jc.heap ju.heap

/-- The small world with three objects of 60 bytes each in its bucket: the object named
by a path was last accessed at the time that is the length of the path. -/
def exEnvThree : Env Nat :=
  { exEnv with
    resolveFQN := fun _ fqn => some { contentType := ContentType.obj, objName := fqn }
    lomInit := fun _ _ name => some { exLom with objName := name, fqn := name }
    lomLoad := fun _ lom => some { lom with atime := lom.objName.length, size := 60 } }

/-- The entries of the bucket of `exEnvThree`. -/
def exThree : List DirEntry :=
  [{ fqn := "/mp/a", isDir := false }, { fqn := "/mp/bb", isDir := false },
   { fqn := "/mp/ccc", isDir := false }]

/-! ## Concrete inputs near the end of the `int64` range -/

/-- A jogger of the small world whose configuration has a `DontEvictTime` of `8 * 10^18`
nanoseconds (some 253 years), with the clock at `1793000001000000000`. -/
def exJoggerLongHold : lruJ :=
  { exJoggerReady with
    config := { exConfig with dontEvictTime := 8000000000000000000 }
    now := 1793000001000000000 }

/-- The object of the small world, last accessed one second before the clock of
`exJoggerLongHold`. -/
def exLomRecent : LOM := { exLom with atime := 1793000000000000000 }

/-- The small world with the object `exLomRecent` in its bucket. -/
def exEnvRecent : Env Nat :=
  { exEnv with lomInit := fun _ _ _ => some exLomRecent }

/-- The EC slice of the small world, written one second before the clock of
`exJoggerLongHold`. -/
def exCTRecent : CT := { exCT with mtime := 1793000000000000000 }

/-- The small world with the EC slice `exCTRecent` on disk and no metafile. -/
def exEnvSliceRecent : Env Nat :=
  { exEnvSlice with newCTFromFQN := fun _ _ => some exCTRecent }

/-! ## Facts about the heap -/

theorem keyAt_of_getElem? {h : minHeap} {k : Nat} {a : LOM} (e : h[k]? = some a) :
    keyAt h k = a.atime := by
  simp [keyAt, e]

theorem Less_eq_decide {h : minHeap} {i j : Nat} (hi : i < h.length) (hj : j < h.length) :
    h.Less i j = decide (keyAt h i < keyAt h j) := by
  simp [minHeap.Less, keyAt, List.getElem?_eq_getElem hi, List.getElem?_eq_getElem hj]

theorem Swap_length (h : minHeap) (i j : Nat) : (h.Swap i j).length = h.length := by
  unfold minHeap.Swap
  split <;> simp

theorem Swap_getElem? {h : minHeap} {i j : Nat} (hi : i < h.length) (hj : j < h.length)
    (k : Nat) :
    (h.Swap i j)[k]? = if k = j then h[i]? else if k = i then h[j]? else h[k]? := by
  simp only [minHeap.Swap, List.getElem?_eq_getElem hi, List.getElem?_eq_getElem hj]
  by_cases kj : k = j
  · subst kj
    simp [List.getElem?_set, hj]
  · by_cases ki : k = i
    · subst ki
      simp [List.getElem?_set, kj, hi, Ne.symm kj]
    · simp [List.getElem?_set, kj, ki, Ne.symm kj, Ne.symm ki]

theorem keyAt_Swap {h : minHeap} {i j : Nat} (hi : i < h.length) (hj : j < h.length)
    (k : Nat) :
    keyAt (h.Swap i j) k
      = if k = j then keyAt h i else if k = i then keyAt h j else keyAt h k := by
  unfold keyAt
  rw [Swap_getElem? hi hj]
  by_cases kj : k = j
  · simp [kj]
  · by_cases ki : k = i
    · subst ki
      simp [kj]
    · simp [ki, kj]

theorem set_perm_cons {a b : LOM} : ∀ {t : List LOM} {n : Nat},
    t[n]? = some b → (b :: t.set n a).Perm (a :: t)
  | [], _, e => by simp at e
  | c :: t, 0, e => by
    simp at e
    subst e
    simpa using List.Perm.swap a c t
  | c :: t, n + 1, e => by
    simp at e
    have ih := set_perm_cons (a := a) e
    simp only [List.set_cons_succ]
    exact (List.Perm.swap c b _).trans ((ih.cons c).trans (List.Perm.swap a c t))

theorem Swap_perm_lt : ∀ {h : minHeap} {i j : Nat}, i < j → (h.Swap i j).Perm h
  | [], _, _, _ => by simp [minHeap.Swap]
  | c :: t, 0, j + 1, _ => by
    unfold minHeap.Swap
    cases e : (c :: t)[j + 1]? with
    | none => simp
    | some b =>
      simp only [List.getElem?_cons_zero, List.set_cons_zero, List.set_cons_succ]
      simp at e
      exact set_perm_cons e
  | c :: t, i + 1, j + 1, hij => by
    have ih := Swap_perm_lt (h := t) (i := i) (j := j) (by omega)
    unfold minHeap.Swap at ih ⊢
    simp only [List.getElem?_cons_succ]
    cases e1 : t[i]? with
    | none => simp
    | some a =>
      cases e2 : t[j]? with
      | none => simp
      | some b =>
        simp only [e1, e2] at ih
        simpa using ih

theorem Swap_self (h : minHeap) (i : Nat) : h.Swap i i = h := by
  unfold minHeap.Swap
  cases e : h[i]? with
  | none => simp
  | some a =>
    simp only
    apply List.ext_getElem?
    intro k
    by_cases ki : k = i
    · subst ki
      have hk : k < h.length := by
        by_contra hk
        rw [List.getElem?_eq_none_iff.mpr (Nat.le_of_not_lt hk)] at e
        exact Option.noConfusion e
      simp [List.getElem?_set, e, hk]
    · simp [List.getElem?_set, Ne.symm ki]

theorem Swap_comm (h : minHeap) (i j : Nat) : h.Swap i j = h.Swap j i := by
  by_cases hi : i < h.length
  · by_cases hj : j < h.length
    · apply List.ext_getElem?
      intro k
      rw [Swap_getElem? hi hj, Swap_getElem? hj hi]
      by_cases kj : k = j
      · by_cases ki : k = i
        · subst ki; subst kj; simp
        · subst kj
          simp [ki]
      · simp [kj]
    · simp [minHeap.Swap, List.getElem?_eq_none_iff.mpr (Nat.le_of_not_lt hj)]
  · simp [minHeap.Swap, List.getElem?_eq_none_iff.mpr (Nat.le_of_not_lt hi)]

theorem Swap_perm (h : minHeap) (i j : Nat) : (h.Swap i j).Perm h := by
  rcases Nat.lt_trichotomy i j with hlt | heq | hgt
  · exact Swap_perm_lt hlt
  · subst heq; rw [Swap_self]
  · rw [Swap_comm]; exact Swap_perm_lt hgt

theorem downLoop_spec : ∀ (fuel : Nat) (h : minHeap) (i n : Nat),
    n ≤ h.length → n ≤ fuel + i → DownInv h i n →
    HeapOn (heap.downLoop fuel h i n) n ∧ (heap.downLoop fuel h i n).Perm h ∧
      (∀ k, n ≤ k → (heap.downLoop fuel h i n)[k]? = h[k]?)
  | 0, h, i, n, _, hf, hinv => by
    refine ⟨?_, List.Perm.refl _, fun _ _ => rfl⟩
    intro k k0 kn
    exact hinv.1 k k0 kn (by omega)
  | fuel + 1, h, i, n, hn, hf, hinv => by
    unfold heap.downLoop
    by_cases h1 : 2 * i + 1 ≥ n
    · dsimp only
      rw [if_pos h1]
      refine ⟨?_, List.Perm.refl _, fun _ _ => rfl⟩
      intro k k0 kn
      exact hinv.1 k k0 kn (by omega)
    · dsimp only
      rw [if_neg h1]
      have hi : i < h.length := by omega
      generalize hj : (if 2 * i + 1 + 1 < n ∧ h.Less (2 * i + 1 + 1) (2 * i + 1) = true
        then 2 * i + 1 + 1 else 2 * i + 1) = j
      have jprop : (j = 2 * i + 1 ∨ j = 2 * i + 2) ∧ j < n ∧
          (∀ c, (c = 2 * i + 1 ∨ c = 2 * i + 2) → c < n → keyAt h j ≤ keyAt h c) := by
        by_cases c2 : 2 * i + 1 + 1 < n
        · have e := Less_eq_decide (h := h) (i := 2 * i + 1 + 1) (j := 2 * i + 1)
            (by omega) (by omega)
          by_cases c3 : h.Less (2 * i + 1 + 1) (2 * i + 1) = true
          · rw [if_pos ⟨c2, c3⟩] at hj
            subst hj
            rw [e] at c3
            have c4 := of_decide_eq_true c3
            refine ⟨Or.inr rfl, c2, ?_⟩
            rintro c (rfl | rfl) _
            · exact le_of_lt c4
            · exact le_refl _
          · rw [if_neg (fun hh => c3 hh.2)] at hj
            subst hj
            rw [e] at c3
            have c4 : ¬ keyAt h (2 * i + 1 + 1) < keyAt h (2 * i + 1) := fun hh =>
              c3 (decide_eq_true hh)
            refine ⟨Or.inl rfl, by omega, ?_⟩
            rintro c (rfl | rfl) _
            · exact le_refl _
            · exact not_lt.mp c4
        · rw [if_neg (fun hh => c2 hh.1)] at hj
          subst hj
          refine ⟨Or.inl rfl, by omega, ?_⟩
          rintro c (rfl | rfl) hc
          · exact le_refl _
          · omega
      obtain ⟨jc, jn, jmin⟩ := jprop
      have hjl : j < h.length := by omega
      have eL := Less_eq_decide (h := h) (i := j) (j := i) hjl hi
      have pj : (j - 1) / 2 = i := by omega
      by_cases h2 : h.Less j i = true
      · simp only [h2, Bool.not_true, Bool.false_eq_true, if_false]
        rw [eL] at h2
        have lt : keyAt h j < keyAt h i := of_decide_eq_true h2
        have inv2 : DownInv (h.Swap i j) j n := by
          constructor
          · intro k k0 kn kp
            rw [keyAt_Swap hi hjl, keyAt_Swap hi hjl]
            by_cases ek : k = j
            · subst ek
              rw [if_pos rfl, pj, if_neg (by omega), if_pos rfl]
              exact le_of_lt lt
            · rw [if_neg ek]
              by_cases ek2 : k = i
              · subst ek2
                rw [if_pos rfl, if_neg (by omega), if_neg (by omega)]
                by_cases i0 : 0 < k
                · exact hinv.2 j (by omega) jn pj i0
                · omega
              · rw [if_neg ek2]
                by_cases ep : (k - 1) / 2 = i
                · rw [ep, if_neg (by omega), if_pos rfl]
                  exact jmin k (by omega) kn
                · rw [if_neg kp, if_neg ep]
                  exact hinv.1 k k0 kn ep
          · intro k k0 kn kp _
            rw [keyAt_Swap hi hjl, keyAt_Swap hi hjl, pj, if_neg (by omega), if_pos rfl,
              if_neg (by omega), if_neg (by omega)]
            have hk := hinv.1 k k0 kn (by omega)
            rw [kp] at hk
            exact hk
        have ih := downLoop_spec fuel (h.Swap i j) j n (by rw [Swap_length]; exact hn)
          (by omega) inv2
        refine ⟨ih.1, ih.2.1.trans (Swap_perm h i j), ?_⟩
        intro k hk
        rw [ih.2.2 k hk, Swap_getElem? hi hjl, if_neg (by omega), if_neg (by omega)]
      · simp only [h2, Bool.not_false, if_true]
        rw [eL] at h2
        have ge : ¬ keyAt h j < keyAt h i := fun hh => h2 (decide_eq_true hh)
        refine ⟨?_, List.Perm.refl _, fun _ _ => trivial⟩
        intro k k0 kn
        by_cases ep : (k - 1) / 2 = i
        · rw [ep]
          have := jmin k (by omega) kn
          have := not_lt.mp ge
          omega
        · exact hinv.1 k k0 kn ep

theorem upLoop_spec : ∀ (fuel : Nat) (h : minHeap) (j : Nat),
    j < h.length → j < fuel → UpInv h j h.length →
    HeapOn (heap.upLoop fuel h j) h.length ∧ (heap.upLoop fuel h j).Perm h
  | 0, _, _, _, hf, _ => by omega
  | fuel + 1, h, j, hj, hf, hinv => by
    unfold heap.upLoop
    have hi : (j - 1) / 2 < h.length := by omega
    have eL := Less_eq_decide (h := h) (i := j) (j := (j - 1) / 2) hj hi
    by_cases h1 : (j - 1) / 2 = j ∨ (!h.Less j ((j - 1) / 2)) = true
    · simp only [h1, if_true]
      refine ⟨?_, List.Perm.refl _⟩
      intro k k0 kn
      by_cases ek : k = j
      · subst ek
        rcases h1 with h1 | h1
        · omega
        · rw [eL] at h1
          simp at h1
          exact h1
      · exact hinv.1 k k0 kn ek
    · simp only [h1, if_false]
      have j0 : (j - 1) / 2 ≠ j := fun e => h1 (Or.inl e)
      have lt : keyAt h j < keyAt h ((j - 1) / 2) := by
        by_contra hh
        apply h1
        right
        rw [eL]
        simp
        exact not_lt.mp hh
      have jpos : 0 < j := by omega
      have inv2 : UpInv (h.Swap ((j - 1) / 2) j) ((j - 1) / 2) h.length := by
        constructor
        · intro k k0 kn kp
          rw [keyAt_Swap hi hj, keyAt_Swap hi hj]
          by_cases ek : k = j
          · subst ek
            rw [if_pos rfl, if_neg j0, if_pos rfl]
            exact le_of_lt lt
          · rw [if_neg ek, if_neg kp]
            by_cases ep : (k - 1) / 2 = j
            · rw [if_pos ep]
              exact hinv.2 k k0 kn ep jpos
            · rw [if_neg ep]
              by_cases ep2 : (k - 1) / 2 = (j - 1) / 2
              · rw [if_pos ep2]
                have := hinv.1 k k0 kn ek
                rw [ep2] at this
                omega
              · rw [if_neg ep2]
                exact hinv.1 k k0 kn ek
        · intro k k0 kn kp i0
          rw [keyAt_Swap hi hj, keyAt_Swap hi hj, if_neg (by omega), if_neg (by omega)]
          have hpi := hinv.1 ((j - 1) / 2) i0 hi (by omega)
          by_cases ek : k = j
          · subst ek
            rw [if_pos rfl]
            exact hpi
          · rw [if_neg ek, if_neg (by omega)]
            have := hinv.1 k k0 kn ek
            rw [kp] at this
            omega
      have ih := upLoop_spec fuel (h.Swap ((j - 1) / 2) j) ((j - 1) / 2)
        (by rw [Swap_length]; exact hi) (by omega) (by rw [Swap_length]; exact inv2)
      rw [Swap_length] at ih
      exact ⟨ih.1, ih.2.trans (Swap_perm h _ _)⟩

theorem keyAt_append_left (h : minHeap) (x : LOM) {k : Nat} (hk : k < h.length) :
    keyAt (h ++ [x]) k = keyAt h k := by
  unfold keyAt
  rw [List.getElem?_append_left hk]

theorem keyAt_dropLast (h : minHeap) {k : Nat} (hk : k < h.length - 1) :
    keyAt h.dropLast k = keyAt h k := by
  unfold keyAt
  rw [List.dropLast_eq_take, List.getElem?_take, if_pos hk]

/-- Under heap order the root is the oldest of the first `n` slots. -/
theorem HeapOn.root_le {h : minHeap} {n : Nat} (hh : HeapOn h n) :
    ∀ k, k < n → keyAt h 0 ≤ keyAt h k := by
  intro k
  induction k using Nat.strong_induction_on with
  | _ k ih =>
    intro kn
    by_cases k0 : k = 0
    · subst k0; exact le_refl _
    · have h1 := hh k (by omega) kn
      have h2 := ih ((k - 1) / 2) (by omega) (by omega)
      omega

/-- `heap.Push` keeps heap order and adds exactly the pushed object. -/
theorem Push_spec (h : minHeap) (x : LOM) (hh : HeapOn h h.length) :
    HeapOn (heap.Push h x) (heap.Push h x).length ∧ (heap.Push h x).Perm (h ++ [x]) := by
  unfold heap.Push heap.up minHeap.Push minHeap.Len
  have hlen : (h ++ [x]).length = h.length + 1 := by simp
  have inv : UpInv (h ++ [x]) ((h ++ [x]).length - 1) (h ++ [x]).length := by
    rw [hlen]
    constructor
    · intro k k0 kn kj
      rw [keyAt_append_left h x (by omega), keyAt_append_left h x (by omega)]
      exact hh k k0 (by omega)
    · intro k k0 kn kp _
      omega
  have sp := upLoop_spec ((h ++ [x]).length - 1 + 1) (h ++ [x]) ((h ++ [x]).length - 1)
    (by omega) (by omega) inv
  refine ⟨?_, sp.2⟩
  rw [sp.2.length_eq]
  exact sp.1

/-- `heap.Pop` on a non-empty ordered heap returns an oldest object and leaves an ordered
heap holding the others. -/
theorem Pop_spec (h : minHeap) (hne : 0 < h.length) (hh : HeapOn h h.length) :
    ∃ x h1, heap.Pop h = (some x, h1) ∧ (x :: h1).Perm h ∧ HeapOn h1 h1.length ∧
      (∀ y ∈ h1, x.atime ≤ y.atime) ∧ h1.length + 1 = h.length := by
  have h0 : 0 < h.length := hne
  have hn : h.length - 1 < h.length := by omega
  obtain ⟨x, ex⟩ : ∃ x, h[0]? = some x := ⟨h[0], List.getElem?_eq_getElem h0⟩
  have inv : DownInv (h.Swap 0 (h.length - 1)) 0 (h.length - 1) := by
    constructor
    · intro k k0 kn kp
      rw [keyAt_Swap h0 hn, keyAt_Swap h0 hn, if_neg (by omega), if_neg (by omega),
        if_neg (by omega), if_neg (by omega)]
      exact hh k k0 (by omega)
    · intro k _ _ _ i0
      omega
  have sp := downLoop_spec (h.length - 1) (h.Swap 0 (h.length - 1)) 0 (h.length - 1)
    (by rw [Swap_length]; omega) (by omega) inv
  generalize hr : heap.downLoop (h.length - 1) (h.Swap 0 (h.length - 1)) 0 (h.length - 1) = r
    at sp
  obtain ⟨rheap, rperm, rlast⟩ := sp
  have rperm2 : r.Perm h := rperm.trans (Swap_perm h _ _)
  have rlen : r.length = h.length := rperm2.length_eq
  have elast : r.getLast? = some x := by
    rw [List.getLast?_eq_getElem?, rlen, rlast _ (le_refl _), Swap_getElem? h0 hn, if_pos rfl]
    exact ex
  have epop : heap.Pop h = (some x, r.dropLast) := by
    unfold heap.Pop heap.down minHeap.Pop minHeap.Len
    rw [if_neg (by omega)]
    dsimp only
    rw [hr, elast]
  have eapp : r.dropLast ++ [x] = r := List.dropLast_append_getLast? x (by simp [elast])
  have p1 : (x :: r.dropLast).Perm h := by
    have : (x :: r.dropLast).Perm (r.dropLast ++ [x]) := by
      simpa using (@List.perm_append_comm _ [x] r.dropLast)
    rw [eapp] at this
    exact this.trans rperm2
  have dlen : r.dropLast.length = h.length - 1 := by
    rw [List.length_dropLast, rlen]
  refine ⟨x, r.dropLast, epop, p1, ?_, ?_, by omega⟩
  · rw [dlen]
    intro k k0 kn
    rw [keyAt_dropLast r (by omega), keyAt_dropLast r (by omega)]
    exact rheap k k0 kn
  · intro y hy
    have ymem : y ∈ h := p1.subset (List.mem_cons_of_mem x hy)
    obtain ⟨k, hk, ek⟩ := List.getElem_of_mem ymem
    have e1 := keyAt_of_getElem? ex
    have e2 : keyAt h k = y.atime :=
      keyAt_of_getElem? (by rw [List.getElem?_eq_getElem hk, ek])
    have := hh.root_le k hk
    omega

/-- Pushing any objects one by one onto an ordered heap gives an ordered heap holding the
old and the pushed objects. -/
theorem foldl_Push_spec : ∀ (xs : List LOM) (h : minHeap), HeapOn h h.length →
    HeapOn (xs.foldl heap.Push h) (xs.foldl heap.Push h).length ∧
      (xs.foldl heap.Push h).Perm (h ++ xs)
  | [], h, hh => by simpa using hh
  | x :: xs, h, hh => by
    have p := Push_spec h x hh
    have ih := foldl_Push_spec xs (heap.Push h x) p.1
    refine ⟨ih.1, ih.2.trans ?_⟩
    have : (heap.Push h x ++ xs).Perm ((h ++ [x]) ++ xs) := p.2.append_right xs
    simpa using this

/-- Draining an ordered heap returns its objects, oldest first. -/
theorem popAll_spec : ∀ (fuel : Nat) (h : minHeap), h.length ≤ fuel → HeapOn h h.length →
    (heap.popAll fuel h).Perm h ∧
      (heap.popAll fuel h).Pairwise (fun a b => a.atime ≤ b.atime)
  | 0, h, hf, _ => by
    have : h = [] := List.length_eq_zero.mp (by omega)
    subst this
    simp [heap.popAll]
  | fuel + 1, h, hf, hh => by
    by_cases hne : 0 < h.length
    · obtain ⟨x, h1, e, p, hh1, hmin, hl⟩ := Pop_spec h hne hh
      have ih := popAll_spec fuel h1 (by omega) hh1
      unfold heap.popAll
      rw [e]
      dsimp only
      refine ⟨(ih.1.cons x).trans p, List.pairwise_cons.mpr ⟨?_, ih.2⟩⟩
      intro y hy
      exact hmin y (ih.1.subset hy)
    · have : h = [] := List.length_eq_zero.mp (by omega)
      subst this
      simp [heap.popAll, heap.Pop, minHeap.Len]

/-! ## The budget of `evictSize` -/

theorem toU64_of_nonneg {x : Int} (h0 : 0 ≤ x) (h1 : x < 2 ^ 64) : (toU64 x : Int) = x := by
  unfold toU64
  omega

theorem wrapI64_add_mul (x k : Int) : wrapI64 (x + 2 ^ 64 * k) = wrapI64 x := by
  unfold wrapI64
  have h : x + 2 ^ 64 * k + 2 ^ 63 = (x + 2 ^ 63) + 2 ^ 64 * k := by ring
  rw [h, Int.add_mul_emod_self_left]

/-- The 64-bit computation `int64(u - l) * b` of `evictSize` gives the integer product
`(u - l) * b` reduced to the `int64` range, whether or not the unsigned subtraction
wraps. -/
theorem mulI64_toI64_subU64 (u l : Nat) (b : Int) (hu : u < 2 ^ 64) (hl : l < 2 ^ 64) :
    mulI64 (toI64 (subU64 u l)) b = wrapI64 (((u : Int) - l) * b) := by
  obtain ⟨c, hc⟩ : ∃ c : Int, toI64 (subU64 u l) = (u : Int) - l + 2 ^ 64 * c := by
    unfold toI64 subU64
    by_cases hle : l ≤ u
    · split_ifs
      · exact ⟨0, by omega⟩
      · exact ⟨-1, by omega⟩
    · split_ifs
      · exact ⟨1, by omega⟩
      · exact ⟨0, by omega⟩
  unfold mulI64
  rw [hc]
  have h : ((u : Int) - l + 2 ^ 64 * c) * b = ((u : Int) - l) * b + 2 ^ 64 * (c * b) := by ring
  rw [h, wrapI64_add_mul]

/-- C1 (amended): with `blocks > 0`, `bavail <= blocks`, `used = blocks - bavail` and
`usedPct = used * 100 / blocks`, if `0 <= HighWM <= usedPct`, `0 <= LowWM`, and neither
`used * 100` nor `blocks * LowWM` overflows 64 bits, then `evictSize` returns no error and
changes the jogger only by setting `totalSize` to the integer
`(used - blocks * LowWM / 100) * bsize` reduced to the `int64` range; so `totalSize` is
that integer whenever it lies between `-2^63` and `2^63 - 1`. -/
theorem evictSize_budget (E : Env W) (j : lruJ) (w : W) (st : FSStats)
    (hst : E.getFSStats w j.mpath = Except.ok st)
    (hpos : 0 < st.blocks) (hle : st.bavail ≤ st.blocks)
    (h100 : (st.blocks - st.bavail) * 100 < 2 ^ 64)
    (hh0 : 0 ≤ j.config.highWM)
    (hhw : j.config.highWM ≤ (((st.blocks - st.bavail) * 100 / st.blocks : Nat) : Int))
    (hl0 : 0 ≤ j.config.lowWM) (hmul : (st.blocks : Int) * j.config.lowWM < 2 ^ 64) :
    evictSize E j w
      = (none, { j with totalSize := wrapI64 (specTotalSize j.config.lowWM st) }) ∧
    (-(2 : Int) ^ 63 ≤ specTotalSize j.config.lowWM st →
      specTotalSize j.config.lowWM st < 2 ^ 63 →
      evictSize E j w = (none, { j with totalSize := specTotalSize j.config.lowWM st })) := by
  obtain ⟨n, hn⟩ : ∃ n : Nat, j.config.lowWM = (n : Int) := ⟨j.config.lowWM.toNat, by omega⟩
  obtain ⟨H, hH⟩ : ∃ H : Nat, j.config.highWM = (H : Int) :=
    ⟨j.config.highWM.toNat, by omega⟩
  rw [hn] at hmul
  rw [hH] at hhw
  have hmulN : st.blocks * n < 2 ^ 64 := by exact_mod_cast hmul
  have hHP : H ≤ (st.blocks - st.bavail) * 100 / st.blocks := by exact_mod_cast hhw
  have hP : (st.blocks - st.bavail) * 100 / st.blocks ≤ (st.blocks - st.bavail) * 100 :=
    Nat.div_le_self _ _
  have hnle : n ≤ st.blocks * n := Nat.le_mul_of_pos_left n hpos
  have e0 : subU64 st.blocks st.bavail = st.blocks - st.bavail := by
    unfold subU64
    omega
  have e1 : toU64 (n : Int) = n := by
    unfold toU64
    omega
  have e2 : mulU64 st.blocks n = st.blocks * n := by
    unfold mulU64
    exact Nat.mod_eq_of_lt hmulN
  have e4 : mulU64 (st.blocks - st.bavail) 100 = (st.blocks - st.bavail) * 100 := by
    unfold mulU64
    exact Nat.mod_eq_of_lt h100
  have e5 : toU64 (H : Int) = H := by
    unfold toU64
    omega
  have hL : st.blocks * n / 100 < 2 ^ 64 := lt_of_le_of_lt (Nat.div_le_self _ _) hmulN
  have hU : st.blocks - st.bavail < 2 ^ 64 := by omega
  have e6 := mulI64_toI64_subU64 (st.blocks - st.bavail) (st.blocks * n / 100) st.bsize hU hL
  have e7 : ((st.blocks - st.bavail : Nat) : Int) - ((st.blocks * n / 100 : Nat) : Int)
      = (st.blocks : Int) - st.bavail - (st.blocks : Int) * (n : Int) / 100 := by
    rw [Nat.cast_sub hle]
    push_cast
    rfl
  have hev : evictSize E j w
      = (none, { j with totalSize := wrapI64 (specTotalSize j.config.lowWM st) }) := by
    unfold evictSize specTotalSize
    rw [hst]
    dsimp only
    rw [if_neg (by omega), e0, e4, hH, e5, if_neg (by omega), hn, e1, e2, e6, e7]
  refine ⟨hev, ?_⟩
  intro hr1 hr2
  rw [hev]
  have hw : wrapI64 (specTotalSize j.config.lowWM st) = specTotalSize j.config.lowWM st := by
    unfold wrapI64
    omega
  rw [hw]

/-- Witness for C1: the small world, at 90% of 1000000 blocks of 4096 bytes with
watermarks 70 and 80, gets the budget `(900000 - 700000) * 4096`. -/
theorem evictSize_budget_witness :
    evictSize exEnv exJogger 0 = (none, { exJogger with totalSize := 819200000 }) :=
  (evictSize_budget exEnv exJogger 0 { blocks := 1000000, bavail := 100000, bsize := 4096 }
    rfl (by decide) (by decide) (by decide) (by decide) (by decide) (by decide)
    (by decide)).2 (by decide) (by decide)

/-- Counterexample to C1 as stated: with `10^17` blocks of `4096` bytes, none available,
and watermarks 70 and 80 (`blocks > 0`, `bavail <= blocks`, `usedPct = 100 >= HighWM`),
`evictSize` returns no error and sets `totalSize = -6247208515966861312`, while
`(used - blocks * LowWM / 100) * bsize` is `122880000000000000000`. -/
theorem evictSize_budget_overflows :
    (0 : Nat) < 100000000000000000 ∧ (0 : Nat) ≤ 100000000000000000 ∧
    exJogger.config.highWM ≤ (((100000000000000000 - 0) * 100 / 100000000000000000 : Nat) : Int) ∧
    (evictSize exEnvHuge exJogger 0).1 = none ∧
    (evictSize exEnvHuge exJogger 0).2.totalSize = -6247208515966861312 ∧
    specTotalSize exJogger.config.lowWM
        { blocks := 100000000000000000, bavail := 0, bsize := 4096 }
      = 122880000000000000000 := by
  decide

/-- C2 (as the code has it): if the file system statistics give `usedPct < HighWM`, then
`evictSize` returns no error and leaves the jogger, `totalSize` included, as it was. -/
theorem evictSize_below_highWM (E : Env W) (j : lruJ) (w : W) (st : FSStats)
    (hst : E.getFSStats w j.mpath = Except.ok st) (hpos : 0 < st.blocks)
    (hle : st.bavail ≤ st.blocks) (hblk : st.blocks < 2 ^ 64)
    (hlow : specUsedPct st < toU64 j.config.highWM) :
    evictSize E j w = (none, j) := by
  have hused : subU64 st.blocks st.bavail = st.blocks - st.bavail := by
    unfold subU64
    omega
  unfold specUsedPct at hlow
  unfold evictSize
  rw [hst]
  dsimp only
  rw [if_neg (by omega), hused, if_pos hlow]

/-- Witness for C2: at 40% usage a jogger whose `totalSize` is 4096 keeps it. -/
theorem evictSize_below_highWM_witness :
    evictSize exEnvLow { exJogger with totalSize := 4096 } 0
      = (none, { exJogger with totalSize := 4096 }) :=
  evictSize_below_highWM exEnvLow { exJogger with totalSize := 4096 } 0
    { blocks := 1000000, bavail := 600000, bsize := 4096 } rfl (by decide) (by decide)
    (by decide) (by decide)

/-- Counterexample to C2 as stated: at 40% usage with `HighWM = 80` (so `usedPct < HighWM`)
`evictSize` returns with the earlier `totalSize = 4096`, not `0`. -/
theorem evictSize_keeps_totalSize :
    specUsedPct { blocks := 1000000, bavail := 600000, bsize := 4096 }
      < toU64 exConfig.highWM ∧
    (evictSize exEnvLow { exJogger with totalSize := 4096 } 0).1 = none ∧
    (evictSize exEnvLow { exJogger with totalSize := 4096 } 0).2.totalSize ≠ 0 := by
  decide

/-! ## Oldest first -/

/-- C3: for every sequence of objects pushed with `heap.Push` onto the (initialised, empty)
heap of the jogger, successive `heap.Pop` calls return exactly the pushed objects, in
non-decreasing order of access time. -/
theorem heap_pops_oldest_first (xs : List LOM) :
    (heap.popAll (xs.foldl heap.Push (heap.Init [])).Len
        (xs.foldl heap.Push (heap.Init []))).Perm xs ∧
    (heap.popAll (xs.foldl heap.Push (heap.Init [])).Len
        (xs.foldl heap.Push (heap.Init []))).Pairwise (fun a b => a.atime ≤ b.atime) := by
  have h0 : heap.Init [] = [] := rfl
  rw [h0]
  have hempty : HeapOn ([] : minHeap) ([] : minHeap).length := by
    intro k _ kn
    simp at kn
  obtain ⟨hh, hp⟩ := foldl_Push_spec xs [] hempty
  obtain ⟨pp, ps⟩ := popAll_spec _ (xs.foldl heap.Push []) (le_refl _) hh
  refine ⟨pp.trans ?_, ps⟩
  simpa using hp

/-! ## `curSize` and the heap -/

theorem upLoop_perm : ∀ (fuel : Nat) (h : minHeap) (j : Nat), (heap.upLoop fuel h j).Perm h
  | 0, h, _ => List.Perm.refl h
  | fuel + 1, h, j => by
    unfold heap.upLoop
    dsimp only
    split
    · exact List.Perm.refl h
    · exact (upLoop_perm fuel _ _).trans (Swap_perm h _ _)

theorem downLoop_perm : ∀ (fuel : Nat) (h : minHeap) (i n : Nat),
    (heap.downLoop fuel h i n).Perm h
  | 0, h, _, _ => List.Perm.refl h
  | fuel + 1, h, i, n => by
    unfold heap.downLoop
    dsimp only
    split_ifs <;>
      first
        | exact List.Perm.refl h
        | exact (downLoop_perm fuel _ _ _).trans (Swap_perm h _ _)

theorem Push_perm (h : minHeap) (x : LOM) : (heap.Push h x).Perm (h ++ [x]) := by
  unfold heap.Push heap.up minHeap.Push
  exact upLoop_perm _ _ _

theorem heapBytes_perm {h1 h2 : minHeap} (p : h1.Perm h2) : heapBytes h1 = heapBytes h2 := by
  unfold heapBytes
  exact (p.map LOM.size).sum_eq

theorem heapBytes_Push (h : minHeap) (x : LOM) :
    heapBytes (heap.Push h x) = heapBytes h + x.size := by
  rw [heapBytes_perm (Push_perm h x)]
  simp [heapBytes]

/-- `heap.Pop` takes exactly one object out of a non-empty heap, none out of an empty
one (whatever the order of the heap). -/
theorem Pop_perm (h : minHeap) :
    (h = [] ∧ heap.Pop h = (none, h)) ∨
      ∃ x h1, heap.Pop h = (some x, h1) ∧ (x :: h1).Perm h := by
  by_cases h0 : h.length = 0
  · left
    have : h = [] := List.length_eq_zero.mp h0
    subst this
    exact ⟨rfl, rfl⟩
  · right
    unfold heap.Pop heap.down minHeap.Pop minHeap.Len
    rw [if_neg h0]
    dsimp only
    generalize hr : heap.downLoop (h.length - 1) (h.Swap 0 (h.length - 1)) 0 (h.length - 1) = r
    have rperm : r.Perm h := by
      rw [← hr]
      exact (downLoop_perm _ _ _ _).trans (Swap_perm h _ _)
    have rne : r ≠ [] := by
      intro e
      rw [e] at rperm
      exact h0 (by simpa using rperm.length_eq.symm)
    obtain ⟨x, ex⟩ : ∃ x, r.getLast? = some x :=
      ⟨r.getLast rne, List.getLast?_eq_getLast r rne⟩
    refine ⟨x, r.dropLast, by rw [ex], ?_⟩
    have eapp : r.dropLast ++ [x] = r := List.dropLast_append_getLast? x (by simp [ex])
    have : (x :: r.dropLast).Perm (r.dropLast ++ [x]) := by
      simpa using (@List.perm_append_comm _ [x] r.dropLast)
    rw [eapp] at this
    exact this.trans rperm

/-- C5: in a jogger with `curSize >= totalSize`, `visitLOM` of an object that is on its HRW
mountpath and whose access time is greater than `newest` leaves the jogger as it was
(heap, `curSize` and `newest` included): the object is not inserted. -/
theorem visitLOM_heap_cap (E : Env W) (j : lruJ) (w : W) (p : ParsedFQN) (lom0 lom : LOM)
    (hinit : E.lomInit w j.bck p.objName = some lom0) (hload : E.lomLoad w lom0 = some lom)
    (hhrw : lom.isHRW = true) (hfull : j.curSize ≥ j.totalSize)
    (hnew : lom.atime > j.newest) :
    visitLOM E j w p = j := by
  unfold visitLOM
  rw [hinit]
  dsimp only
  rw [hload]
  dsimp only
  have hcap : j.curSize ≥ j.totalSize ∧ lom.atime > j.newest := ⟨hfull, hnew⟩
  simp only [hhrw, Bool.not_true, Bool.false_eq_true, if_false]
  rw [if_pos hcap]
  split_ifs <;> rfl

/-- Witness for C5: the heap is full (`curSize = totalSize = 100`) and the object, accessed
at time 10, is newer than `newest = 5`. -/
theorem visitLOM_heap_cap_witness :
    visitLOM exEnvObj { exJoggerReady with curSize := 100, newest := 5 } 0 exParsed
      = { exJoggerReady with curSize := 100, newest := 5 } :=
  visitLOM_heap_cap exEnvObj { exJoggerReady with curSize := 100, newest := 5 } 0 exParsed
    exLom exLom rfl rfl rfl (by decide) (by decide)

/-! ## What the steps of the jogger add to the trace -/

theorem Extends.refl (P : Event → Prop) (t : List Event) : Extends P t t :=
  ⟨[], by simp, by simp⟩

theorem Extends.of_eq {P : Event → Prop} {t0 t1 : List Event} (e : t1 = t0) :
    Extends P t0 t1 := by
  subst e
  exact Extends.refl P _

theorem Extends.trans {P : Event → Prop} {t0 t1 t2 : List Event}
    (a : Extends P t0 t1) (b : Extends P t1 t2) : Extends P t0 t2 := by
  obtain ⟨e1, h1, p1⟩ := a
  obtain ⟨e2, h2, p2⟩ := b
  refine ⟨e1 ++ e2, by rw [h2, h1, List.append_assoc], ?_⟩
  intro e he
  rcases List.mem_append.mp he with h | h
  · exact p1 e h
  · exact p2 e h

theorem Extends.mono {P Q : Event → Prop} {t0 t1 : List Event} (h : ∀ e, P e → Q e)
    (a : Extends P t0 t1) : Extends Q t0 t1 := by
  obtain ⟨e1, h1, p1⟩ := a
  exact ⟨e1, h1, fun e he => h e (p1 e he)⟩

theorem Extends.log {P : Event → Prop} (s : Sys W) (e : Event) (h : P e) :
    Extends P s.trace (s.log e).trace :=
  ⟨[e], rfl, by simpa using h⟩

theorem yieldTerm_trace (E : Env W) (j : lruJ) (s : Sys W) :
    (yieldTerm E j s).2.trace = s.trace := by
  unfold yieldTerm
  dsimp only
  split_ifs <;> rfl

theorem throttle_trace (E : Env W) (j : lruJ) (s : Sys W) (u : Int) :
    (_throttle E j s u).2.2.trace = s.trace := by
  unfold _throttle
  dsimp only
  split_ifs <;> first | rfl | exact yieldTerm_trace E _ _

theorem throttle_heap (E : Env W) (j : lruJ) (s : Sys W) (u : Int) :
    (_throttle E j s u).2.1.heap = j.heap ∧ (_throttle E j s u).2.1.ini = j.ini ∧
      (_throttle E j s u).2.1.mpath = j.mpath := by
  unfold _throttle
  dsimp only
  split_ifs <;> exact ⟨rfl, rfl, rfl⟩

theorem postRemove_trace (E : Env W) (j : lruJ) (s : Sys W) (prev size : Int) :
    (postRemove E j s prev size).2.2.trace = s.trace := by
  unfold postRemove
  have hy := yieldTerm_trace E { j with totalSize := j.totalSize - size } s
  dsimp only
  split
  · rename_i e s1 heq
    rw [heq] at hy
    exact hy
  · rename_i s1 heq
    rw [heq] at hy
    split_ifs
    · exact hy
    · exact (throttle_trace E _ _ _).trans hy
    · exact hy

theorem postRemove_heap (E : Env W) (j : lruJ) (s : Sys W) (prev size : Int) :
    (postRemove E j s prev size).2.1.heap = j.heap := by
  unfold postRemove
  dsimp only
  split
  · rfl
  · split_ifs
    · rfl
    · exact (throttle_heap E _ _ _).1
    · rfl

theorem evictOldWork_extends (E : Env W) (P : Event → Prop)
    (hP : ∀ fqn ok, P (Event.rmWork fqn ok)) :
    ∀ (l : List String) (s : Sys W) (size : Int),
      Extends P s.trace (evictOldWork E l s size).2.trace
  | [], s, _ => Extends.refl P s.trace
  | f :: rest, s, size => by
    unfold evictOldWork
    split
    · exact evictOldWork_extends E P hP rest s size
    · dsimp only
      split_ifs
      · exact (Extends.log _ _ (hP f _)).trans (evictOldWork_extends E P hP rest _ _)
      · exact (Extends.log _ _ (hP f _)).trans (evictOldWork_extends E P hP rest _ _)

theorem evictMisplacedLoms_extends (E : Env W) (P : Event → Prop)
    (hP : ∀ fqn ok, P (Event.rmMisplacedLom fqn ok)) :
    ∀ (l : List LOM) (j : lruJ) (s : Sys W) (c : Int),
      Extends P s.trace (evictMisplacedLoms E l j s c).2.2.trace ∧
        (evictMisplacedLoms E l j s c).2.1.heap = j.heap
  | [], j, s, _ => ⟨Extends.refl P s.trace, rfl⟩
  | old :: rest, j, s, c => by
    unfold evictMisplacedLoms
    dsimp only
    split_ifs
    · have ht := postRemove_trace E j
        (({ s with w := (removeMisplacedLom E j s.w old).2.2 } : Sys W).log
          (Event.rmMisplacedLom old.fqn (removeMisplacedLom E j s.w old).1)) c
        (removeMisplacedLom E j s.w old).2.1.size
      have hh := postRemove_heap E j
        (({ s with w := (removeMisplacedLom E j s.w old).2.2 } : Sys W).log
          (Event.rmMisplacedLom old.fqn (removeMisplacedLom E j s.w old).1)) c
        (removeMisplacedLom E j s.w old).2.1.size
      split
      · rename_i heq
        rw [heq] at ht hh
        exact ⟨(Extends.log _ _ (hP _ _)).trans (Extends.of_eq ht), hh⟩
      · rename_i c1 j1 s2 heq
        rw [heq] at ht hh
        have ih := evictMisplacedLoms_extends E P hP rest j1 s2 c1
        exact ⟨((Extends.log _ _ (hP _ _)).trans (Extends.of_eq ht)).trans ih.1,
          ih.2.trans hh⟩
    · have ih := evictMisplacedLoms_extends E P hP rest j
        (({ s with w := (removeMisplacedLom E j s.w old).2.2 } : Sys W).log
          (Event.rmMisplacedLom old.fqn (removeMisplacedLom E j s.w old).1)) c
      exact ⟨(Extends.log _ _ (hP _ _)).trans ih.1, ih.2⟩

theorem evictMisplacedEC_extends (E : Env W) (P : Event → Prop)
    (hP : ∀ fqn ok, P (Event.rmMisplacedEC fqn ok)) :
    ∀ (l : List CT) (j : lruJ) (s : Sys W) (c : Int),
      Extends P s.trace (evictMisplacedEC E l j s c).2.2.trace ∧
        (evictMisplacedEC E l j s c).2.1.heap = j.heap
  | [], j, s, _ => ⟨Extends.refl P s.trace, rfl⟩
  | ct :: rest, j, s, c => by
    unfold evictMisplacedEC
    dsimp only
    split_ifs
    · exact evictMisplacedEC_extends E P hP rest j s c
    · have ht := postRemove_trace E j
        (({ s with w := (E.osRemove s.w ct.fqn).2 } : Sys W).log
          (Event.rmMisplacedEC ct.fqn (E.osRemove s.w ct.fqn).1)) c ct.size
      have hh := postRemove_heap E j
        (({ s with w := (E.osRemove s.w ct.fqn).2 } : Sys W).log
          (Event.rmMisplacedEC ct.fqn (E.osRemove s.w ct.fqn).1)) c ct.size
      split
      · rename_i heq
        rw [heq] at ht hh
        exact ⟨(Extends.log _ _ (hP _ _)).trans (Extends.of_eq ht), hh⟩
      · rename_i c1 j1 s2 heq
        rw [heq] at ht hh
        have ih := evictMisplacedEC_extends E P hP rest j1 s2 c1
        exact ⟨((Extends.log _ _ (hP _ _)).trans (Extends.of_eq ht)).trans ih.1,
          ih.2.trans hh⟩
    · have ih := evictMisplacedEC_extends E P hP rest j
        (({ s with w := (E.osRemove s.w ct.fqn).2 } : Sys W).log
          (Event.rmMisplacedEC ct.fqn (E.osRemove s.w ct.fqn).1)) c
      exact ⟨(Extends.log _ _ (hP _ _)).trans ih.1, ih.2⟩

theorem evictObj_extends (E : Env W) (P : Event → Prop) (s : Sys W) (lom : LOM)
    (hP : ∀ ok, P (Event.evictObj lom ok)) :
    Extends P s.trace (evictObj E s lom).2.trace :=
  Extends.log _ _ (hP _)

theorem evictHeap_nil (E : Env W) (fuel : Nat) (j : lruJ) (s : Sys W) (v : EvictVars)
    (h : j.heap = []) : evictHeap E fuel j s v = ((v, none), j, s) := by
  cases fuel with
  | zero => rfl
  | succ n =>
    unfold evictHeap
    rw [if_neg]
    rw [h]
    simp [minHeap.Len]

theorem evictHeap_extends (E : Env W) (P : Event → Prop)
    (hP : ∀ lom ok, P (Event.evictObj lom ok)) :
    ∀ (fuel : Nat) (j : lruJ) (s : Sys W) (v : EvictVars),
      Extends P s.trace (evictHeap E fuel j s v).2.2.trace
  | 0, _, s, _ => Extends.refl P s.trace
  | fuel + 1, j, s, v => by
    unfold evictHeap
    split_ifs
    · split
      · exact Extends.refl P s.trace
      · rename_i lom h1 _
        dsimp only
        have he := evictObj_extends E P s lom (hP lom)
        split_ifs
        · exact he.trans (evictHeap_extends E P hP fuel _ _ _)
        · have ht := postRemove_trace E { j with heap := h1 } (evictObj E s lom).2
            v.capCheck lom.size
          split
          · rename_i heq
            rw [heq] at ht
            exact he.trans (Extends.of_eq ht)
          · rename_i c1 j2 s2 heq
            rw [heq] at ht
            exact (he.trans (Extends.of_eq ht)).trans
              (evictHeap_extends E P hP fuel j2 s2 _)
    · exact Extends.refl P s.trace

/-- The events that `evict` adds to the trace: removals of old work files, of misplaced
objects (only when `rmMisplaced()` holds and there are any), of misplaced EC files, and
evictions from the heap (only when it is not empty). -/
theorem evict_extends (E : Env W) (P : Event → Prop) (j : lruJ) (s : Sys W)
    (hW : ∀ fqn ok, P (Event.rmWork fqn ok))
    (hL : rmMisplaced E (evictOldWork E j.oldWork s 0).2.w = true → j.misplaced.loms ≠ [] →
      ∀ fqn ok, P (Event.rmMisplacedLom fqn ok))
    (hE : ∀ fqn ok, P (Event.rmMisplacedEC fqn ok))
    (hO : j.heap ≠ [] → ∀ lom ok, P (Event.evictObj lom ok)) :
    Extends P s.trace (evict E j s).2.2.trace := by
  unfold evict
  dsimp only
  have A := evictOldWork_extends E P hW j.oldWork s 0
  generalize evictOldWork E j.oldWork s 0 = r1 at A hL ⊢
  have B : Extends P r1.2.trace
      (if rmMisplaced E r1.2.w = true then
          evictMisplacedLoms E j.misplaced.loms { j with oldWork := [] } r1.2 0
        else ((0, none), { j with oldWork := [] }, r1.2)).2.2.trace ∧
      (if rmMisplaced E r1.2.w = true then
          evictMisplacedLoms E j.misplaced.loms { j with oldWork := [] } r1.2 0
        else ((0, none), { j with oldWork := [] }, r1.2)).2.1.heap = j.heap := by
    split_ifs with hrm
    · by_cases hl : j.misplaced.loms = []
      · rw [hl]
        exact ⟨Extends.refl _ _, rfl⟩
      · exact evictMisplacedLoms_extends E P (hL hrm hl) _ _ _ _
    · exact ⟨Extends.refl _ _, rfl⟩
  generalize (if rmMisplaced E r1.2.w = true then
          evictMisplacedLoms E j.misplaced.loms { j with oldWork := [] } r1.2 0
        else ((0, none), { j with oldWork := [] }, r1.2)) = r2 at B ⊢
  obtain ⟨⟨c2, e2⟩, j2, s2⟩ := r2
  cases e2 with
  | some e => exact A.trans B.1
  | none =>
    dsimp only
    have C := evictMisplacedEC_extends E P hE j2.misplaced.ec
      { j2 with misplaced := { j2.misplaced with loms := [] } } s2 c2
    generalize evictMisplacedEC E j2.misplaced.ec
      { j2 with misplaced := { j2.misplaced with loms := [] } } s2 c2 = r3 at C ⊢
    obtain ⟨⟨c3, e3⟩, j3, s3⟩ := r3
    cases e3 with
    | some e => exact (A.trans B.1).trans C.1
    | none =>
      dsimp only
      have hheap : j3.heap = j.heap := C.2.trans B.2
      have D : Extends P s3.trace
          (evictHeap E j3.heap.Len { j3 with misplaced := { j3.misplaced with ec := [] } } s3
            { size := r1.1, bevicted := 0, fevicted := 0, capCheck := c3 }).2.2.trace := by
        by_cases hn : j.heap = []
        · rw [evictHeap_nil E _ _ _ _ (by rw [← hn, ← hheap])]
          exact Extends.refl _ _
        · exact evictHeap_extends E P (hO hn) _ _ _ _
      generalize evictHeap E j3.heap.Len
          { j3 with misplaced := { j3.misplaced with ec := [] } } s3
          { size := r1.1, bevicted := 0, fevicted := 0, capCheck := c3 } = r4 at D ⊢
      obtain ⟨⟨v, e4⟩, j4, s4⟩ := r4
      cases e4 with
      | some e => exact ((A.trans B.1).trans C.1).trans D
      | none => exact ((A.trans B.1).trans C.1).trans D

/-! ## Misplaced objects and a running rebalance -/

/-- C6 (as the code has it): when `rmMisplaced()` returns false at step 2 of `evict`, the
list `misplaced.loms` has no influence on what `evict` does, and `evict` makes no removal
of a misplaced object. -/
theorem evict_spares_misplaced_loms (E : Env W) (j : lruJ) (s : Sys W)
    (hrm : rmMisplaced E (evictOldWork E j.oldWork s 0).2.w = false) :
    evict E j s = evict E { j with misplaced := { j.misplaced with loms := [] } } s ∧
    Extends (fun e => e.isRmMisplacedLom = false) s.trace (evict E j s).2.2.trace := by
  constructor
  · unfold evict
    simp only [hrm, Bool.false_eq_true, if_false]
  · apply evict_extends
    · intro _ _; rfl
    · intro h
      rw [hrm] at h
      exact absurd h (by simp)
    · intro _ _; rfl
    · intro _ _ _; rfl

/-- Witness for C6: a rebalance is running and `misplaced.loms` holds one object. -/
theorem evict_spares_misplaced_loms_witness :
    evict exEnvReb { exJogger with misplaced := { loms := [exLom], ec := [] } } exSys
      = evict exEnvReb { exJogger with misplaced := { loms := [], ec := [] } } exSys ∧
    Extends (fun e => e.isRmMisplacedLom = false) exSys.trace
      (evict exEnvReb { exJogger with misplaced := { loms := [exLom], ec := [] } }
        exSys).2.2.trace :=
  evict_spares_misplaced_loms exEnvReb
    { exJogger with misplaced := { loms := [exLom], ec := [] } } exSys (by decide)

/-- Counterexample to C6 as stated: a rebalance is running (`rmMisplaced()` is false), the
metafile of the slice recorded in `misplaced.ec` is not accessible, and `evict` removes
the slice. -/
theorem evict_removes_misplaced_ec :
    rmMisplaced exEnvReb 0 = false ∧
    (evict exEnvReb { exJogger with misplaced := { loms := [], ec := [exCT] } }
      exSys).2.2.trace = [Event.rmMisplacedEC "/mp/slice" true] := by
  decide

/-! ## The counters of evicted objects -/

/-- C7 at the failing input: the heap holds one object of 5 bytes, its removal succeeds and
the abort of the job arrives meanwhile.  `evict` returns the abort error with `size = 5`;
the object was popped and removed, and nothing was added to `stats.LruEvictSize` and
`stats.LruEvictCount`. -/
theorem evict_abort_drops_counters :
    (evict exEnvAbort { exJoggerReady with heap := [exLom] } exSys).1
      = (5, some Err.aborted) ∧
    evictedObjs (evict exEnvAbort { exJoggerReady with heap := [exLom] } exSys).2.2.trace
      = [exLom] ∧
    (evict exEnvAbort { exJoggerReady with heap := [exLom] } exSys).2.2.lruEvictSize = 0 ∧
    (evict exEnvAbort { exJoggerReady with heap := [exLom] } exSys).2.2.lruEvictCount = 0 := by
  decide

/-! ## The result of the job -/

/-- C8 (as the code has it): `Run` finishes the job with a non-nil error exactly when
there is no available mountpath, and the error is then `fs.ErrNoMountpaths`; with at least
one mountpath and no jogger panicking it finishes the job with a nil error, whatever the
joggers ended with. -/
theorem Run_finish_error (E : Env W) (ini : InitLRU) (s : Sys W) :
    (∀ e, (Run E ini s).1 = RunResult.finish (some e) ↔
      ((E.availablePaths s.w).length = 0 ∧ e = Err.noMountpaths)) ∧
    ((E.availablePaths s.w).length ≠ 0 →
      some Err.divideByZero ∉
        (runJoggers E ((E.availablePaths s.w).map (newJogger ini (E.gcoGet s.w))) s).1 →
      (Run E ini s).1 = RunResult.finish none) := by
  constructor
  · intro e
    unfold Run
    dsimp only
    split_ifs with h0 h1
    · constructor
      · intro h
        injection h with h
        injection h with h
        exact ⟨h0, h.symm⟩
      · rintro ⟨_, rfl⟩
        rfl
    · constructor
      · intro h
        simp at h
      · rintro ⟨h, _⟩
        exact absurd h h0
    · constructor
      · intro h
        simp at h
      · rintro ⟨h, _⟩
        exact absurd h h0
  · intro h0 h1
    unfold Run
    dsimp only
    rw [if_neg h0, if_neg h1]

/-- Counterexample to C8 as stated: `statfs` fails on the only mountpath, its jogger ends
with that error, which is not an abort, and the job finishes with a nil error. -/
theorem Run_ignores_jogger_error :
    (runJoggers exEnvStatFail
      [newJogger { buckets := [], force := false, cleanup := false } exConfig "/mp"]
      exSys).1 = [some (Err.other "statfs")] ∧
    (Run exEnvStatFail { buckets := [], force := false, cleanup := false } exSys).1
      = RunResult.finish none := by
  decide

/-! ## The walk of a bucket -/

theorem visitCT_frame (E : Env W) (j : lruJ) (w : W) (p : ParsedFQN) (fqn : String) :
    (visitCT E j w p fqn).allowDelObj = j.allowDelObj ∧
      (visitCT E j w p fqn).heap = j.heap ∧
      (visitCT E j w p fqn).misplaced.loms = j.misplaced.loms := by
  unfold visitCT
  split
  · dsimp only
    split_ifs <;> exact ⟨rfl, rfl, rfl⟩
  · split
    · exact ⟨rfl, rfl, rfl⟩
    · split_ifs
      · exact ⟨rfl, rfl, rfl⟩
      · split
        · exact ⟨rfl, rfl, rfl⟩
        · split_ifs <;> exact ⟨rfl, rfl, rfl⟩
  · split
    · exact ⟨rfl, rfl, rfl⟩
    · split_ifs <;> exact ⟨rfl, rfl, rfl⟩
  · exact ⟨rfl, rfl, rfl⟩

theorem visitLOM_of_not_allowed (E : Env W) (j : lruJ) (w : W) (p : ParsedFQN)
    (h : j.allowDelObj = false) : visitLOM E j w p = j := by
  unfold visitLOM
  rw [h]
  rfl

theorem walk_trace (E : Env W) (j : lruJ) (s : Sys W) (de : DirEntry) :
    (walk E j s de).2.2.trace = s.trace := by
  unfold walk
  have hy := yieldTerm_trace E j s
  split_ifs
  · rfl
  · split
    · rename_i heq
      rw [heq] at hy
      exact hy
    · rename_i heq
      rw [heq] at hy
      split
      · exact hy
      · split_ifs <;> exact hy

theorem walk_frame (E : Env W) (j : lruJ) (s : Sys W) (de : DirEntry)
    (h : j.allowDelObj = false) :
    (walk E j s de).2.1.allowDelObj = false ∧ (walk E j s de).2.1.heap = j.heap ∧
      (walk E j s de).2.1.misplaced.loms = j.misplaced.loms := by
  unfold walk
  split_ifs
  · exact ⟨h, rfl, rfl⟩
  · split
    · exact ⟨h, rfl, rfl⟩
    · split
      · exact ⟨h, rfl, rfl⟩
      · split_ifs
        · have := visitCT_frame E j ‹Sys W›.w ‹ParsedFQN› de.fqn
          exact ⟨this.1.trans h, this.2.1, this.2.2⟩
        · dsimp only
          rw [visitLOM_of_not_allowed E j _ _ h]
          exact ⟨h, rfl, rfl⟩

theorem walkEntries_trace (E : Env W) : ∀ (des : List DirEntry) (j : lruJ) (s : Sys W),
    (walkEntries E des j s).2.2.trace = s.trace
  | [], _, _ => rfl
  | de :: rest, j, s => by
    unfold walkEntries
    have hw := walk_trace E j s de
    split
    · rename_i heq
      rw [heq] at hw
      exact hw
    · rename_i j1 s1 heq
      rw [heq] at hw
      exact (walkEntries_trace E rest j1 s1).trans hw

theorem walkEntries_frame (E : Env W) : ∀ (des : List DirEntry) (j : lruJ) (s : Sys W),
    j.allowDelObj = false →
    (walkEntries E des j s).2.1.allowDelObj = false ∧
      (walkEntries E des j s).2.1.heap = j.heap ∧
      (walkEntries E des j s).2.1.misplaced.loms = j.misplaced.loms
  | [], _, _, h => ⟨h, rfl, rfl⟩
  | de :: rest, j, s, h => by
    unfold walkEntries
    have hw := walk_frame E j s de h
    split
    · rename_i heq
      rw [heq] at hw
      exact hw
    · rename_i j1 s1 heq
      rw [heq] at hw
      have ih := walkEntries_frame E rest j1 s1 hw.1
      exact ⟨ih.1, ih.2.1.trans hw.2.1, ih.2.2.trans hw.2.2⟩

/-- The events that `jogBck` adds to the trace: the start of the walk and those of
`evict`; without permission to delete objects the heap and `misplaced.loms` stay as the
walk found them, empty. -/
theorem jogBck_extends (E : Env W) (P : Event → Prop) (j : lruJ) (s : Sys W)
    (hB : P (Event.walkBck j.bck j.allowDelObj))
    (hW : ∀ fqn ok, P (Event.rmWork fqn ok))
    (hE : ∀ fqn ok, P (Event.rmMisplacedEC fqn ok))
    (hL : (j.allowDelObj = false ∧ j.misplaced.loms = []) ∨
      ∀ fqn ok, P (Event.rmMisplacedLom fqn ok))
    (hO : j.allowDelObj = false ∨ ∀ lom ok, P (Event.evictObj lom ok)) :
    Extends P s.trace (jogBck E j s).2.2.trace := by
  unfold jogBck resetHeap
  dsimp only
  have h0 : Extends P s.trace (s.log (Event.walkBck j.bck j.allowDelObj)).trace :=
    Extends.log s _ hB
  generalize hj2 : ({ j with heap := heap.Init (List.take 0 j.heap),
                             now := E.nowUnixNano s.w } : lruJ) = j2
  have hj2a : j2.allowDelObj = j.allowDelObj := by rw [← hj2]
  have hj2h : j2.heap = [] := by
    rw [← hj2]
    show heap.Init (List.take 0 j.heap) = []
    rw [List.take_zero]
    rfl
  have hj2l : j2.misplaced.loms = j.misplaced.loms := by rw [← hj2]
  generalize hs0 : s.log (Event.walkBck j.bck j.allowDelObj) = s0 at h0
  have hwt := walkEntries_trace E (E.fsWalk s0.w j.mpath j.bck).entries j2 s0
  have hwf := walkEntries_frame E (E.fsWalk s0.w j.mpath j.bck).entries j2 s0
  generalize walkEntries E (E.fsWalk s0.w j.mpath j.bck).entries j2 s0 = r at hwt hwf ⊢
  obtain ⟨e, j3, s3⟩ := r
  dsimp only at hwt hwf
  have h1 : Extends P s.trace s3.trace := h0.trans (Extends.of_eq hwt)
  cases e with
  | some e => exact h1
  | none =>
    dsimp only
    split
    · exact h1
    · refine h1.trans (evict_extends E P j3 s3 hW ?_ hE ?_)
      · intro _ hne
        rcases hL with ⟨ha, hl⟩ | hL
        · exact absurd ((hwf (hj2a.trans ha)).2.2.trans (hj2l.trans hl)) hne
        · exact hL
      · intro hne
        rcases hO with ha | hO
        · exact absurd ((hwf (hj2a.trans ha)).2.1.trans hj2h) hne
        · exact hO

/-- The events that the loop of `jogBcks` adds to the trace; every bucket is walked with
`allowDelObj` set to the result of `allow()` or-ed with `force`. -/
theorem jogBcksLoop_extends (E : Env W) (force : Bool) (P : Event → Prop)
    (hB : ∀ b w props, E.bckInit w b = Except.ok props →
      P (Event.walkBck b ((props.lruEnabled && props.allowDelete) || force)))
    (hT : ∀ b, P (Event.trashBck b))
    (hW : ∀ fqn ok, P (Event.rmWork fqn ok))
    (hE : ∀ fqn ok, P (Event.rmMisplacedEC fqn ok))
    (hL : ∀ fqn ok, P (Event.rmMisplacedLom fqn ok))
    (hO : ∀ lom ok, P (Event.evictObj lom ok)) :
    ∀ (bcks : List Bck) (j : lruJ) (s : Sys W),
      Extends P s.trace (jogBcksLoop E force bcks j s).2.2.trace
  | [], _, s => Extends.refl P s.trace
  | bck :: rest, j, s => by
    unfold jogBcksLoop allow
    dsimp only
    cases hb : E.bckInit s.w bck with
    | error e =>
      dsimp only
      split_ifs
      · exact (Extends.log _ _ (hT bck)).trans
          (jogBcksLoop_extends E force P hB hT hW hE hL hO rest _ _)
      · exact jogBcksLoop_extends E force P hB hT hW hE hL hO rest _ _
    | ok props =>
      dsimp only
      have hj := jogBck_extends E P
        { j with bck := bck, allowDelObj := (props.lruEnabled && props.allowDelete) || force }
        s (hB bck s.w props hb) hW hE (Or.inr hL) (Or.inr hO)
      generalize jogBck E
        { j with bck := bck, allowDelObj := (props.lruEnabled && props.allowDelete) || force }
        s = r at hj ⊢
      obtain ⟨⟨size, e⟩, j4, s4⟩ := r
      cases e with
      | some e => exact hj
      | none =>
        dsimp only
        split_ifs
        · exact hj.trans (jogBcksLoop_extends E force P hB hT hW hE hL hO rest j4 s4)
        · split
          · exact hj
          · split_ifs
            · exact hj
            · exact hj.trans (jogBcksLoop_extends E force P hB hT hW hE hL hO rest _ s4)
        · exact hj.trans (jogBcksLoop_extends E force P hB hT hW hE hL hO rest j4 s4)

theorem jogBcks_extends (E : Env W) (force : Bool) (P : Event → Prop)
    (hB : ∀ b w props, E.bckInit w b = Except.ok props →
      P (Event.walkBck b ((props.lruEnabled && props.allowDelete) || force)))
    (hT : ∀ b, P (Event.trashBck b))
    (hW : ∀ fqn ok, P (Event.rmWork fqn ok))
    (hE : ∀ fqn ok, P (Event.rmMisplacedEC fqn ok))
    (hL : ∀ fqn ok, P (Event.rmMisplacedLom fqn ok))
    (hO : ∀ lom ok, P (Event.evictObj lom ok))
    (bcks : List Bck) (j : lruJ) (s : Sys W) :
    Extends P s.trace (jogBcks E bcks force j s).2.2.trace := by
  unfold jogBcks
  dsimp only
  split_ifs
  · exact Extends.refl P s.trace
  · exact jogBcksLoop_extends E force P hB hT hW hE hL hO _ j s
  · exact jogBcksLoop_extends E force P hB hT hW hE hL hO _ j s

theorem removeTrashEntry_extends (E : Env W) (P : Event → Prop)
    (hP : ∀ fqn ok, P (Event.rmTrash fqn ok)) (j : lruJ) (s : Sys W) (de : DirEntry) :
    Extends P s.trace (removeTrashEntry E j s de).2.2.trace ∧
      (removeTrashEntry E j s de).2.1.ini = j.ini := by
  unfold removeTrashEntry
  dsimp only
  split_ifs
  · exact ⟨(Extends.log _ _ (hP _ _)).trans (Extends.of_eq (throttle_trace E _ _ _)),
      (throttle_heap E _ _ _).2.1⟩
  · exact ⟨Extends.log _ _ (hP _ _), rfl⟩
  · exact ⟨Extends.log _ _ (hP _ _), rfl⟩
  · exact ⟨Extends.log _ _ (hP _ _), rfl⟩

theorem scanEntries_extends (E : Env W) (P : Event → Prop)
    (hP : ∀ fqn ok, P (Event.rmTrash fqn ok)) :
    ∀ (des : List DirEntry) (j : lruJ) (s : Sys W),
      Extends P s.trace (scanEntries E des j s).2.2.trace ∧
        (scanEntries E des j s).2.1.ini = j.ini
  | [], _, s => ⟨Extends.refl P s.trace, rfl⟩
  | de :: rest, j, s => by
    unfold scanEntries
    have h := removeTrashEntry_extends E P hP j s de
    split
    · rename_i heq
      rw [heq] at h
      exact h
    · rename_i j1 s1 heq
      rw [heq] at h
      have ih := scanEntries_extends E P hP rest j1 s1
      exact ⟨h.1.trans ih.1, ih.2.trans h.2⟩

theorem removeTrash_extends (E : Env W) (P : Event → Prop)
    (hP : ∀ fqn ok, P (Event.rmTrash fqn ok)) (j : lruJ) (s : Sys W) :
    Extends P s.trace (removeTrash E j s).2.2.trace ∧
      (removeTrash E j s).2.1.ini = j.ini := by
  unfold removeTrash
  dsimp only
  split_ifs <;> exact scanEntries_extends E P hP _ j s

/-- C10: a bucket for which `allow()` yields false and which is processed without force
is walked with `allowDelObj = false`; with that flag `visitLOM` returns the jogger as it
was for every object (nothing is pushed onto the heap or appended to a misplaced list),
the flag, the heap and `misplaced.loms` stay as they are during the whole walk, and so the
eviction of this bucket removes no object: nothing is evicted from the heap and no
misplaced object is removed. -/
theorem disallowed_bucket_keeps_objects (E : Env W) (j : lruJ) (s : Sys W) (bck : Bck)
    (hallow : allow E { j with bck := bck } s.w = (false, none))
    (hloms : j.misplaced.loms = []) :
    (∀ (j1 : lruJ) (w : W) (p : ParsedFQN), j1.allowDelObj = false →
      visitLOM E j1 w p = j1) ∧
    (∀ (des : List DirEntry) (j1 : lruJ) (s1 : Sys W), j1.allowDelObj = false →
      (walkEntries E des j1 s1).2.1.allowDelObj = false ∧
        (walkEntries E des j1 s1).2.1.heap = j1.heap ∧
        (walkEntries E des j1 s1).2.1.misplaced.loms = j1.misplaced.loms) ∧
    Extends (fun e => e.isEvictObj = false ∧ e.isRmMisplacedLom = false ∧
        ∀ b a, e = Event.walkBck b a → b = bck ∧ a = false)
      s.trace (jogBcks E [bck] false j s).2.2.trace := by
  refine ⟨?_, ?_, ?_⟩
  · intro j1 w p h
    exact visitLOM_of_not_allowed E j1 w p h
  · intro des j1 s1 h
    exact walkEntries_frame E des j1 s1 h
  · unfold jogBcks
    rw [if_neg (by simp), if_neg (by simp)]
    unfold jogBcksLoop
    dsimp only
    rw [hallow]
    dsimp only
    have hj := jogBck_extends E (fun e => e.isEvictObj = false ∧ e.isRmMisplacedLom = false ∧
        ∀ b a, e = Event.walkBck b a → b = bck ∧ a = false)
      { j with bck := bck, allowDelObj := false || false } s
      ⟨rfl, rfl, fun b a h => by
        injection h with h1 h2
        exact ⟨h1.symm, h2.symm⟩⟩
      (fun _ _ => ⟨rfl, rfl, fun _ _ h => Event.noConfusion h⟩)
      (fun _ _ => ⟨rfl, rfl, fun _ _ h => Event.noConfusion h⟩)
      (Or.inl ⟨rfl, hloms⟩) (Or.inl rfl)
    generalize jogBck E { j with bck := bck, allowDelObj := false || false } s = r at hj ⊢
    obtain ⟨⟨size, e⟩, j4, s4⟩ := r
    cases e with
    | some e => exact hj
    | none =>
      dsimp only
      split_ifs
      · exact hj
      · split
        · exact hj
        · split_ifs <;> exact hj
      · exact hj

/-- Witness for C10: the bucket of the small world with LRU disabled. -/
theorem disallowed_bucket_keeps_objects_witness :
    (∀ (j1 : lruJ) (w : Nat) (p : ParsedFQN), j1.allowDelObj = false →
      visitLOM exEnvNoLru j1 w p = j1) ∧
    (∀ (des : List DirEntry) (j1 : lruJ) (s1 : Sys Nat), j1.allowDelObj = false →
      (walkEntries exEnvNoLru des j1 s1).2.1.allowDelObj = false ∧
        (walkEntries exEnvNoLru des j1 s1).2.1.heap = j1.heap ∧
        (walkEntries exEnvNoLru des j1 s1).2.1.misplaced.loms = j1.misplaced.loms) ∧
    Extends (fun e => e.isEvictObj = false ∧ e.isRmMisplacedLom = false ∧
        ∀ b a, e = Event.walkBck b a → b = exBck ∧ a = false)
      exSys.trace (jogBcks exEnvNoLru [exBck] false exJogger exSys).2.2.trace :=
  disallowed_bucket_keeps_objects exEnvNoLru exJogger exSys exBck rfl rfl

/-! ## The counters on a normal return of `evict` -/

theorem evictedObjs_append (a b : List Event) :
    evictedObjs (a ++ b) = evictedObjs a ++ evictedObjs b := by
  induction a with
  | nil => rfl
  | cons e rest ih =>
    cases e with
    | evictObj lom ok =>
      cases ok
      · simpa [evictedObjs] using ih
      · simpa [evictedObjs] using ih
    | _ => simpa [evictedObjs] using ih

theorem evictedObjs_of_none : ∀ (evs : List Event),
    (∀ e ∈ evs, e.isEvictObj = false) → evictedObjs evs = []
  | [], _ => rfl
  | e :: rest, h => by
    have h1 := h e (List.mem_cons_self _ _)
    have ih := evictedObjs_of_none rest (fun x hx => h x (List.mem_cons_of_mem _ hx))
    cases e with
    | evictObj lom ok => simp [Event.isEvictObj] at h1
    | _ => simpa [evictedObjs] using ih

theorem yieldTerm_counters (E : Env W) (j : lruJ) (s : Sys W) :
    (yieldTerm E j s).2.counters = s.counters := by
  unfold yieldTerm
  dsimp only
  split_ifs <;> rfl

theorem throttle_counters (E : Env W) (j : lruJ) (s : Sys W) (u : Int) :
    (_throttle E j s u).2.2.counters = s.counters := by
  unfold _throttle
  dsimp only
  split_ifs <;> first | rfl | exact yieldTerm_counters E _ _

theorem postRemove_counters (E : Env W) (j : lruJ) (s : Sys W) (prev size : Int) :
    (postRemove E j s prev size).2.2.counters = s.counters := by
  unfold postRemove
  have hy := yieldTerm_counters E { j with totalSize := j.totalSize - size } s
  dsimp only
  split
  · rename_i heq
    rw [heq] at hy
    exact hy
  · rename_i heq
    rw [heq] at hy
    split_ifs
    · exact hy
    · exact (throttle_counters E _ _ _).trans hy
    · exact hy

theorem evictOldWork_counters (E : Env W) : ∀ (l : List String) (s : Sys W) (size : Int),
    (evictOldWork E l s size).2.counters = s.counters
  | [], _, _ => rfl
  | f :: rest, s, size => by
    unfold evictOldWork
    split
    · exact evictOldWork_counters E rest s size
    · dsimp only
      split_ifs
      · exact evictOldWork_counters E rest _ _
      · exact evictOldWork_counters E rest _ _

theorem evictMisplacedLoms_counters (E : Env W) :
    ∀ (l : List LOM) (j : lruJ) (s : Sys W) (c : Int),
      (evictMisplacedLoms E l j s c).2.2.counters = s.counters
  | [], _, _, _ => rfl
  | old :: rest, j, s, c => by
    unfold evictMisplacedLoms
    dsimp only
    split_ifs
    · have ht := postRemove_counters E j
        (({ s with w := (removeMisplacedLom E j s.w old).2.2 } : Sys W).log
          (Event.rmMisplacedLom old.fqn (removeMisplacedLom E j s.w old).1)) c
        (removeMisplacedLom E j s.w old).2.1.size
      split
      · rename_i heq
        rw [heq] at ht
        exact ht
      · rename_i c1 j1 s2 heq
        rw [heq] at ht
        exact (evictMisplacedLoms_counters E rest j1 s2 c1).trans ht
    · exact evictMisplacedLoms_counters E rest j
        (({ s with w := (removeMisplacedLom E j s.w old).2.2 } : Sys W).log
          (Event.rmMisplacedLom old.fqn (removeMisplacedLom E j s.w old).1)) c

theorem evictMisplacedEC_counters (E : Env W) :
    ∀ (l : List CT) (j : lruJ) (s : Sys W) (c : Int),
      (evictMisplacedEC E l j s c).2.2.counters = s.counters
  | [], _, _, _ => rfl
  | ct :: rest, j, s, c => by
    unfold evictMisplacedEC
    dsimp only
    split_ifs
    · exact evictMisplacedEC_counters E rest j s c
    · have ht := postRemove_counters E j
        (({ s with w := (E.osRemove s.w ct.fqn).2 } : Sys W).log
          (Event.rmMisplacedEC ct.fqn (E.osRemove s.w ct.fqn).1)) c ct.size
      split
      · rename_i heq
        rw [heq] at ht
        exact ht
      · rename_i c1 j1 s2 heq
        rw [heq] at ht
        exact (evictMisplacedEC_counters E rest j1 s2 c1).trans ht
    · exact evictMisplacedEC_counters E rest j
        (({ s with w := (E.osRemove s.w ct.fqn).2 } : Sys W).log
          (Event.rmMisplacedEC ct.fqn (E.osRemove s.w ct.fqn).1)) c

/-- The last loop of `evict` counts in `bevicted` and `fevicted` exactly the objects it
popped and successfully removed, and does not touch the counters outside the jogger. -/
theorem evictHeap_counts (E : Env W) : ∀ (fuel : Nat) (j : lruJ) (s : Sys W) (v : EvictVars),
    ∃ evs, (evictHeap E fuel j s v).2.2.trace = s.trace ++ evs ∧
      (evictHeap E fuel j s v).2.2.counters = s.counters ∧
      (evictHeap E fuel j s v).1.1.bevicted
        = v.bevicted + ((evictedObjs evs).map LOM.size).sum ∧
      (evictHeap E fuel j s v).1.1.fevicted = v.fevicted + (evictedObjs evs).length
  | 0, _, _, _ => ⟨[], by simp [evictHeap], rfl, by simp [evictHeap, evictedObjs],
      by simp [evictHeap, evictedObjs]⟩
  | fuel + 1, j, s, v => by
    unfold evictHeap
    split_ifs
    · split
      · exact ⟨[], by simp, rfl, by simp [evictedObjs], by simp [evictedObjs]⟩
      · rename_i lom h1 _
        dsimp only
        unfold evictObj
        dsimp only
        cases hok : (E.lomRemove s.w lom).1 with
        | false =>
          simp only [Bool.not_false, if_true]
          obtain ⟨evs, h1, h2, h3, h4⟩ := evictHeap_counts E fuel { j with heap := h1 }
            (({ s with w := (E.lomRemove s.w lom).2 } : Sys W).log (Event.evictObj lom false)) v
          refine ⟨Event.evictObj lom false :: evs, ?_, ?_, ?_, ?_⟩
          · rw [h1]
            simp [Sys.log]
          · rw [h2]
            rfl
          · rw [h3]
            simp [evictedObjs]
          · rw [h4]
            simp [evictedObjs]
        | true =>
          simp only [Bool.not_true, Bool.false_eq_true, if_false]
          have ht := postRemove_trace E { j with heap := h1 }
            (({ s with w := (E.lomRemove s.w lom).2 } : Sys W).log (Event.evictObj lom true))
            v.capCheck lom.size
          have hc := postRemove_counters E { j with heap := h1 }
            (({ s with w := (E.lomRemove s.w lom).2 } : Sys W).log (Event.evictObj lom true))
            v.capCheck lom.size
          split
          · rename_i heq
            rw [heq] at ht hc
            refine ⟨[Event.evictObj lom true], ?_, ?_, ?_, ?_⟩
            · exact ht
            · exact hc
            · simp [evictedObjs]
            · simp [evictedObjs]
          · rename_i c1 j2 s2 heq
            rw [heq] at ht hc
            obtain ⟨evs, h1, h2, h3, h4⟩ := evictHeap_counts E fuel j2 s2
              { bevicted := v.bevicted + lom.size, size := v.size + lom.size,
                fevicted := v.fevicted + 1, capCheck := c1 }
            refine ⟨Event.evictObj lom true :: evs, ?_, ?_, ?_, ?_⟩
            · rw [h1]
              dsimp only at ht
              rw [ht]
              simp [Sys.log]
            · rw [h2]
              exact hc
            · rw [h3]
              simp [evictedObjs]
              ring
            · rw [h4]
              simp [evictedObjs]
              ring
    · exact ⟨[], by simp, rfl, by simp [evictedObjs], by simp [evictedObjs]⟩

/-- Whenever `evict` returns without error, what it adds to `stats.LruEvictSize` is the
sum of the sizes of the objects it popped from the heap and successfully removed, and
what it adds to `stats.LruEvictCount` is their number. -/
theorem evict_counts_on_success (E : Env W) (j : lruJ) (s : Sys W)
    (hok : (evict E j s).1.2 = none) :
    ∃ evs, (evict E j s).2.2.trace = s.trace ++ evs ∧
      (evict E j s).2.2.lruEvictSize
        = s.lruEvictSize + ((evictedObjs evs).map LOM.size).sum ∧
      (evict E j s).2.2.lruEvictCount = s.lruEvictCount + (evictedObjs evs).length := by
  revert hok
  unfold evict
  dsimp only
  have A := evictOldWork_extends E (fun e => e.isEvictObj = false) (fun _ _ => rfl)
    j.oldWork s 0
  have A2 := evictOldWork_counters E j.oldWork s 0
  generalize evictOldWork E j.oldWork s 0 = r1 at A A2 ⊢
  have B : Extends (fun e => e.isEvictObj = false) r1.2.trace
      (if rmMisplaced E r1.2.w = true then
          evictMisplacedLoms E j.misplaced.loms { j with oldWork := [] } r1.2 0
        else ((0, none), { j with oldWork := [] }, r1.2)).2.2.trace ∧
      (if rmMisplaced E r1.2.w = true then
          evictMisplacedLoms E j.misplaced.loms { j with oldWork := [] } r1.2 0
        else ((0, none), { j with oldWork := [] }, r1.2)).2.2.counters = r1.2.counters := by
    split_ifs
    · exact ⟨(evictMisplacedLoms_extends E (fun e => e.isEvictObj = false)
          (fun _ _ => rfl) _ _ _ _).1,
        evictMisplacedLoms_counters E _ _ _ _⟩
    · exact ⟨Extends.refl _ _, rfl⟩
  generalize (if rmMisplaced E r1.2.w = true then
          evictMisplacedLoms E j.misplaced.loms { j with oldWork := [] } r1.2 0
        else ((0, none), { j with oldWork := [] }, r1.2)) = r2 at B ⊢
  obtain ⟨⟨c2, e2⟩, j2, s2⟩ := r2
  cases e2 with
  | some e =>
    intro hok
    exact Option.noConfusion hok
  | none =>
    dsimp only
    have C := (evictMisplacedEC_extends E (fun e => e.isEvictObj = false) (fun _ _ => rfl)
      j2.misplaced.ec { j2 with misplaced := { j2.misplaced with loms := [] } } s2 c2).1
    have C2 := evictMisplacedEC_counters E j2.misplaced.ec
      { j2 with misplaced := { j2.misplaced with loms := [] } } s2 c2
    generalize evictMisplacedEC E j2.misplaced.ec
      { j2 with misplaced := { j2.misplaced with loms := [] } } s2 c2 = r3 at C C2 ⊢
    obtain ⟨⟨c3, e3⟩, j3, s3⟩ := r3
    cases e3 with
    | some e =>
      intro hok
      exact Option.noConfusion hok
    | none =>
      dsimp only
      obtain ⟨evs0, h0, p0⟩ := (A.trans B.1).trans C
      have hq : s3.counters = s.counters := (C2.trans B.2).trans A2
      obtain ⟨evs4, d1, d2, d3, d4⟩ := evictHeap_counts E j3.heap.Len
        { j3 with misplaced := { j3.misplaced with ec := [] } } s3
        { size := r1.1, bevicted := 0, fevicted := 0, capCheck := c3 }
      generalize evictHeap E j3.heap.Len
          { j3 with misplaced := { j3.misplaced with ec := [] } } s3
          { size := r1.1, bevicted := 0, fevicted := 0, capCheck := c3 } = r4
        at d1 d2 d3 d4 ⊢
      obtain ⟨⟨v, e4⟩, j4, s4⟩ := r4
      cases e4 with
      | some e =>
        intro hok
        exact Option.noConfusion hok
      | none =>
        intro _
        dsimp only at d1 d2 d3 d4 h0 ⊢
        have hc : s4.counters = s.counters := d2.trans hq
        simp only [Sys.counters, Prod.mk.injEq] at hc
        refine ⟨evs0 ++ evs4, ?_, ?_, ?_⟩
        · rw [d1, h0, List.append_assoc]
        · rw [evictedObjs_append, evictedObjs_of_none evs0 p0, List.nil_append, hc.1, d3]
          ring
        · rw [evictedObjs_append, evictedObjs_of_none evs0 p0, List.nil_append, hc.2.1, d4]
          ring

/-! ## The guards of `visitLOM` -/

theorem addI64_of_range {a b : Int} (h0 : -(2 : Int) ^ 63 ≤ a + b) (h1 : a + b < 2 ^ 63) :
    addI64 a b = a + b := by
  unfold addI64 wrapI64
  omega

/-- C11 (amended): `visitLOM` of an object with `atime + DontEvictTime > now`, the sum
being the `int64` sum that the code computes, returns the jogger as it was (heap,
`curSize`, `newest` and both misplaced lists included); and whenever `visitLOM` changes
the heap, it has pushed the object and `atime + DontEvictTime <= now` holds for it, with
the same sum.  The `int64` sum is the integer sum whenever that is in the `int64`
range. -/
theorem visitLOM_dontEvict (E : Env W) (j : lruJ) (w : W) (p : ParsedFQN) (lom0 lom : LOM)
    (hinit : E.lomInit w j.bck p.objName = some lom0) (hload : E.lomLoad w lom0 = some lom) :
    (addI64 lom.atime j.config.dontEvictTime > j.now → visitLOM E j w p = j) ∧
    ((visitLOM E j w p).heap ≠ j.heap →
      addI64 lom.atime j.config.dontEvictTime ≤ j.now ∧
        (visitLOM E j w p).heap = heap.Push j.heap lom) ∧
    (-(2 : Int) ^ 63 ≤ lom.atime + j.config.dontEvictTime →
      lom.atime + j.config.dontEvictTime < 2 ^ 63 →
      addI64 lom.atime j.config.dontEvictTime = lom.atime + j.config.dontEvictTime) := by
  refine ⟨?_, ?_, addI64_of_range⟩
  · intro h
    unfold visitLOM
    rw [hinit]
    dsimp only
    rw [hload]
    dsimp only
    rw [if_pos h]
    split_ifs <;> rfl
  · unfold visitLOM
    rw [hinit]
    dsimp only
    rw [hload]
    dsimp only
    intro h
    by_cases hd : addI64 lom.atime j.config.dontEvictTime > j.now
    · rw [if_pos hd] at h
      split_ifs at h <;> exact absurd rfl h
    · refine ⟨not_lt.mp hd, ?_⟩
      rw [if_neg hd] at h ⊢
      split_ifs at h ⊢ <;> first | exact absurd rfl h | rfl

/-- Counterexample to C11 as stated: the object was accessed one second before `now` and
`DontEvictTime` is `8 * 10^18` ns, so `atime + DontEvictTime > now` over the integers; the
`int64` sum overflows to a negative number, the guard does not fire, and `visitLOM`
pushes the object onto the heap. -/
theorem visitLOM_dontEvict_overflow :
    exLomRecent.atime + exJoggerLongHold.config.dontEvictTime > exJoggerLongHold.now ∧
    visitLOM exEnvRecent exJoggerLongHold 0 exParsed ≠ exJoggerLongHold ∧
    (visitLOM exEnvRecent exJoggerLongHold 0 exParsed).heap = [exLomRecent] := by
  decide

/-- Witness for C11: the object was accessed at time 10 and the clock of the jogger is at
5, with `DontEvictTime = 0`. -/
theorem visitLOM_dontEvict_witness :
    visitLOM exEnvObj { exJoggerReady with now := 5 } 0 exParsed
      = { exJoggerReady with now := 5 } :=
  (visitLOM_dontEvict exEnvObj { exJoggerReady with now := 5 } 0 exParsed exLom exLom
    rfl rfl).1 (by decide)

/-! ## What `postRemove` refreshes -/

theorem throttle_fields (E : Env W) (j : lruJ) (s : Sys W) (u : Int) :
    (_throttle E j s u).2.1 = j ∨ (_throttle E j s u).2.1 = { j with throttle := true } := by
  unfold _throttle
  dsimp only
  split_ifs
  · exact Or.inl rfl
  · exact Or.inr rfl
  · exact Or.inl rfl
  · exact Or.inl rfl

/-- C13: with `blocks > 0` and `0 <= LowWM <= 100`, file system statistics in which the
used blocks are at most `lwmBlocks = blocks * LowWM / 100` give a usage percentage
`used * 100 / blocks` that is at most `LowWM`, in the 64-bit arithmetic of `evictSize`
and in the integers alike. -/
theorem usage_at_most_lowWM (lowWM : Int) (st : FSStats)
    (_hpos : 0 < st.blocks) (h0 : 0 ≤ lowWM) (h100 : lowWM ≤ 100)
    (hused : st.blocks - st.bavail ≤ specLwmBlocks lowWM st.blocks) :
    (specUsedPct st : Int) ≤ lowWM ∧
    (∀ used : Nat, used ≤ st.blocks * lowWM.toNat / 100 →
      used * 100 / st.blocks ≤ lowWM.toNat) := by
  have hu := toU64_of_nonneg h0 (by omega)
  have hL : toU64 lowWM = lowWM.toNat := by omega
  have key : ∀ used : Nat, used * 100 ≤ st.blocks * lowWM.toNat →
      used * 100 / st.blocks ≤ lowWM.toNat := by
    intro used h
    exact Nat.div_le_of_le_mul h
  constructor
  · unfold specLwmBlocks mulU64 at hused
    rw [hL] at hused
    have hmod : st.blocks * lowWM.toNat % 2 ^ 64 ≤ st.blocks * lowWM.toNat :=
      Nat.mod_le _ _
    have hlt : st.blocks * lowWM.toNat % 2 ^ 64 < 2 ^ 64 := Nat.mod_lt _ (by norm_num)
    generalize st.blocks * lowWM.toNat % 2 ^ 64 = m at hused hmod hlt
    have h1 : (st.blocks - st.bavail) * 100 ≤ m := by omega
    have h2 : (st.blocks - st.bavail) * 100 < 2 ^ 64 := by omega
    unfold specUsedPct mulU64
    rw [Nat.mod_eq_of_lt h2]
    have := key (st.blocks - st.bavail) (le_trans h1 hmod)
    omega
  · intro used h
    apply key
    have := Nat.div_mul_le_self (st.blocks * lowWM.toNat) 100
    omega

/-- Witness for C13: 1000000 blocks, 700000 of them used, `LowWM = 70`. -/
theorem usage_at_most_lowWM_witness :
    (specUsedPct { blocks := 1000000, bavail := 300000, bsize := 4096 } : Int) ≤ 70 :=
  (usage_at_most_lowWM 70 { blocks := 1000000, bavail := 300000, bsize := 4096 }
    (by decide) (by decide) (by decide) (by decide)).1

/-! ## Misplaced objects -/

/-- C14: for an object that may be deleted, is old enough (`atime + DontEvictTime <= now`
with the `int64` sum that the code computes) and is not a local copy of a
primary, found on a mountpath that is not its HRW winner, `visitLOM` leaves the heap,
`curSize` and `newest` alone and changes the jogger only in its misplaced lists: the
object is appended to `misplaced.ec` exactly when the bucket has EC enabled and the
metafile is not accessible, to `misplaced.loms` exactly when EC is disabled, and nothing
is recorded otherwise. -/
theorem visitLOM_misplaced (E : Env W) (j : lruJ) (w : W) (p : ParsedFQN) (lom0 lom : LOM)
    (hallow : j.allowDelObj = true)
    (hinit : E.lomInit w j.bck p.objName = some lom0) (hload : E.lomLoad w lom0 = some lom)
    (hold : addI64 lom.atime j.config.dontEvictTime ≤ j.now)
    (hcopy : (lom.hasCopies && lom.isCopy) = false)
    (hhrw : lom.isHRW = false) :
    visitLOM E j w p = { j with misplaced :=
      { loms := if lom.ecEnabled = false then j.misplaced.loms ++ [lom]
                else j.misplaced.loms,
        ec := if lom.ecEnabled = true ∧ E.fsAccess w (E.ecMetaFQN lom.fqn) = false
              then j.misplaced.ec ++ [E.newCTFromLOM lom]
              else j.misplaced.ec } } := by
  unfold visitLOM
  rw [if_neg (by simp [hallow]), hinit]
  dsimp only
  rw [hload]
  dsimp only
  rw [if_neg (not_lt.mpr hold), hcopy, if_neg (by simp), hhrw, if_pos (by simp)]
  cases hec : lom.ecEnabled with
  | false =>
    rw [if_neg (by simp), if_pos rfl, if_neg (by simp)]
  | true =>
    cases hacc : E.fsAccess w (E.ecMetaFQN lom.fqn) with
    | false =>
      rw [if_pos rfl, if_pos (by simp), if_neg (by simp), if_pos ⟨rfl, rfl⟩]
    | true =>
      rw [if_pos rfl, if_neg (by simp), if_neg (by simp), if_neg (by simp)]

/-- Witness for C14: the object of the small world on a mountpath that is not its HRW
winner, in a bucket without EC, is appended to `misplaced.loms`. -/
theorem visitLOM_misplaced_witness :
    visitLOM exEnvMisplaced exJoggerReady 0 exParsed
      = { exJoggerReady with misplaced := { loms := [exLomMisplaced], ec := [] } } :=
  visitLOM_misplaced exEnvMisplaced exJoggerReady 0 exParsed exLomMisplaced exLomMisplaced
    rfl rfl rfl (by decide) rfl rfl

/-! ## The rules of `visitCT` -/

theorem append_singleton_ne {α : Type} (l : List α) (a : α) : l ++ [a] ≠ l := by
  intro h
  have := congrArg List.length h
  simp at this

/-- C15 (amended): for an EC slice, `visitCT` appends the path to `oldWork` exactly when
the CT cannot be constructed or EC is disabled for the bucket; it appends the CT to
`misplaced.ec` exactly when EC is enabled, the CT loads from disk,
`mtime + DontEvictTime <= now` and the metafile is not accessible; in every other case it
returns the jogger as it was.  The sum `mtime + DontEvictTime` is the `int64` sum that the
code computes (`addI64`), which is the integer sum whenever that is in the `int64` range
(`addI64_of_range`). -/
theorem visitCT_slice (E : Env W) (j : lruJ) (w : W) (p : ParsedFQN) (fqn : String)
    (hp : p.contentType = ContentType.ecSlice) :
    ((E.newCTFromFQN w fqn = none ∨
        ∃ ct0, E.newCTFromFQN w fqn = some ct0 ∧ ct0.ecEnabled = false) →
      visitCT E j w p fqn = { j with oldWork := j.oldWork ++ [fqn] }) ∧
    (∀ ct0 ct, E.newCTFromFQN w fqn = some ct0 → ct0.ecEnabled = true →
      E.ctLoadFromFS w ct0 = some ct → addI64 ct.mtime j.config.dontEvictTime ≤ j.now →
      E.fsAccess w (E.ecMetaFQN ct.fqn) = false →
      visitCT E j w p fqn
        = { j with misplaced := { j.misplaced with ec := j.misplaced.ec ++ [ct] } }) ∧
    (∀ ct0, E.newCTFromFQN w fqn = some ct0 → ct0.ecEnabled = true →
      (E.ctLoadFromFS w ct0 = none ∨
        ∃ ct, E.ctLoadFromFS w ct0 = some ct ∧
          (addI64 ct.mtime j.config.dontEvictTime > j.now ∨
            E.fsAccess w (E.ecMetaFQN ct.fqn) = true)) →
      visitCT E j w p fqn = j) ∧
    ((visitCT E j w p fqn).oldWork ≠ j.oldWork ↔
      (E.newCTFromFQN w fqn = none ∨
        ∃ ct0, E.newCTFromFQN w fqn = some ct0 ∧ ct0.ecEnabled = false)) ∧
    ((visitCT E j w p fqn).misplaced.ec ≠ j.misplaced.ec ↔
      ∃ ct0 ct, E.newCTFromFQN w fqn = some ct0 ∧ ct0.ecEnabled = true ∧
        E.ctLoadFromFS w ct0 = some ct ∧ addI64 ct.mtime j.config.dontEvictTime ≤ j.now ∧
        E.fsAccess w (E.ecMetaFQN ct.fqn) = false) := by
  unfold visitCT
  rw [hp]
  dsimp only
  cases hc : E.newCTFromFQN w fqn with
  | none =>
    dsimp only
    refine ⟨fun _ => rfl, ?_, ?_, ?_, ?_⟩
    · intro ct0 ct h
      exact Option.noConfusion h
    · intro ct0 h
      exact Option.noConfusion h
    · exact ⟨fun _ => Or.inl rfl, fun _ => append_singleton_ne _ _⟩
    · constructor
      · intro h
        exact absurd rfl h
      · rintro ⟨ct0, ct, h, _⟩
        exact Option.noConfusion h
  | some c0 =>
    dsimp only
    cases he : c0.ecEnabled with
    | false =>
      rw [if_pos (by simp)]
      refine ⟨fun _ => rfl, ?_, ?_, ?_, ?_⟩
      · intro ct0 ct h h2
        injection h with h
        subst h
        rw [he] at h2
        exact Bool.noConfusion h2
      · intro ct0 h h2
        injection h with h
        subst h
        rw [he] at h2
        exact Bool.noConfusion h2
      · exact ⟨fun _ => Or.inr ⟨c0, rfl, he⟩, fun _ => append_singleton_ne _ _⟩
      · constructor
        · intro h
          exact absurd rfl h
        · rintro ⟨ct0, ct, h, h2, _⟩
          injection h with h
          subst h
          rw [he] at h2
          exact Bool.noConfusion h2
    | true =>
      rw [if_neg (by simp)]
      cases hl : E.ctLoadFromFS w c0 with
      | none =>
        dsimp only
        refine ⟨?_, ?_, fun _ _ _ _ => rfl, ?_, ?_⟩
        · rintro (h | ⟨ct0, h, h2⟩)
          · exact Option.noConfusion h
          · injection h with h
            subst h
            rw [he] at h2
            exact Bool.noConfusion h2
        · intro ct0 ct h _ h3
          injection h with h
          subst h
          rw [hl] at h3
          exact Option.noConfusion h3
        · constructor
          · intro h
            exact absurd rfl h
          · rintro (h | ⟨ct0, h, h2⟩)
            · exact Option.noConfusion h
            · injection h with h
              subst h
              rw [he] at h2
              exact Bool.noConfusion h2
        · constructor
          · intro h
            exact absurd rfl h
          · rintro ⟨ct0, ct, h, _, h3, _⟩
            injection h with h
            subst h
            rw [hl] at h3
            exact Option.noConfusion h3
      | some c =>
        dsimp only
        have hA : ¬ (some c0 = none ∨ ∃ ct0, some c0 = some ct0 ∧ ct0.ecEnabled = false) := by
          rintro (h | ⟨ct0, h, h2⟩)
          · exact Option.noConfusion h
          · injection h with h
            subst h
            rw [he] at h2
            exact Bool.noConfusion h2
        by_cases ht : addI64 c.mtime j.config.dontEvictTime > j.now
        · rw [if_pos ht]
          refine ⟨fun h => absurd h hA, ?_, fun _ _ _ _ => rfl, ?_, ?_⟩
          · intro ct0 ct h _ h3 h4
            injection h with h
            subst h
            rw [hl] at h3
            injection h3 with h3
            subst h3
            omega
          · exact ⟨fun h => absurd rfl h, fun h => absurd h hA⟩
          · constructor
            · intro h
              exact absurd rfl h
            · rintro ⟨ct0, ct, h, _, h3, h4, _⟩
              injection h with h
              subst h
              rw [hl] at h3
              injection h3 with h3
              subst h3
              omega
        · rw [if_neg ht]
          cases ha : E.fsAccess w (E.ecMetaFQN c.fqn) with
          | false =>
            rw [if_pos (by simp)]
            refine ⟨fun h => absurd h hA, ?_, ?_, ?_, ?_⟩
            · intro ct0 ct h _ h3 _ _
              injection h with h
              subst h
              rw [hl] at h3
              injection h3 with h3
              subst h3
              rfl
            · intro ct0 h _ h3
              injection h with h
              subst h
              rcases h3 with h3 | ⟨ct, h3, h4⟩
              · rw [hl] at h3
                exact Option.noConfusion h3
              · rw [hl] at h3
                injection h3 with h3
                subst h3
                rcases h4 with h4 | h4
                · exact absurd h4 ht
                · rw [ha] at h4
                  exact Bool.noConfusion h4
            · exact ⟨fun h => absurd rfl h, fun h => absurd h hA⟩
            · exact ⟨fun _ => ⟨c0, c, rfl, he, hl, not_lt.mp ht, ha⟩,
                fun _ => append_singleton_ne _ _⟩
          | true =>
            rw [if_neg (by simp)]
            refine ⟨fun h => absurd h hA, ?_, fun _ _ _ _ => rfl, ?_, ?_⟩
            · intro ct0 ct h _ h3 _ h5
              injection h with h
              subst h
              rw [hl] at h3
              injection h3 with h3
              subst h3
              rw [ha] at h5
              exact Bool.noConfusion h5
            · exact ⟨fun h => absurd rfl h, fun h => absurd h hA⟩
            · constructor
              · intro h
                exact absurd rfl h
              · rintro ⟨ct0, ct, h, _, h3, _, h5⟩
                injection h with h
                subst h
                rw [hl] at h3
                injection h3 with h3
                subst h3
                rw [ha] at h5
                exact Bool.noConfusion h5

/-- Counterexample to C15 as stated: the slice was written one second before `now` and
`DontEvictTime` is `8 * 10^18` ns, so `mtime + DontEvictTime <= now` fails over the
integers and the claim has the jogger unchanged; the `int64` sum overflows to a negative
number and `visitCT` appends the slice, whose metafile is missing, to `misplaced.ec`. -/
theorem visitCT_slice_overflow :
    ¬ (exCTRecent.mtime + exJoggerLongHold.config.dontEvictTime ≤ exJoggerLongHold.now) ∧
    visitCT exEnvSliceRecent exJoggerLongHold 0 exParsedSlice "/mp/slice"
      = { exJoggerLongHold with misplaced := { loms := [], ec := [exCTRecent] } } := by
  decide

/-- Witness for C15: the slice of the small world, written at time 10, without metafile,
seen at time 1000, goes to `misplaced.ec`. -/
theorem visitCT_slice_witness :
    visitCT exEnvSlice exJoggerReady 0 exParsedSlice "/mp/slice"
      = { exJoggerReady with misplaced := { loms := [], ec := [exCT] } } :=
  (visitCT_slice exEnvSlice exJoggerReady 0 exParsedSlice "/mp/slice" rfl).2.1 exCT exCT
    rfl rfl rfl (by decide) (by decide)

/-- C16: for an EC metafile, `visitCT` appends the path to `oldWork` exactly when the CT
cannot be constructed, or EC is disabled for the bucket, or neither the slice nor the
object of the metafile is accessible; in every other case it returns the jogger as it
was; and it never changes a misplaced list. -/
theorem visitCT_meta (E : Env W) (j : lruJ) (w : W) (p : ParsedFQN) (fqn : String)
    (hp : p.contentType = ContentType.ecMeta) :
    ((E.newCTFromFQN w fqn = none ∨
        ∃ ct, E.newCTFromFQN w fqn = some ct ∧
          (ct.ecEnabled = false ∨
            (E.fsAccess w (E.ecSliceFQN ct.fqn) = false ∧
              E.fsAccess w (E.objectFQN ct.fqn) = false))) →
      visitCT E j w p fqn = { j with oldWork := j.oldWork ++ [fqn] }) ∧
    (¬ (E.newCTFromFQN w fqn = none ∨
        ∃ ct, E.newCTFromFQN w fqn = some ct ∧
          (ct.ecEnabled = false ∨
            (E.fsAccess w (E.ecSliceFQN ct.fqn) = false ∧
              E.fsAccess w (E.objectFQN ct.fqn) = false))) →
      visitCT E j w p fqn = j) ∧
    (visitCT E j w p fqn).misplaced = j.misplaced := by
  unfold visitCT
  rw [hp]
  dsimp only
  cases hc : E.newCTFromFQN w fqn with
  | none =>
    dsimp only
    exact ⟨fun _ => rfl, fun h => absurd (Or.inl rfl) h, rfl⟩
  | some c =>
    dsimp only
    cases he : c.ecEnabled with
    | false =>
      rw [if_pos (by simp)]
      exact ⟨fun _ => rfl, fun h => absurd (Or.inr ⟨c, rfl, Or.inl he⟩) h, rfl⟩
    | true =>
      rw [if_neg (by simp)]
      cases hs : E.fsAccess w (E.ecSliceFQN c.fqn) with
      | true =>
        rw [if_pos rfl]
        refine ⟨?_, fun _ => rfl, rfl⟩
        rintro (h | ⟨ct, h, h2⟩)
        · exact Option.noConfusion h
        · injection h with h
          subst h
          rcases h2 with h2 | ⟨h2, _⟩
          · rw [he] at h2
            exact Bool.noConfusion h2
          · rw [hs] at h2
            exact Bool.noConfusion h2
      | false =>
        rw [if_neg (by simp)]
        cases ho : E.fsAccess w (E.objectFQN c.fqn) with
        | true =>
          rw [if_pos rfl]
          refine ⟨?_, fun _ => rfl, rfl⟩
          rintro (h | ⟨ct, h, h2⟩)
          · exact Option.noConfusion h
          · injection h with h
            subst h
            rcases h2 with h2 | ⟨_, h2⟩
            · rw [he] at h2
              exact Bool.noConfusion h2
            · rw [ho] at h2
              exact Bool.noConfusion h2
        | false =>
          rw [if_neg (by simp)]
          exact ⟨fun _ => rfl,
            fun h => absurd (Or.inr ⟨c, rfl, Or.inr ⟨hs, ho⟩⟩) h, rfl⟩

/-- Witness for C16: in an EC bucket of the small world, a metafile whose slice and object
are not accessible goes to `oldWork`. -/
theorem visitCT_meta_witness :
    visitCT exEnvSlice exJoggerReady 0 exParsedMeta "/mp/meta"
      = { exJoggerReady with oldWork := ["/mp/meta"] } :=
  (visitCT_meta exEnvSlice exJoggerReady 0 exParsedMeta "/mp/meta" rfl).1
    (Or.inr ⟨exCT, rfl, Or.inr ⟨by decide, by decide⟩⟩)

theorem evictOldWork_extends_mem (E : Env W) (P : Event → Prop) :
    ∀ (l : List String) (s : Sys W) (size : Int),
      (∀ fqn ∈ l, ∀ ok, P (Event.rmWork fqn ok)) →
      Extends P s.trace (evictOldWork E l s size).2.trace
  | [], s, _, _ => Extends.refl P s.trace
  | f :: rest, s, size, hP => by
    have hrest : ∀ fqn ∈ rest, ∀ ok, P (Event.rmWork fqn ok) :=
      fun fqn h ok => hP fqn (List.mem_cons_of_mem _ h) ok
    unfold evictOldWork
    split
    · exact evictOldWork_extends_mem E P rest s size hrest
    · dsimp only
      split_ifs
      · exact (Extends.log _ _ (hP f (List.mem_cons_self _ _) _)).trans
          (evictOldWork_extends_mem E P rest _ _ hrest)
      · exact (Extends.log _ _ (hP f (List.mem_cons_self _ _) _)).trans
          (evictOldWork_extends_mem E P rest _ _ hrest)

/-- The only work files that `evict` removes are those recorded in `oldWork`. -/
theorem evict_rmWork_mem (E : Env W) (j : lruJ) (s : Sys W) :
    Extends (fun e => ∀ f ok, e = Event.rmWork f ok → f ∈ j.oldWork)
      s.trace (evict E j s).2.2.trace := by
  unfold evict
  dsimp only
  have A := evictOldWork_extends_mem E
    (fun e => ∀ f ok, e = Event.rmWork f ok → f ∈ j.oldWork) j.oldWork s 0
    (fun fqn hm ok f ok1 h => by
      injection h with h1 _
      rw [← h1]
      exact hm)
  generalize evictOldWork E j.oldWork s 0 = r1 at A ⊢
  have B : Extends (fun e => ∀ f ok, e = Event.rmWork f ok → f ∈ j.oldWork) r1.2.trace
      (if rmMisplaced E r1.2.w = true then
          evictMisplacedLoms E j.misplaced.loms { j with oldWork := [] } r1.2 0
        else ((0, none), { j with oldWork := [] }, r1.2)).2.2.trace := by
    split_ifs
    · exact (evictMisplacedLoms_extends E
        (fun e => ∀ f ok, e = Event.rmWork f ok → f ∈ j.oldWork)
        (fun _ _ _ _ h => Event.noConfusion h) _ _ _ _).1
    · exact Extends.refl _ _
  generalize (if rmMisplaced E r1.2.w = true then
          evictMisplacedLoms E j.misplaced.loms { j with oldWork := [] } r1.2 0
        else ((0, none), { j with oldWork := [] }, r1.2)) = r2 at B ⊢
  obtain ⟨⟨c2, e2⟩, j2, s2⟩ := r2
  cases e2 with
  | some e => exact A.trans B
  | none =>
    dsimp only
    have C := (evictMisplacedEC_extends E
      (fun e => ∀ f ok, e = Event.rmWork f ok → f ∈ j.oldWork)
      (fun _ _ _ _ h => Event.noConfusion h) j2.misplaced.ec
      { j2 with misplaced := { j2.misplaced with loms := [] } } s2 c2).1
    generalize evictMisplacedEC E j2.misplaced.ec
      { j2 with misplaced := { j2.misplaced with loms := [] } } s2 c2 = r3 at C ⊢
    obtain ⟨⟨c3, e3⟩, j3, s3⟩ := r3
    cases e3 with
    | some e => exact (A.trans B).trans C
    | none =>
      dsimp only
      have D := evictHeap_extends E
        (fun e => ∀ f ok, e = Event.rmWork f ok → f ∈ j.oldWork)
        (fun _ _ _ _ h => Event.noConfusion h) j3.heap.Len
        { j3 with misplaced := { j3.misplaced with ec := [] } } s3
        { size := r1.1, bevicted := 0, fevicted := 0, capCheck := c3 }
      generalize evictHeap E j3.heap.Len
          { j3 with misplaced := { j3.misplaced with ec := [] } } s3
          { size := r1.1, bevicted := 0, fevicted := 0, capCheck := c3 } = r4 at D ⊢
      obtain ⟨⟨v, e4⟩, j4, s4⟩ := r4
      cases e4 with
      | some e => exact ((A.trans B).trans C).trans D
      | none => exact ((A.trans B).trans C).trans D

/-- C17: for a workfile, `visitCT` appends the path to `oldWork` exactly when
`ParseUniqueFQN` on the base name succeeds and reports the file as old; otherwise it
returns the jogger as it was, so that the file is not recorded for removal; and the only
work files that `evict` removes are those recorded in `oldWork`. -/
theorem visitCT_workfile (E : Env W) (j : lruJ) (w : W) (p : ParsedFQN) (fqn : String)
    (hp : p.contentType = ContentType.work) :
    (((E.parseUniqueFQN w (filepathBase fqn)).2 = true ∧
        (E.parseUniqueFQN w (filepathBase fqn)).1 = true) →
      visitCT E j w p fqn = { j with oldWork := j.oldWork ++ [fqn] }) ∧
    (¬ ((E.parseUniqueFQN w (filepathBase fqn)).2 = true ∧
        (E.parseUniqueFQN w (filepathBase fqn)).1 = true) →
      visitCT E j w p fqn = j) ∧
    (∀ (j1 : lruJ) (s1 : Sys W),
      Extends (fun e => ∀ f ok, e = Event.rmWork f ok → f ∈ j1.oldWork)
        s1.trace (evict E j1 s1).2.2.trace) := by
  refine ⟨?_, ?_, fun j1 s1 => evict_rmWork_mem E j1 s1⟩
  · intro h
    unfold visitCT
    rw [hp]
    dsimp only
    rw [if_pos (by simp [h.1, h.2])]
  · intro h
    unfold visitCT
    rw [hp]
    dsimp only
    rw [if_neg]
    intro hh
    rw [Bool.and_eq_true] at hh
    exact h hh

/-- Witness for C17: an old workfile and a workfile of a running process. -/
theorem visitCT_workfile_witness :
    visitCT exEnvWork exJoggerReady 0 exParsedWork "/mp/work.123"
      = { exJoggerReady with oldWork := ["/mp/work.123"] } ∧
    visitCT exEnv exJoggerReady 0 exParsedWork "/mp/work.123" = exJoggerReady :=
  ⟨(visitCT_workfile exEnvWork exJoggerReady 0 exParsedWork "/mp/work.123" rfl).1
      ⟨rfl, rfl⟩,
   (visitCT_workfile exEnv exJoggerReady 0 exParsedWork "/mp/work.123" rfl).2.1
      (by decide)⟩

/-! ## Slices and metafiles over a file system that does not change -/

theorem visitCT_snapshot (E : Env W) (w0 : W) (j : lruJ) (w : W) (p : ParsedFQN)
    (fqn : String)
    (hstatic : ∀ (w1 w2 : W) (f : String), E.fsAccess w1 f = E.fsAccess w2 f)
    (hfqn : E.fsAccess w0 fqn = true)
    (h1 : ∀ f ∈ j.oldWork, E.fsAccess w0 f = true)
    (h2 : ∀ ct ∈ j.misplaced.ec, E.fsAccess w0 (E.ecMetaFQN ct.fqn) = false) :
    (∀ f ∈ (visitCT E j w p fqn).oldWork, E.fsAccess w0 f = true) ∧
    (∀ ct ∈ (visitCT E j w p fqn).misplaced.ec,
      E.fsAccess w0 (E.ecMetaFQN ct.fqn) = false) := by
  have hadd : ∀ f ∈ j.oldWork ++ [fqn], E.fsAccess w0 f = true := by
    intro f hf
    rcases List.mem_append.mp hf with h | h
    · exact h1 f h
    · rw [List.mem_singleton.mp h]
      exact hfqn
  unfold visitCT
  split
  · dsimp only
    split_ifs
    · exact ⟨hadd, h2⟩
    · exact ⟨h1, h2⟩
  · split
    · exact ⟨hadd, h2⟩
    · split_ifs
      · exact ⟨hadd, h2⟩
      · split
        · exact ⟨h1, h2⟩
        · rename_i ct _
          split_ifs with _ ha
          · exact ⟨h1, h2⟩
          · refine ⟨h1, ?_⟩
            intro c hc
            rcases List.mem_append.mp hc with h | h
            · exact h2 c h
            · rw [List.mem_singleton.mp h, hstatic w0 w]
              simpa using ha
          · exact ⟨h1, h2⟩
  · split
    · exact ⟨hadd, h2⟩
    · split_ifs
      · exact ⟨hadd, h2⟩
      · exact ⟨h1, h2⟩
      · exact ⟨h1, h2⟩
      · exact ⟨hadd, h2⟩
  · exact ⟨h1, h2⟩

theorem visitLOM_snapshot (E : Env W) (w0 : W) (j : lruJ) (w : W) (p : ParsedFQN)
    (hstatic : ∀ (w1 w2 : W) (f : String), E.fsAccess w1 f = E.fsAccess w2 f)
    (hct : ∀ lom, (E.newCTFromLOM lom).fqn = lom.fqn)
    (h1 : ∀ f ∈ j.oldWork, E.fsAccess w0 f = true)
    (h2 : ∀ ct ∈ j.misplaced.ec, E.fsAccess w0 (E.ecMetaFQN ct.fqn) = false) :
    (∀ f ∈ (visitLOM E j w p).oldWork, E.fsAccess w0 f = true) ∧
    (∀ ct ∈ (visitLOM E j w p).misplaced.ec,
      E.fsAccess w0 (E.ecMetaFQN ct.fqn) = false) := by
  unfold visitLOM
  split
  · exact ⟨h1, h2⟩
  · split
    · exact ⟨h1, h2⟩
    · split
      · exact ⟨h1, h2⟩
      · rename_i lom _
        split
        · exact ⟨h1, h2⟩
        · split
          · exact ⟨h1, h2⟩
          · split
            · split
              · split
                · rename_i ha
                  refine ⟨h1, ?_⟩
                  intro c hc
                  rcases List.mem_append.mp hc with h | h
                  · exact h2 c h
                  · rw [List.mem_singleton.mp h, hct, hstatic w0 w]
                    simpa using ha
                · exact ⟨h1, h2⟩
              · exact ⟨h1, h2⟩
            · split
              · exact ⟨h1, h2⟩
              · split
                · exact ⟨h1, h2⟩
                · dsimp only
                  split <;> exact ⟨h1, h2⟩

theorem walkEntries_snapshot (E : Env W) (w0 : W)
    (hstatic : ∀ (w1 w2 : W) (f : String), E.fsAccess w1 f = E.fsAccess w2 f)
    (hct : ∀ lom, (E.newCTFromLOM lom).fqn = lom.fqn) :
    ∀ (des : List DirEntry) (j : lruJ) (s : Sys W),
      (∀ de ∈ des, de.isDir = false → E.fsAccess w0 de.fqn = true) →
      (∀ f ∈ j.oldWork, E.fsAccess w0 f = true) →
      (∀ ct ∈ j.misplaced.ec, E.fsAccess w0 (E.ecMetaFQN ct.fqn) = false) →
      (∀ f ∈ (walkEntries E des j s).2.1.oldWork, E.fsAccess w0 f = true) ∧
      (∀ ct ∈ (walkEntries E des j s).2.1.misplaced.ec,
        E.fsAccess w0 (E.ecMetaFQN ct.fqn) = false)
  | [], _, _, _, h1, h2 => ⟨h1, h2⟩
  | de :: rest, j, s, hex, h1, h2 => by
    have hrest : ∀ d ∈ rest, d.isDir = false → E.fsAccess w0 d.fqn = true :=
      fun d hd => hex d (List.mem_cons_of_mem _ hd)
    have hw : (∀ f ∈ (walk E j s de).2.1.oldWork, E.fsAccess w0 f = true) ∧
        (∀ ct ∈ (walk E j s de).2.1.misplaced.ec,
          E.fsAccess w0 (E.ecMetaFQN ct.fqn) = false) := by
      unfold walk
      split_ifs with hd
      · exact ⟨h1, h2⟩
      · split
        · exact ⟨h1, h2⟩
        · split
          · exact ⟨h1, h2⟩
          · split_ifs
            · exact visitCT_snapshot E w0 j _ _ de.fqn hstatic
                (hex de (List.mem_cons_self _ _) (by simpa using hd)) h1 h2
            · exact visitLOM_snapshot E w0 j _ _ hstatic hct h1 h2
    unfold walkEntries
    split
    · rename_i heq
      rw [heq] at hw
      exact hw
    · rename_i j1 s1 heq
      rw [heq] at hw
      exact walkEntries_snapshot E w0 hstatic hct rest j1 s1 hrest hw.1 hw.2

/-- C18: over a file system that does not change during the walk of a bucket (what
`fs.Access` answers does not depend on the time, and every file handed to the callback
is accessible), starting with empty lists, the walk never records both a slice, or a
replica, in `misplaced.ec` and its metafile in `oldWork`. -/
theorem slice_and_meta_not_both (E : Env W) (j : lruJ) (s : Sys W) (des : List DirEntry)
    (hstatic : ∀ (w1 w2 : W) (f : String), E.fsAccess w1 f = E.fsAccess w2 f)
    (hexist : ∀ de ∈ des, de.isDir = false → E.fsAccess s.w de.fqn = true)
    (hct : ∀ lom, (E.newCTFromLOM lom).fqn = lom.fqn)
    (hwork : j.oldWork = []) (hec : j.misplaced.ec = []) :
    ∀ ct ∈ (walkEntries E des j s).2.1.misplaced.ec,
      E.ecMetaFQN ct.fqn ∉ (walkEntries E des j s).2.1.oldWork := by
  have h := walkEntries_snapshot E s.w hstatic hct des j s hexist
    (by rw [hwork]; intro f hf; simp at hf)
    (by rw [hec]; intro c hc; simp at hc)
  intro ct hc hm
  have a := h.1 _ hm
  have b := h.2 ct hc
  rw [a] at b
  exact Bool.noConfusion b

/-- Witness for C18: the walk of the small world with the slice on disk and no metafile
records the slice in `misplaced.ec` and not its metafile in `oldWork`. -/
theorem slice_and_meta_not_both_witness :
    (walkEntries exEnvSlice [{ fqn := "/mp/slice", isDir := false }] exJoggerReady
      exSys).2.1.misplaced.ec = [exCT] ∧
    exEnvSlice.ecMetaFQN exCT.fqn ∉
      (walkEntries exEnvSlice [{ fqn := "/mp/slice", isDir := false }] exJoggerReady
        exSys).2.1.oldWork :=
  ⟨by decide,
   slice_and_meta_not_both exEnvSlice exJoggerReady exSys
    [{ fqn := "/mp/slice", isDir := false }] (fun _ _ _ => rfl)
    (by
      intro de h _
      rw [List.mem_singleton.mp h]
      decide)
    (fun _ => rfl) rfl rfl exCT (by decide)⟩

/-! ## Cleanup-only mode -/

theorem visitCT_ini (E : Env W) (j : lruJ) (w : W) (p : ParsedFQN) (fqn : String) :
    (visitCT E j w p fqn).ini = j.ini ∧ (visitCT E j w p fqn).heap = j.heap := by
  unfold visitCT
  split
  · dsimp only
    split_ifs <;> exact ⟨rfl, rfl⟩
  · split
    · exact ⟨rfl, rfl⟩
    · split_ifs
      · exact ⟨rfl, rfl⟩
      · split
        · exact ⟨rfl, rfl⟩
        · split_ifs <;> exact ⟨rfl, rfl⟩
  · split
    · exact ⟨rfl, rfl⟩
    · split_ifs <;> exact ⟨rfl, rfl⟩
  · exact ⟨rfl, rfl⟩

theorem visitLOM_cleanup (E : Env W) (j : lruJ) (w : W) (p : ParsedFQN) :
    (visitLOM E j w p).ini = j.ini ∧
      (j.ini.cleanup = true → (visitLOM E j w p).heap = j.heap) := by
  unfold visitLOM
  split
  · exact ⟨rfl, fun _ => rfl⟩
  · split
    · exact ⟨rfl, fun _ => rfl⟩
    · split
      · exact ⟨rfl, fun _ => rfl⟩
      · split
        · exact ⟨rfl, fun _ => rfl⟩
        · split
          · exact ⟨rfl, fun _ => rfl⟩
          · split
            · split
              · split <;> exact ⟨rfl, fun _ => rfl⟩
              · exact ⟨rfl, fun _ => rfl⟩
            · split
              · exact ⟨rfl, fun _ => rfl⟩
              · rename_i hc
                split
                · exact ⟨rfl, fun _ => rfl⟩
                · dsimp only
                  split <;> exact ⟨rfl, fun h => absurd h hc⟩

theorem walk_cleanup (E : Env W) (j : lruJ) (s : Sys W) (de : DirEntry) :
    (walk E j s de).2.1.ini = j.ini ∧
      (j.ini.cleanup = true → (walk E j s de).2.1.heap = j.heap) ∧
      (walk E j s de).2.2.counters = s.counters := by
  unfold walk
  have hy := yieldTerm_counters E j s
  split_ifs
  · exact ⟨rfl, fun _ => rfl, rfl⟩
  · split
    · rename_i heq
      rw [heq] at hy
      exact ⟨rfl, fun _ => rfl, hy⟩
    · rename_i s1 heq
      rw [heq] at hy
      split
      · exact ⟨rfl, fun _ => rfl, hy⟩
      · rename_i parsed _
        split_ifs
        · exact ⟨(visitCT_ini E j s1.w parsed de.fqn).1,
            fun _ => (visitCT_ini E j s1.w parsed de.fqn).2, hy⟩
        · exact ⟨(visitLOM_cleanup E j s1.w parsed).1,
            (visitLOM_cleanup E j s1.w parsed).2, hy⟩

theorem walkEntries_cleanup (E : Env W) : ∀ (des : List DirEntry) (j : lruJ) (s : Sys W),
    (walkEntries E des j s).2.1.ini = j.ini ∧
      (j.ini.cleanup = true → (walkEntries E des j s).2.1.heap = j.heap) ∧
      (walkEntries E des j s).2.2.counters = s.counters
  | [], _, _ => ⟨rfl, fun _ => rfl, rfl⟩
  | de :: rest, j, s => by
    unfold walkEntries
    have hw := walk_cleanup E j s de
    split
    · rename_i heq
      rw [heq] at hw
      exact hw
    · rename_i j1 s1 heq
      rw [heq] at hw
      have ih := walkEntries_cleanup E rest j1 s1
      refine ⟨ih.1.trans hw.1, fun hc => ?_, ih.2.2.trans hw.2.2⟩
      exact (ih.2.1 (by rw [hw.1]; exact hc)).trans (hw.2.1 hc)

/-- With an empty heap `evict` adds nothing to the counters, whether it returns an error
or not. -/
theorem evict_counters_nil (E : Env W) (j : lruJ) (s : Sys W) (hnil : j.heap = []) :
    (evict E j s).2.2.counters = s.counters := by
  unfold evict
  dsimp only
  have A := evictOldWork_counters E j.oldWork s 0
  generalize evictOldWork E j.oldWork s 0 = r1 at A ⊢
  have B : (if rmMisplaced E r1.2.w = true then
          evictMisplacedLoms E j.misplaced.loms { j with oldWork := [] } r1.2 0
        else ((0, none), { j with oldWork := [] }, r1.2)).2.2.counters = r1.2.counters ∧
      (if rmMisplaced E r1.2.w = true then
          evictMisplacedLoms E j.misplaced.loms { j with oldWork := [] } r1.2 0
        else ((0, none), { j with oldWork := [] }, r1.2)).2.1.heap = j.heap := by
    split_ifs
    · exact ⟨evictMisplacedLoms_counters E _ _ _ _,
        (evictMisplacedLoms_extends E (fun _ => True) (fun _ _ => trivial) _ _ _ _).2⟩
    · exact ⟨rfl, rfl⟩
  generalize (if rmMisplaced E r1.2.w = true then
          evictMisplacedLoms E j.misplaced.loms { j with oldWork := [] } r1.2 0
        else ((0, none), { j with oldWork := [] }, r1.2)) = r2 at B ⊢
  obtain ⟨⟨c2, e2⟩, j2, s2⟩ := r2
  cases e2 with
  | some e => exact B.1.trans A
  | none =>
    dsimp only
    have C := evictMisplacedEC_counters E j2.misplaced.ec
      { j2 with misplaced := { j2.misplaced with loms := [] } } s2 c2
    have C2 := (evictMisplacedEC_extends E (fun _ => True) (fun _ _ => trivial)
      j2.misplaced.ec { j2 with misplaced := { j2.misplaced with loms := [] } } s2 c2).2
    generalize evictMisplacedEC E j2.misplaced.ec
      { j2 with misplaced := { j2.misplaced with loms := [] } } s2 c2 = r3 at C C2 ⊢
    obtain ⟨⟨c3, e3⟩, j3, s3⟩ := r3
    cases e3 with
    | some e => exact (C.trans B.1).trans A
    | none =>
      dsimp only
      have hheap : j3.heap = [] := (C2.trans B.2).trans hnil
      rw [evictHeap_nil E _ _ _ _ (by exact hheap)]
      dsimp only at C ⊢
      have h3 : s3.counters = s.counters := (C.trans B.1).trans A
      simp only [Sys.counters, Prod.mk.injEq] at h3 ⊢
      simp [h3.1, h3.2.1, h3.2.2.1, h3.2.2.2]

/-- C19: in cleanup-only mode `visitLOM` never changes the heap, so the walk of a bucket
leaves the heap as `jogBck` reset it, empty, and `jogBck` - the walk and `evict` - adds
nothing to the counters of evicted objects and bytes and evicts no object. -/
theorem cleanup_evicts_nothing (E : Env W) (j : lruJ) (s : Sys W)
    (hc : j.ini.cleanup = true) :
    (∀ w p, (visitLOM E j w p).heap = j.heap) ∧
    (∀ des s1, (walkEntries E des (resetHeap j) s1).2.1.heap = []) ∧
    (jogBck E j s).2.2.counters = s.counters ∧
    Extends (fun e => e.isEvictObj = false) s.trace (jogBck E j s).2.2.trace := by
  have hreset : ∀ des s1, (walkEntries E des (resetHeap j) s1).2.1.heap = [] := by
    intro des s1
    rw [(walkEntries_cleanup E des (resetHeap j) s1).2.1 hc]
    show heap.Init (List.take 0 j.heap) = []
    rw [List.take_zero]
    rfl
  refine ⟨fun w p => (visitLOM_cleanup E j w p).2 hc, hreset, ?_⟩
  unfold jogBck resetHeap
  dsimp only
  generalize hj2 : ({ j with heap := heap.Init (List.take 0 j.heap),
                             now := E.nowUnixNano s.w } : lruJ) = j2
  have hj2c : j2.ini.cleanup = true := by
    rw [← hj2]
    exact hc
  have hj2h : j2.heap = [] := by
    rw [← hj2]
    show heap.Init (List.take 0 j.heap) = []
    rw [List.take_zero]
    rfl
  have h0 : Extends (fun e => e.isEvictObj = false) s.trace
      (s.log (Event.walkBck j.bck j.allowDelObj)).trace := Extends.log s _ rfl
  have hc0 : (s.log (Event.walkBck j.bck j.allowDelObj)).counters = s.counters := rfl
  generalize s.log (Event.walkBck j.bck j.allowDelObj) = s0 at h0 hc0 ⊢
  have hw := walkEntries_cleanup E (E.fsWalk s0.w j.mpath j.bck).entries j2 s0
  have hwt := walkEntries_trace E (E.fsWalk s0.w j.mpath j.bck).entries j2 s0
  generalize walkEntries E (E.fsWalk s0.w j.mpath j.bck).entries j2 s0 = r at hw hwt ⊢
  obtain ⟨e, j3, s3⟩ := r
  dsimp only at hw hwt
  have h1 : Extends (fun e => e.isEvictObj = false) s.trace s3.trace :=
    h0.trans (Extends.of_eq hwt)
  have hc3 : s3.counters = s.counters := hw.2.2.trans hc0
  have hheap : j3.heap = [] := (hw.2.1 hj2c).trans hj2h
  cases e with
  | some e => exact ⟨hc3, h1⟩
  | none =>
    dsimp only
    split
    · exact ⟨hc3, h1⟩
    · refine ⟨(evict_counters_nil E j3 s3 hheap).trans hc3, h1.trans ?_⟩
      apply evict_extends
      · intro _ _; rfl
      · intro _ _ _ _; rfl
      · intro _ _; rfl
      · intro hne
        exact absurd hheap hne

/-- Witness for C19: the small world with one object, walked in cleanup-only mode. -/
theorem cleanup_evicts_nothing_witness :
    (jogBck exEnvObj exJoggerCleanup exSys).2.2.counters = exSys.counters :=
  (cleanup_evicts_nothing exEnvObj exJoggerCleanup exSys rfl).2.2.1

/-! ## Nothing to do below the threshold -/

theorem removeTrashEntry_fields (E : Env W) (j : lruJ) (s : Sys W) (de : DirEntry) :
    ∃ t, (removeTrashEntry E j s de).2.1 = { j with throttle := t } := by
  unfold removeTrashEntry
  dsimp only
  split_ifs
  · rcases throttle_fields E j
      (({ s with w := (E.osRemoveAll s.w de.fqn).2 } : Sys W).log
        (Event.rmTrash de.fqn (E.osRemoveAll s.w de.fqn).1))
      (E.getFSUsedPercentage (E.osRemoveAll s.w de.fqn).2 j.mpath).1 with h | h
    · exact ⟨j.throttle, h⟩
    · exact ⟨true, h⟩
  · exact ⟨j.throttle, rfl⟩
  · exact ⟨j.throttle, rfl⟩
  · exact ⟨j.throttle, rfl⟩

theorem scanEntries_fields (E : Env W) : ∀ (des : List DirEntry) (j : lruJ) (s : Sys W),
    ∃ t, (scanEntries E des j s).2.1 = { j with throttle := t }
  | [], j, _ => ⟨j.throttle, rfl⟩
  | de :: rest, j, s => by
    unfold scanEntries
    obtain ⟨t, ht⟩ := removeTrashEntry_fields E j s de
    split
    · rename_i heq
      rw [heq] at ht
      exact ⟨t, ht⟩
    · rename_i j1 s1 heq
      rw [heq] at ht
      dsimp only at ht
      obtain ⟨t2, ht2⟩ := scanEntries_fields E rest j1 s1
      refine ⟨t2, ?_⟩
      rw [ht2, ht]

/-- The trash phase changes nothing in the jogger but, possibly, `throttle`. -/
theorem removeTrash_fields (E : Env W) (j : lruJ) (s : Sys W) :
    ∃ t, (removeTrash E j s).2.1 = { j with throttle := t } := by
  unfold removeTrash
  dsimp only
  split_ifs <;> exact scanEntries_fields E _ j s

/-- C20: in a run that is not cleanup-only and whose trash phase ends without error, if
`evictSize` returns no error and a `totalSize` below `minEvictThresh`, then `run` returns
no error right after the trash phase, in the state that the trash phase left: no bucket
is walked and nothing is evicted (the trash phase records removals of trash only).  This
is so in particular for a new jogger (`totalSize = 0`) whenever the file system statistics
give `usedPct < HighWM`. -/
theorem run_below_threshold (E : Env W) (j : lruJ) (s : Sys W)
    (hclean : j.ini.cleanup = false) (htrash : (removeTrash E j s).1 = none) :
    (∀ j2, evictSize E (removeTrash E j s).2.1 (removeTrash E j s).2.2.w = (none, j2) →
      j2.totalSize < minEvictThresh →
      run E j s = (none, j2, (removeTrash E j s).2.2)) ∧
    (∀ st, j.totalSize = 0 →
      E.getFSStats (removeTrash E j s).2.2.w j.mpath = Except.ok st →
      0 < st.blocks → st.bavail ≤ st.blocks → st.blocks < 2 ^ 64 →
      specUsedPct st < toU64 j.config.highWM →
      run E j s = (none, (removeTrash E j s).2.1, (removeTrash E j s).2.2)) ∧
    Extends (fun e => e.isRmTrash = true) s.trace (removeTrash E j s).2.2.trace := by
  have hini := (removeTrash_extends E (fun e => e.isRmTrash = true) (fun _ _ => rfl) j s).2
  have hext := (removeTrash_extends E (fun e => e.isRmTrash = true) (fun _ _ => rfl) j s).1
  obtain ⟨t, hf⟩ := removeTrash_fields E j s
  have partA : ∀ j2,
      evictSize E (removeTrash E j s).2.1 (removeTrash E j s).2.2.w = (none, j2) →
      j2.totalSize < minEvictThresh →
      run E j s = (none, j2, (removeTrash E j s).2.2) := by
    intro j2 hev hlt
    unfold run
    generalize removeTrash E j s = r at htrash hini hev ⊢
    obtain ⟨e, j1, s1⟩ := r
    dsimp only at htrash hini hev ⊢
    subst htrash
    dsimp only
    rw [if_pos (by rw [hini, hclean]; rfl), hev]
    dsimp only
    rw [if_pos hlt]
  refine ⟨partA, ?_, hext⟩
  intro st h0 hst hpos hle hblk hlow
  have hused : subU64 st.blocks st.bavail = st.blocks - st.bavail := by
    unfold subU64
    omega
  have hev : evictSize E (removeTrash E j s).2.1 (removeTrash E j s).2.2.w
      = (none, (removeTrash E j s).2.1) := by
    rw [hf]
    unfold specUsedPct at hlow
    unfold evictSize
    dsimp only
    rw [hst]
    dsimp only
    rw [if_neg (by omega), hused, if_pos hlow]
  apply partA _ hev
  rw [hf]
  show j.totalSize < minEvictThresh
  rw [h0]
  decide

/-- Witness for C20: the small world at 40% usage with `HighWM = 80`; the run of a new
jogger returns at once, leaving the jogger and the state outside as they were. -/
theorem run_below_threshold_witness :
    run exEnvLow exJogger exSys = (none, exJogger, exSys) :=
  (run_below_threshold exEnvLow exJogger exSys rfl rfl).2.1
    { blocks := 1000000, bavail := 600000, bsize := 4096 } rfl rfl (by decide) (by decide)
    (by decide) (by decide)

/-! ## The throttle decision -/

/-- C21: `_throttle` changes nothing and returns no error when the mountpath is idle;
otherwise the jogger it leaves is the one it was given with the sticky `throttle` flag set
to `true` if `ratioUtilization > ratioCapacity` and
`usedPct < (LowWM + HighWM) / 2` (division of `int64`, truncated), and the very jogger it
was given if not; so a flag that is set is never cleared. -/
theorem throttle_decision (E : Env W) (j : lruJ) (s : Sys W) (usedPct : Int) :
    (E.isIdle s.w j.mpath j.config = true → _throttle E j s usedPct = (none, j, s)) ∧
    (E.isIdle s.w j.mpath j.config = false →
      (_throttle E j s usedPct).2.1 =
        if E.ratio j.config.diskUtilHighWM j.config.diskUtilLowWM (E.getMpathUtil s.w j.mpath)
              > E.ratio j.config.highWM j.config.lowWM usedPct
            ∧ usedPct < Int.tdiv (j.config.lowWM + j.config.highWM) 2
        then { j with throttle := true } else j) ∧
    (j.throttle = true → (_throttle E j s usedPct).2.1.throttle = true) := by
  refine ⟨?_, ?_, ?_⟩
  · intro hidle
    unfold _throttle
    rw [if_pos hidle]
  · intro hidle
    unfold _throttle
    dsimp only
    rw [if_neg (by simp [hidle])]
    by_cases hr : E.ratio j.config.diskUtilHighWM j.config.diskUtilLowWM
        (E.getMpathUtil s.w j.mpath) > E.ratio j.config.highWM j.config.lowWM usedPct
    · rw [if_pos hr]
      by_cases hu : usedPct < Int.tdiv (j.config.lowWM + j.config.highWM) 2
      · rw [if_pos hu, if_pos ⟨hr, hu⟩]
      · rw [if_neg hu, if_neg (fun h => hu h.2)]
    · rw [if_neg hr, if_neg (fun h => hr h.1)]
  · intro ht
    unfold _throttle
    dsimp only
    split_ifs <;> first | exact ht | rfl

/-- Witness for C21: on the busy disk (utilisation ratio 1) at 72% of capacity (capacity
ratio 1/5, below the midpoint 75 of the watermarks 70 and 80) the flag gets set. -/
theorem throttle_decision_witness :
    exEnvBusy.isIdle exSys.w exJogger.mpath exJogger.config = false ∧
    (_throttle exEnvBusy exJogger exSys 72).2.1 = { exJogger with throttle := true } :=
  ⟨rfl, ((throttle_decision exEnvBusy exJogger exSys 72).2.1 rfl).trans (by decide)⟩

/-! ## Buckets that cannot be initialised -/

theorem jogBcksLoop_all_missing (E : Env W) (force : Bool) :
    ∀ (bcks : List Bck) (j : lruJ) (s : Sys W),
      (∀ b ∈ bcks, ∀ w, ∃ e, E.bckInit w b = Except.error e) →
      (jogBcksLoop E force bcks j s).1 = none
  | [], _, _, _ => rfl
  | bck :: rest, j, s, h => by
    obtain ⟨e, he⟩ := h bck (List.mem_cons_self _ _) s.w
    unfold jogBcksLoop allow
    dsimp only
    rw [he]
    dsimp only
    exact jogBcksLoop_all_missing E force rest _ _
      (fun b hb => h b (List.mem_cons_of_mem _ hb))

/-- C22: in the loop of `jogBcks` over any bucket list, a bucket for which `allow()` fails
with error `e` is not walked and its error is dropped: the loop goes on with the rest of
the list, from a state in which `TrashNonExistingBucket` was called for that bucket if `e`
is a bucket-not-found or a remote-bucket-not-found error, and from the same state if it is
any other error.  Hence a bucket whose initialisation fails whenever it is tried is never
walked by `jogBcks`, whatever the list, and `jogBcks` returns no error for a list of such
buckets. -/
theorem jogBcks_skips_missing_bucket (E : Env W) (force : Bool) :
    (∀ (bck : Bck) (rest : List Bck) (j : lruJ) (s : Sys W) (ok : Bool) (e : Err),
      allow E { j with bck := bck } s.w = (ok, some e) →
      jogBcksLoop E force (bck :: rest) j s =
        jogBcksLoop E force rest { j with bck := bck, allowDelObj := false }
          (if e = Err.bckNotFound ∨ e = Err.remoteBckNotFound then
            ({ s with w := E.trashNonExistingBucket s.w bck } : Sys W).log (Event.trashBck bck)
          else s)) ∧
    (∀ (missing : Bck), (∀ w, ∃ e, E.bckInit w missing = Except.error e) →
      ∀ (bcks : List Bck) (j : lruJ) (s : Sys W),
        Extends (fun ev => ∀ a, ev ≠ Event.walkBck missing a)
          s.trace (jogBcks E bcks force j s).2.2.trace) ∧
    (∀ (bcks : List Bck), (∀ b ∈ bcks, ∀ w, ∃ e, E.bckInit w b = Except.error e) →
      ∀ (j : lruJ) (s : Sys W), (jogBcks E bcks force j s).1 = none) := by
  refine ⟨?_, ?_, ?_⟩
  · intro bck rest j s ok e h
    have hok : ok = false := by
      unfold allow at h
      dsimp only at h
      cases hb : E.bckInit s.w bck with
      | error e1 =>
        rw [hb] at h
        exact (congrArg (fun r => r.1) h).symm
      | ok props =>
        rw [hb] at h
        exact Option.noConfusion (congrArg (fun r => r.2) h)
    subst hok
    conv_lhs => unfold jogBcksLoop
    dsimp only
    rw [h]
  · intro missing hm bcks j s
    refine jogBcks_extends E force _ ?_ ?_ ?_ ?_ ?_ ?_ bcks j s
    · intro b w props hb a heq
      injection heq with h1 _
      obtain ⟨e, he⟩ := hm w
      rw [h1, he] at hb
      exact Except.noConfusion hb
    · intro b a heq
      exact Event.noConfusion heq
    · intro fqn ok a heq
      exact Event.noConfusion heq
    · intro fqn ok a heq
      exact Event.noConfusion heq
    · intro fqn ok a heq
      exact Event.noConfusion heq
    · intro lom ok a heq
      exact Event.noConfusion heq
  · intro bcks hm j s
    unfold jogBcks
    dsimp only
    split_ifs
    · rfl
    · refine jogBcksLoop_all_missing E force _ j s ?_
      intro b hb
      unfold sortBsize at hb
      exact hm b ((List.perm_insertionSort _ bcks).mem_iff.mp hb)
    · exact jogBcksLoop_all_missing E force _ j s hm

/-- Witness for C22: the bucket of the small world, unknown to the bucket owner, is handed
to `TrashNonExistingBucket` and `jogBcks` returns no error. -/
theorem jogBcks_skips_missing_bucket_witness :
    (jogBcks exEnvMissing [exBck] false exJogger exSys).1 = none ∧
    (jogBcks exEnvMissing [exBck] false exJogger exSys).2.2.trace = [Event.trashBck exBck] :=
  ⟨(jogBcks_skips_missing_bucket exEnvMissing false).2.2 [exBck]
      (fun _ _ _ => ⟨Err.bckNotFound, rfl⟩) exJogger exSys,
    by decide⟩

/-! ## The drain loop of `evict` -/

/-- What `postRemove` does to the jogger apart from the refreshed fields (`throttle`,
`allowDelObj`, `config`, `now`): the budget goes down by the freed size, nothing else
changes. -/
theorem postRemove_frame (E : Env W) (j : lruJ) (s : Sys W) (prev size : Int) :
    (postRemove E j s prev size).2.1.totalSize = j.totalSize - size ∧
    (postRemove E j s prev size).2.1.heap = j.heap ∧
    (postRemove E j s prev size).2.1.oldWork = j.oldWork ∧
    (postRemove E j s prev size).2.1.misplaced = j.misplaced ∧
    (postRemove E j s prev size).2.1.curSize = j.curSize ∧
    (postRemove E j s prev size).2.1.newest = j.newest := by
  unfold postRemove
  dsimp only
  split
  · exact ⟨rfl, rfl, rfl, rfl, rfl, rfl⟩
  · split_ifs
    · exact ⟨rfl, rfl, rfl, rfl, rfl, rfl⟩
    · rename_i s1 _ _ _
      dsimp only
      rcases throttle_fields E
        { j with totalSize := j.totalSize - size, throttle := false,
                 allowDelObj := (allow E { j with totalSize := j.totalSize - size,
                                                  throttle := false } s1.w).1,
                 config := E.gcoGet s1.w, now := E.nowUnixNano s1.w } s1
        (E.getFSUsedPercentage s1.w j.mpath).1 with h | h <;> rw [h] <;>
        exact ⟨rfl, rfl, rfl, rfl, rfl, rfl⟩
    · exact ⟨rfl, rfl, rfl, rfl, rfl, rfl⟩

theorem Pop_of_pos (h : minHeap) (hpos : 0 < h.length) :
    ∃ x h1, heap.Pop h = (some x, h1) ∧ h1.length + 1 = h.length := by
  rcases Pop_perm h with ⟨hnil, _⟩ | ⟨x, h1, hp, hperm⟩
  · rw [hnil] at hpos
    exact absurd hpos (by simp)
  · exact ⟨x, h1, hp, by simpa using hperm.length_eq⟩

/-- The drain loop, given at least `h.Len()` rounds, ends without error only with an empty
heap or a used-up budget. -/
theorem evictHeap_stops (E : Env W) : ∀ (fuel : Nat) (j : lruJ) (s : Sys W) (v : EvictVars),
    j.heap.length ≤ fuel → (evictHeap E fuel j s v).1.2 = none →
    (evictHeap E fuel j s v).2.1.heap = [] ∨ (evictHeap E fuel j s v).2.1.totalSize ≤ 0
  | 0, j, s, v, hlen, _ => by
    left
    show j.heap = []
    exact List.length_eq_zero.mp (Nat.le_zero.mp hlen)
  | fuel + 1, j, s, v, hlen, herr => by
    unfold evictHeap at herr ⊢
    by_cases hc : j.heap.Len > 0 ∧ j.totalSize > 0
    · rw [if_pos hc] at herr ⊢
      obtain ⟨x, h1, hp, hl⟩ := Pop_of_pos j.heap hc.1
      rw [hp] at herr ⊢
      dsimp only at herr ⊢
      have hlen1 : h1.length ≤ fuel := by omega
      by_cases hr : (evictObj E s x).1 = true
      · rw [if_neg (by simp [hr])] at herr ⊢
        have hf := postRemove_frame E { j with heap := h1 } (evictObj E s x).2 v.capCheck x.size
        generalize postRemove E { j with heap := h1 } (evictObj E s x).2 v.capCheck x.size
          = r at hf herr ⊢
        obtain ⟨⟨c1, e⟩, j2, s2⟩ := r
        cases e with
        | some e => exact Option.noConfusion herr
        | none =>
          dsimp only at herr ⊢
          have hh : j2.heap = h1 := hf.2.1
          exact evictHeap_stops E fuel j2 s2 _ (by rw [hh]; exact hlen1) herr
      · rw [if_pos (by simp [hr])] at herr ⊢
        exact evictHeap_stops E fuel { j with heap := h1 } _ v hlen1 herr
    · rw [if_neg hc]
      dsimp only
      by_cases h0 : j.heap = []
      · exact Or.inl h0
      · right
        have : 0 < j.heap.length := List.length_pos.mpr h0
        by_contra hn
        exact hc ⟨this, by omega⟩

theorem evictMisplacedLoms_frame (E : Env W) :
    ∀ (l : List LOM) (j : lruJ) (s : Sys W) (c : Int),
      (evictMisplacedLoms E l j s c).2.1.heap = j.heap ∧
      (evictMisplacedLoms E l j s c).2.1.oldWork = j.oldWork ∧
      (evictMisplacedLoms E l j s c).2.1.misplaced = j.misplaced
  | [], _, _, _ => ⟨rfl, rfl, rfl⟩
  | old :: rest, j, s, c => by
    unfold evictMisplacedLoms
    dsimp only
    split_ifs
    · have hf := postRemove_frame E j
        (({ s with w := (removeMisplacedLom E j s.w old).2.2 } : Sys W).log
          (Event.rmMisplacedLom old.fqn (removeMisplacedLom E j s.w old).1)) c
        (removeMisplacedLom E j s.w old).2.1.size
      split
      · rename_i heq
        rw [heq] at hf
        exact ⟨hf.2.1, hf.2.2.1, hf.2.2.2.1⟩
      · rename_i c1 j1 s2 heq
        rw [heq] at hf
        have ih := evictMisplacedLoms_frame E rest j1 s2 c1
        exact ⟨ih.1.trans hf.2.1, ih.2.1.trans hf.2.2.1, ih.2.2.trans hf.2.2.2.1⟩
    · exact evictMisplacedLoms_frame E rest j _ c

theorem evictMisplacedEC_frame (E : Env W) :
    ∀ (l : List CT) (j : lruJ) (s : Sys W) (c : Int),
      (evictMisplacedEC E l j s c).2.1.heap = j.heap ∧
      (evictMisplacedEC E l j s c).2.1.oldWork = j.oldWork ∧
      (evictMisplacedEC E l j s c).2.1.misplaced = j.misplaced
  | [], _, _, _ => ⟨rfl, rfl, rfl⟩
  | ct :: rest, j, s, c => by
    unfold evictMisplacedEC
    dsimp only
    split_ifs
    · exact evictMisplacedEC_frame E rest j s c
    · have hf := postRemove_frame E j
        (({ s with w := (E.osRemove s.w ct.fqn).2 } : Sys W).log
          (Event.rmMisplacedEC ct.fqn (E.osRemove s.w ct.fqn).1)) c ct.size
      split
      · rename_i heq
        rw [heq] at hf
        exact ⟨hf.2.1, hf.2.2.1, hf.2.2.2.1⟩
      · rename_i c1 j1 s2 heq
        rw [heq] at hf
        have ih := evictMisplacedEC_frame E rest j1 s2 c1
        exact ⟨ih.1.trans hf.2.1, ih.2.1.trans hf.2.2.1, ih.2.2.trans hf.2.2.2.1⟩
    · exact evictMisplacedEC_frame E rest j _ c

theorem evictHeap_frame (E : Env W) : ∀ (fuel : Nat) (j : lruJ) (s : Sys W) (v : EvictVars),
    (evictHeap E fuel j s v).2.1.oldWork = j.oldWork ∧
    (evictHeap E fuel j s v).2.1.misplaced = j.misplaced
  | 0, _, _, _ => ⟨rfl, rfl⟩
  | fuel + 1, j, s, v => by
    unfold evictHeap
    split_ifs
    · split
      · exact ⟨rfl, rfl⟩
      · rename_i lom h1 _
        dsimp only
        split_ifs
        · exact evictHeap_frame E fuel { j with heap := h1 } _ v
        · have hf := postRemove_frame E { j with heap := h1 } (evictObj E s lom).2
            v.capCheck lom.size
          split
          · rename_i heq
            rw [heq] at hf
            exact ⟨hf.2.2.1, hf.2.2.2.1⟩
          · rename_i c1 j2 s2 heq
            rw [heq] at hf
            have ih := evictHeap_frame E fuel j2 s2
              { size := v.size + lom.size, bevicted := v.bevicted + lom.size,
                fevicted := v.fevicted + 1, capCheck := c1 }
            exact ⟨ih.1.trans hf.2.2.1, ih.2.trans hf.2.2.2.1⟩
    · exact ⟨rfl, rfl⟩

/-- When `evict` returns without error, the three scratch lists are empty and the drain
loop has stopped on an empty heap or a used-up budget. -/
theorem evict_on_success (E : Env W) (j : lruJ) (s : Sys W)
    (herr : (evict E j s).1.2 = none) :
    ((evict E j s).2.1.heap = [] ∨ (evict E j s).2.1.totalSize ≤ 0) ∧
    (evict E j s).2.1.oldWork = [] ∧ (evict E j s).2.1.misplaced.loms = [] ∧
    (evict E j s).2.1.misplaced.ec = [] := by
  unfold evict at herr ⊢
  dsimp only at herr ⊢
  generalize evictOldWork E j.oldWork s 0 = r1 at herr ⊢
  have B : (if rmMisplaced E r1.2.w = true then
          evictMisplacedLoms E j.misplaced.loms { j with oldWork := [] } r1.2 0
        else ((0, none), { j with oldWork := [] }, r1.2)).2.1.oldWork = [] := by
    split_ifs
    · exact (evictMisplacedLoms_frame E _ _ _ _).2.1
    · rfl
  generalize (if rmMisplaced E r1.2.w = true then
          evictMisplacedLoms E j.misplaced.loms { j with oldWork := [] } r1.2 0
        else ((0, none), { j with oldWork := [] }, r1.2)) = r2 at B herr ⊢
  obtain ⟨⟨c2, e2⟩, j2, s2⟩ := r2
  cases e2 with
  | some e => exact Option.noConfusion herr
  | none =>
    dsimp only at herr ⊢
    have C := evictMisplacedEC_frame E j2.misplaced.ec
      { j2 with misplaced := { j2.misplaced with loms := [] } } s2 c2
    generalize evictMisplacedEC E j2.misplaced.ec
      { j2 with misplaced := { j2.misplaced with loms := [] } } s2 c2 = r3 at C herr ⊢
    obtain ⟨⟨c3, e3⟩, j3, s3⟩ := r3
    cases e3 with
    | some e => exact Option.noConfusion herr
    | none =>
      dsimp only at herr ⊢
      have D := evictHeap_stops E j3.heap.Len
        { j3 with misplaced := { j3.misplaced with ec := [] } } s3
        { size := r1.1, bevicted := 0, fevicted := 0, capCheck := c3 } (le_refl _)
      have F := evictHeap_frame E j3.heap.Len
        { j3 with misplaced := { j3.misplaced with ec := [] } } s3
        { size := r1.1, bevicted := 0, fevicted := 0, capCheck := c3 }
      generalize evictHeap E j3.heap.Len
          { j3 with misplaced := { j3.misplaced with ec := [] } } s3
          { size := r1.1, bevicted := 0, fevicted := 0, capCheck := c3 } = r4 at D F herr ⊢
      obtain ⟨⟨v, e4⟩, j4, s4⟩ := r4
      cases e4 with
      | some e => exact Option.noConfusion herr
      | none =>
        dsimp only at D F ⊢
        have hm3 : j3.misplaced = { j2.misplaced with loms := [] } := C.2.2
        refine ⟨D rfl, ?_, ?_, ?_⟩
        · rw [F.1]
          exact C.2.1.trans B
        · rw [F.2]
          show j3.misplaced.loms = []
          rw [hm3]
        · rw [F.2]

/-- C24: the drain loop of `evict` pops nothing at a loop head at which `totalSize <= 0`
(it returns the heap, the accumulators and the state outside as they are), so an object
is popped only while `totalSize > 0`; and whenever `evict` returns without error, the
heap of the jogger is empty or `totalSize <= 0`. -/
theorem evict_drain_stop (E : Env W) (j : lruJ) (s : Sys W) :
    (∀ (fuel : Nat) (v : EvictVars), j.totalSize ≤ 0 →
      evictHeap E fuel j s v = ((v, none), j, s)) ∧
    ((evict E j s).1.2 = none →
      (evict E j s).2.1.heap = [] ∨ (evict E j s).2.1.totalSize ≤ 0) := by
  constructor
  · intro fuel v h
    cases fuel with
    | zero => rfl
    | succ n =>
      unfold evictHeap
      rw [if_neg (fun hc => absurd hc.2 (by omega))]
  · intro herr
    exact (evict_on_success E j s herr).1

/-- Witness for C24: with two objects on the heap and a budget of 3 bytes, `evict` removes
the older one (5 bytes) and returns without error with `totalSize = -2`. -/
theorem evict_drain_stop_witness :
    (evict exEnv { exJoggerReady with heap := heap.Push (heap.Push [] exLom) exLomNewer,
                                      totalSize := 3 } exSys).1.2 = none ∧
    ((evict exEnv { exJoggerReady with heap := heap.Push (heap.Push [] exLom) exLomNewer,
                                       totalSize := 3 } exSys).2.1.heap = [] ∨
     (evict exEnv { exJoggerReady with heap := heap.Push (heap.Push [] exLom) exLomNewer,
                                       totalSize := 3 } exSys).2.1.totalSize ≤ 0) :=
  ⟨by decide,
   (evict_drain_stop exEnv { exJoggerReady with heap := heap.Push (heap.Push [] exLom) exLomNewer,
                                                totalSize := 3 } exSys).2 (by decide)⟩

/-- C25: in a round of the drain loop that pops `lom` and fails to remove it (`evictObj`
returns false), the next loop head has the jogger as it was but for the popped heap, so
`totalSize` is unchanged, and the same accumulators (`size`, `bevicted`, `fevicted`,
`capCheck`); the counters outside are unchanged as well, and the loop goes on with the
next candidate instead of returning. -/
theorem evictHeap_failed_removal (E : Env W) (fuel : Nat) (j : lruJ) (s : Sys W)
    (v : EvictVars) (lom : LOM) (h1 : minHeap)
    (hlen : j.heap.Len > 0) (htot : j.totalSize > 0)
    (hpop : heap.Pop j.heap = (some lom, h1))
    (hfail : (evictObj E s lom).1 = false) :
    evictHeap E (fuel + 1) j s v
      = evictHeap E fuel { j with heap := h1 } (evictObj E s lom).2 v ∧
    ({ j with heap := h1 } : lruJ).totalSize = j.totalSize ∧
    (evictObj E s lom).2.counters = s.counters ∧
    (evictObj E s lom).2.trace = s.trace ++ [Event.evictObj lom false] := by
  refine ⟨?_, rfl, rfl, ?_⟩
  · conv_lhs => unfold evictHeap
    rw [if_pos ⟨hlen, htot⟩, hpop]
    dsimp only
    rw [if_pos (by simp [hfail])]
  · have h2 : (E.lomRemove s.w lom).1 = false := hfail
    unfold evictObj Sys.log
    dsimp only
    rw [h2]

/-- Witness for C25: where no object can be removed, the round that pops the only object
of the heap hands the jogger with its budget of 100 bytes and the accumulators on to the
next loop head. -/
theorem evictHeap_failed_removal_witness :
    evictHeap exEnvRmFail 1 { exJoggerReady with heap := [exLom] } exSys
        { size := 0, bevicted := 0, fevicted := 0, capCheck := 0 }
      = evictHeap exEnvRmFail 0 { exJoggerReady with heap := [] }
          (evictObj exEnvRmFail exSys exLom).2
          { size := 0, bevicted := 0, fevicted := 0, capCheck := 0 } :=
  (evictHeap_failed_removal exEnvRmFail 0 { exJoggerReady with heap := [exLom] } exSys
    { size := 0, bevicted := 0, fevicted := 0, capCheck := 0 } exLom []
    (by decide) (by decide) (by decide) (by decide)).1

/-! ## The scratch lists -/

theorem evictSize_lists (E : Env W) (j : lruJ) (w : W) :
    (evictSize E j w).2.oldWork = j.oldWork ∧ (evictSize E j w).2.misplaced = j.misplaced := by
  unfold evictSize
  dsimp only
  split
  · exact ⟨rfl, rfl⟩
  · split_ifs <;> exact ⟨rfl, rfl⟩

theorem jogBck_scratch (E : Env W) (j : lruJ) (s : Sys W)
    (herr : (jogBck E j s).1.2 = none) : ScratchEmpty (jogBck E j s).2.1 := by
  unfold jogBck at herr ⊢
  dsimp only at herr ⊢
  generalize walkEntries E _ _ _ = r at herr ⊢
  obtain ⟨e, j3, s3⟩ := r
  cases e with
  | some e => exact Option.noConfusion herr
  | none =>
    dsimp only at herr ⊢
    generalize (E.fsWalk _ _ _).err = pe at herr ⊢
    cases pe with
    | some e => exact Option.noConfusion herr
    | none =>
      dsimp only at herr ⊢
      exact (evict_on_success E j3 s3 herr).2

theorem jogBcksLoop_scratch (E : Env W) (force : Bool) :
    ∀ (bcks : List Bck) (j : lruJ) (s : Sys W), ScratchEmpty j →
      (∀ j1 ∈ jogBckStarts E force bcks j s, ScratchEmpty j1) ∧
      ((jogBcksLoop E force bcks j s).1 = none →
        ScratchEmpty (jogBcksLoop E force bcks j s).2.1)
  | [], j, s, hj => ⟨fun _ h => absurd h (List.not_mem_nil _), fun _ => hj⟩
  | bck :: rest, j, s, hj => by
    unfold jogBckStarts jogBcksLoop
    dsimp only
    generalize allow E { j with bck := bck } s.w = a
    obtain ⟨ok, e⟩ := a
    cases e with
    | some e =>
      dsimp only
      exact jogBcksLoop_scratch E force rest _ _ hj
    | none =>
      dsimp only
      have hb := jogBck_scratch E { j with bck := bck, allowDelObj := ok || force } s
      generalize jogBck E { j with bck := bck, allowDelObj := ok || force } s = r at hb ⊢
      obtain ⟨⟨size, e⟩, j4, s4⟩ := r
      cases e with
      | some e =>
        dsimp only
        refine ⟨?_, fun h => Option.noConfusion h⟩
        intro j1 h1
        rw [List.mem_singleton] at h1
        rw [h1]
        exact hj
      | none =>
        dsimp only at hb ⊢
        have h4 : ScratchEmpty j4 := hb rfl
        have ih4 := jogBcksLoop_scratch E force rest j4 s4 h4
        have hhead : ∀ (l : List lruJ), (∀ j1 ∈ l, ScratchEmpty j1) →
            ∀ j1 ∈ ({ j with bck := bck, allowDelObj := ok || force } : lruJ) :: l,
              ScratchEmpty j1 := by
          intro l hl j1 h1
          rcases List.mem_cons.mp h1 with h | h
          · rw [h]
            exact hj
          · exact hl j1 h
        by_cases hc : (!j4.ini.cleanup) = true
        · rw [if_pos hc, if_pos hc]
          by_cases hs : size < KiB
          · rw [if_pos hs, if_pos hs]
            exact ⟨hhead _ ih4.1, ih4.2⟩
          · rw [if_neg hs, if_neg hs]
            have hl := evictSize_lists E j4 s4.w
            generalize evictSize E j4 s4.w = r5 at hl ⊢
            obtain ⟨e5, j5⟩ := r5
            dsimp only at hl
            have h5 : ScratchEmpty j5 := by
              unfold ScratchEmpty at h4 ⊢
              rw [hl.1, hl.2]
              exact h4
            cases e5 with
            | some e =>
              dsimp only
              exact ⟨hhead _ (fun _ h => absurd h (List.not_mem_nil _)),
                fun h => Option.noConfusion h⟩
            | none =>
              dsimp only
              by_cases ht : j5.totalSize < KiB
              · rw [if_pos ht, if_pos ht]
                exact ⟨hhead _ (fun _ h => absurd h (List.not_mem_nil _)), fun _ => h5⟩
              · rw [if_neg ht, if_neg ht]
                have ih5 := jogBcksLoop_scratch E force rest j5 s4 h5
                exact ⟨hhead _ ih5.1, ih5.2⟩
        · rw [if_neg hc, if_neg hc]
          exact ⟨hhead _ ih4.1, ih4.2⟩

theorem filter_walk_of_extends {t0 t1 : List Event}
    (h : Extends (fun e => e.isWalkBck = false) t0 t1) :
    t1.filter Event.isWalkBck = t0.filter Event.isWalkBck := by
  obtain ⟨evs, rfl, hevs⟩ := h
  have hnil : evs.filter Event.isWalkBck = [] :=
    List.filter_eq_nil_iff.mpr (fun e he => by simp [hevs e he])
  rw [List.filter_append, hnil, List.append_nil]

theorem jogBck_walk_events (E : Env W) (j : lruJ) (s : Sys W) :
    (jogBck E j s).2.2.trace.filter Event.isWalkBck
      = s.trace.filter Event.isWalkBck ++ [Event.walkBck j.bck j.allowDelObj] := by
  have h0 : (s.log (Event.walkBck j.bck j.allowDelObj)).trace.filter Event.isWalkBck
      = s.trace.filter Event.isWalkBck ++ [Event.walkBck j.bck j.allowDelObj] := by
    unfold Sys.log
    dsimp only
    rw [List.filter_append]
    rfl
  unfold jogBck resetHeap
  dsimp only
  have hw := walkEntries_trace E
    (E.fsWalk (s.log (Event.walkBck j.bck j.allowDelObj)).w j.mpath j.bck).entries
    { j with heap := heap.Init (List.take 0 j.heap), now := E.nowUnixNano s.w }
    (s.log (Event.walkBck j.bck j.allowDelObj))
  generalize walkEntries E
    (E.fsWalk (s.log (Event.walkBck j.bck j.allowDelObj)).w j.mpath j.bck).entries
    { j with heap := heap.Init (List.take 0 j.heap), now := E.nowUnixNano s.w }
    (s.log (Event.walkBck j.bck j.allowDelObj)) = r at hw ⊢
  obtain ⟨e, j3, s3⟩ := r
  dsimp only at hw
  cases e with
  | some e =>
    dsimp only
    rw [hw, h0]
  | none =>
    dsimp only
    cases (E.fsWalk (s.log (Event.walkBck j.bck j.allowDelObj)).w j.mpath j.bck).err with
    | some e =>
      dsimp only
      rw [hw, h0]
    | none =>
      dsimp only
      have he := evict_extends E (fun e => e.isWalkBck = false) j3 s3
        (fun _ _ => rfl) (fun _ _ _ _ => rfl) (fun _ _ => rfl) (fun _ _ _ => rfl)
      rw [filter_walk_of_extends he, hw, h0]

/-- The walks that the loop of `jogBcks` records in the trace are those of the joggers
that `jogBckStarts` lists, in the same order. -/
theorem jogBcksLoop_walk_events (E : Env W) (force : Bool) :
    ∀ (bcks : List Bck) (j : lruJ) (s : Sys W),
      (jogBcksLoop E force bcks j s).2.2.trace.filter Event.isWalkBck
        = s.trace.filter Event.isWalkBck
          ++ (jogBckStarts E force bcks j s).map
              (fun j1 => Event.walkBck j1.bck j1.allowDelObj)
  | [], _, s => by
    unfold jogBcksLoop jogBckStarts
    simp
  | bck :: rest, j, s => by
    unfold jogBckStarts jogBcksLoop
    dsimp only
    generalize allow E { j with bck := bck } s.w = a
    obtain ⟨ok, e⟩ := a
    cases e with
    | some e =>
      dsimp only
      rw [jogBcksLoop_walk_events E force rest]
      congr 1
      split_ifs
      · unfold Sys.log
        dsimp only
        rw [List.filter_append]
        simp [Event.isWalkBck]
      · rfl
    | none =>
      dsimp only
      have hb := jogBck_walk_events E { j with bck := bck, allowDelObj := ok || force } s
      generalize jogBck E { j with bck := bck, allowDelObj := ok || force } s = r at hb ⊢
      obtain ⟨⟨size, e⟩, j4, s4⟩ := r
      dsimp only at hb
      have ih4 := jogBcksLoop_walk_events E force rest j4 s4
      cases e with
      | some e =>
        dsimp only
        rw [hb]
        simp
      | none =>
        dsimp only
        by_cases hc : (!j4.ini.cleanup) = true
        · rw [if_pos hc, if_pos hc]
          by_cases hs : size < KiB
          · rw [if_pos hs, if_pos hs, ih4, hb]
            simp
          · rw [if_neg hs, if_neg hs]
            generalize evictSize E j4 s4.w = r5
            obtain ⟨e5, j5⟩ := r5
            cases e5 with
            | some e =>
              dsimp only
              rw [hb]
              simp
            | none =>
              dsimp only
              by_cases ht : j5.totalSize < KiB
              · rw [if_pos ht, if_pos ht]
                dsimp only
                rw [hb]
                simp
              · rw [if_neg ht, if_neg ht, jogBcksLoop_walk_events E force rest j5 s4, hb]
                simp
        · rw [if_neg hc, if_neg hc, ih4, hb]
          simp

/-- C26: whenever `evict` returns without error, `oldWork`, `misplaced.loms` and
`misplaced.ec` are empty.  Hence, for a jogger that enters `jogBcks` with the three lists
empty (as the jogger that `Run` creates has them, and neither the trash phase nor
`evictSize` touches them), they are empty at every call of `jogBck`, that is at the start
of the walk of every bucket, and again when `jogBcks` returns without error (so also when
`jog` calls it for the next provider).  The calls of `jogBck` listed by `jogBckStarts` are
the walks that the loop records in the trace. -/
theorem scratch_lists_lifecycle (E : Env W) (force : Bool) :
    (∀ (j : lruJ) (s : Sys W), (evict E j s).1.2 = none → ScratchEmpty (evict E j s).2.1) ∧
    (∀ (bcks : List Bck) (j : lruJ) (s : Sys W), ScratchEmpty j →
      (∀ j1 ∈ jogBckStarts E force bcks j s, ScratchEmpty j1) ∧
      (∀ j1 ∈ jogBckStarts E force (sortBsize E j s.w bcks) j s, ScratchEmpty j1) ∧
      ((jogBcks E bcks force j s).1 = none → ScratchEmpty (jogBcks E bcks force j s).2.1)) ∧
    (∀ (ini : InitLRU) (config : Config) (mpath : String) (s : Sys W),
      ScratchEmpty (newJogger ini config mpath) ∧
      ScratchEmpty (removeTrash E (newJogger ini config mpath) s).2.1 ∧
      ∀ w, ScratchEmpty (evictSize E (removeTrash E (newJogger ini config mpath) s).2.1 w).2) ∧
    (∀ (bcks : List Bck) (j : lruJ) (s : Sys W),
      (jogBcksLoop E force bcks j s).2.2.trace.filter Event.isWalkBck
        = s.trace.filter Event.isWalkBck
          ++ (jogBckStarts E force bcks j s).map
              (fun j1 => Event.walkBck j1.bck j1.allowDelObj)) := by
  refine ⟨?_, ?_, ?_, jogBcksLoop_walk_events E force⟩
  · intro j s h
    exact (evict_on_success E j s h).2
  · intro bcks j s hj
    refine ⟨(jogBcksLoop_scratch E force bcks j s hj).1,
      (jogBcksLoop_scratch E force _ j s hj).1, ?_⟩
    unfold jogBcks
    dsimp only
    split_ifs
    · exact fun _ => hj
    · exact (jogBcksLoop_scratch E force _ j s hj).2
    · exact (jogBcksLoop_scratch E force _ j s hj).2
  · intro ini config mpath s
    have h0 : ScratchEmpty (newJogger ini config mpath) := ⟨rfl, rfl, rfl⟩
    obtain ⟨t, ht⟩ := removeTrash_fields E (newJogger ini config mpath) s
    have h1 : ScratchEmpty (removeTrash E (newJogger ini config mpath) s).2.1 := by
      rw [ht]
      exact h0
    refine ⟨h0, h1, ?_⟩
    intro w
    have hl := evictSize_lists E (removeTrash E (newJogger ini config mpath) s).2.1 w
    unfold ScratchEmpty at h1 ⊢
    rw [hl.1, hl.2]
    exact h1

/-- Witness for C26: the walk of the bucket of the small world puts the misplaced object
on `misplaced.loms`; `jogBcks` returns without error and the three lists are empty. -/
theorem scratch_lists_lifecycle_witness :
    ScratchEmpty exJoggerReady ∧
    (jogBcks exEnvMisplacedBck [exBck] false exJoggerReady exSys).1 = none ∧
    ScratchEmpty (jogBcks exEnvMisplacedBck [exBck] false exJoggerReady exSys).2.1 :=
  ⟨⟨rfl, rfl, rfl⟩, by decide,
    ((scratch_lists_lifecycle exEnvMisplacedBck false).2.1 [exBck] exJoggerReady exSys
      ⟨rfl, rfl, rfl⟩).2.2 (by decide)⟩

/-! ## The errors of the walk callback -/

theorem yieldTerm_err (E : Env W) (j : lruJ) (s : Sys W) (e : Err)
    (h : (yieldTerm E j s).1 = some e) : e = Err.aborted := by
  unfold yieldTerm at h
  dsimp only at h
  split_ifs at h <;> exact (Option.some.inj h).symm

/-- C27: the walk callback returns an error only when `yieldTerm` reports one, and that is
an abort; it leaves the jogger as it was whenever it returns an error.  For a directory
entry it returns nil and changes nothing at all; for a path that `ResolveFQN` rejects
(reached when `yieldTerm` reports no abort) it returns nil and leaves the jogger as it
was. -/
theorem walk_errors_local (E : Env W) (j : lruJ) (s : Sys W) (de : DirEntry) :
    (∀ e, (walk E j s de).1 = some e →
      de.isDir = false ∧ (yieldTerm E j s).1 = some e ∧ e = Err.aborted ∧
        (walk E j s de).2.1 = j) ∧
    (de.isDir = true → walk E j s de = (none, j, s)) ∧
    (de.isDir = false → (yieldTerm E j s).1 = none →
      E.resolveFQN (yieldTerm E j s).2.w de.fqn = none →
      walk E j s de = (none, j, (yieldTerm E j s).2)) := by
  refine ⟨?_, ?_, ?_⟩
  · intro e h
    unfold walk at h ⊢
    by_cases hd : de.isDir = true
    · rw [if_pos hd] at h
      exact Option.noConfusion h
    · rw [if_neg hd] at h ⊢
      have hy := yieldTerm_err E j s
      generalize yieldTerm E j s = r at h hy ⊢
      obtain ⟨e1, s1⟩ := r
      cases e1 with
      | some e1 =>
        dsimp only at h ⊢
        refine ⟨by simpa using hd, h, ?_, rfl⟩
        exact hy e h
      | none =>
        dsimp only at h
        split at h
        · exact Option.noConfusion h
        · split_ifs at h
  · intro hd
    unfold walk
    rw [if_pos hd]
  · intro hd hy hr
    unfold walk
    rw [if_neg (by simp [hd])]
    generalize yieldTerm E j s = r at hy hr ⊢
    obtain ⟨e1, s1⟩ := r
    dsimp only at hy hr
    subst hy
    dsimp only
    rw [hr]

/-- Witness for C27: in the small world, where `ResolveFQN` rejects every path, the walk
callback returns nil for a file and leaves the jogger as it was. -/
theorem walk_errors_local_witness :
    (walk exEnv exJoggerReady exSys { fqn := "/mp/x", isDir := false }).1 = none ∧
    (walk exEnv exJoggerReady exSys { fqn := "/mp/x", isDir := false }).2.1 = exJoggerReady :=
  ⟨congrArg (fun r => r.1)
      ((walk_errors_local exEnv exJoggerReady exSys { fqn := "/mp/x", isDir := false }).2.2
        rfl rfl rfl),
    congrArg (fun r => r.2.1)
      ((walk_errors_local exEnv exJoggerReady exSys { fqn := "/mp/x", isDir := false }).2.2
        rfl rfl rfl)⟩

/-! ## The heap with and without its cap -/

theorem olderBytes_perm {h1 h2 : minHeap} (p : h1.Perm h2) (x : LOM) :
    olderBytes h1 x = olderBytes h2 x := by
  unfold olderBytes
  exact ((p.filter _).map _).sum_eq

theorem olderBytes_cons (y : LOM) (h : minHeap) (x : LOM) :
    olderBytes (y :: h) x = (if y.atime < x.atime then y.size else 0) + olderBytes h x := by
  unfold olderBytes
  by_cases hy : y.atime < x.atime
  · rw [List.filter_cons_of_pos (by simpa using hy), if_pos hy]
    simp
  · rw [List.filter_cons_of_neg (by simpa using hy), if_neg hy]
    simp

theorem olderBytes_append (h1 h2 : minHeap) (x : LOM) :
    olderBytes (h1 ++ h2) x = olderBytes h1 x + olderBytes h2 x := by
  unfold olderBytes
  simp [List.filter_append]

theorem olderBytes_nonneg : ∀ (h : minHeap) (x : LOM), (∀ y ∈ h, 0 ≤ y.size) →
    0 ≤ olderBytes h x
  | [], _, _ => by simp [olderBytes]
  | y :: h, x, hs => by
    rw [olderBytes_cons]
    have ih := olderBytes_nonneg h x (fun z hz => hs z (List.mem_cons_of_mem _ hz))
    have hy := hs y (List.mem_cons_self _ _)
    split_ifs <;> omega

theorem olderBytes_all {h : minHeap} {x : LOM} (hall : ∀ y ∈ h, y.atime < x.atime) :
    olderBytes h x = heapBytes h := by
  unfold olderBytes heapBytes
  rw [List.filter_eq_self.mpr (by simpa using hall)]

theorem exists_older_of_pos {h : minHeap} {x : LOM} (hp : 0 < olderBytes h x) :
    ∃ y ∈ h, y.atime < x.atime := by
  by_contra hn
  push_neg at hn
  have : h.filter (fun y => decide (y.atime < x.atime)) = [] :=
    List.filter_eq_nil_iff.mpr (by simpa using hn)
  unfold olderBytes at hp
  rw [this] at hp
  simp at hp

theorem sameButHeap_refl (a : lruJ) : SameButHeap a a :=
  ⟨rfl, rfl, rfl, rfl, rfl, rfl, rfl, rfl, rfl, rfl⟩

theorem yieldTerm_congr (E : Env W) {a b : lruJ} (h : SameButHeap a b) (s : Sys W) :
    yieldTerm E a s = yieldTerm E b s := by
  obtain ⟨_, _, _, _, _, _, hm, _, ht, _⟩ := h
  unfold yieldTerm
  rw [hm, ht]

theorem allow_congr (E : Env W) {a b : lruJ} (h : SameButHeap a b) (w : W) :
    allow E a w = allow E b w := by
  obtain ⟨_, _, _, hb, _, _, _, _, _, _⟩ := h
  unfold allow
  rw [hb]

theorem throttle_congr (E : Env W) {a b : lruJ} (h : SameButHeap a b) (s : Sys W) (u : Int) :
    (_throttle E a s u).1 = (_throttle E b s u).1 ∧
    (_throttle E a s u).2.2 = (_throttle E b s u).2.2 ∧
    SameButHeap (_throttle E a s u).2.1 (_throttle E b s u).2.1 := by
  obtain ⟨c1, t1, n1, h1, ow1, mp1, bk1, now1, ini1, mpath1, cfg1, thr1, ad1⟩ := a
  obtain ⟨c2, t2, n2, h2, ow2, mp2, bk2, now2, ini2, mpath2, cfg2, thr2, ad2⟩ := b
  unfold SameButHeap at h
  dsimp only at h
  obtain ⟨rfl, rfl, rfl, rfl, rfl, rfl, rfl, rfl, rfl, rfl⟩ := h
  unfold _throttle yieldTerm
  dsimp only
  split_ifs <;> exact ⟨rfl, rfl, rfl, rfl, rfl, rfl, rfl, rfl, rfl, rfl, rfl, rfl⟩

theorem postRemove_congr (E : Env W) {a b : lruJ} (h : SameButHeap a b) (s : Sys W)
    (prev size : Int) :
    (postRemove E a s prev size).1 = (postRemove E b s prev size).1 ∧
    (postRemove E a s prev size).2.2 = (postRemove E b s prev size).2.2 ∧
    SameButHeap (postRemove E a s prev size).2.1 (postRemove E b s prev size).2.1 := by
  obtain ⟨e1, e2, e3, e4, e5, e6, e7, e8, e9, e10⟩ := h
  have h1 : SameButHeap { a with totalSize := a.totalSize - size }
      { b with totalSize := b.totalSize - size } :=
    ⟨by show a.totalSize - size = b.totalSize - size; rw [e1],
      e2, e3, e4, e5, e6, e7, e8, e9, e10⟩
  unfold postRemove
  dsimp only
  rw [yieldTerm_congr E h1 s]
  generalize yieldTerm E { b with totalSize := b.totalSize - size } s = r
  obtain ⟨e, s1⟩ := r
  cases e with
  | some e => exact ⟨rfl, rfl, h1⟩
  | none =>
    dsimp only
    have h2 : SameButHeap
        { a with totalSize := a.totalSize - size, throttle := false }
        { b with totalSize := b.totalSize - size, throttle := false } :=
      ⟨h1.1, e2, e3, e4, e5, e6, e7, e8, rfl, e10⟩
    have hup : E.getFSUsedPercentage s1.w a.mpath = E.getFSUsedPercentage s1.w b.mpath := by
      rw [e7]
    rw [allow_congr E h2 s1.w, hup]
    have h5 : SameButHeap
        { a with totalSize := a.totalSize - size, throttle := false,
                 allowDelObj := (allow E { b with totalSize := b.totalSize - size,
                                                  throttle := false } s1.w).1,
                 config := E.gcoGet s1.w, now := E.nowUnixNano s1.w }
        { b with totalSize := b.totalSize - size, throttle := false,
                 allowDelObj := (allow E { b with totalSize := b.totalSize - size,
                                                  throttle := false } s1.w).1,
                 config := E.gcoGet s1.w, now := E.nowUnixNano s1.w } :=
      ⟨h1.1, e2, e3, e4, rfl, e6, e7, rfl, rfl, rfl⟩
    have ht := throttle_congr E h5 s1 (E.getFSUsedPercentage s1.w b.mpath).1
    split_ifs
    · exact ⟨rfl, rfl, h1⟩
    · exact ⟨by rw [ht.1], ht.2.1, ht.2.2⟩
    · exact ⟨rfl, rfl, h5⟩

theorem visitLOM_guards (E : Env W) (j : lruJ) (w : W) (p : ParsedFQN) :
    visitLOM E j w p =
      match visitGuards E j w p with
      | Visit.skip => j
      | Visit.misplacedEC ct =>
        { j with misplaced := { j.misplaced with ec := j.misplaced.ec ++ [ct] } }
      | Visit.misplacedLom lom =>
        { j with misplaced := { j.misplaced with loms := j.misplaced.loms ++ [lom] } }
      | Visit.candidate lom =>
        if j.curSize ≥ j.totalSize ∧ lom.atime > j.newest then j
        else if lom.atime > j.newest then
          { j with heap := heap.Push j.heap lom, curSize := j.curSize + lom.size,
                   newest := lom.atime }
        else { j with heap := heap.Push j.heap lom, curSize := j.curSize + lom.size } := by
  unfold visitLOM visitGuards
  by_cases ha : (!j.allowDelObj) = true
  · rw [if_pos ha, if_pos ha]
  · rw [if_neg ha, if_neg ha]
    cases E.lomInit w j.bck p.objName with
    | none => rfl
    | some lom0 =>
      dsimp only
      cases E.lomLoad w lom0 with
      | none => rfl
      | some lom =>
        dsimp only
        split_ifs <;> first | rfl | (dsimp only; split_ifs; rfl)

theorem visitLOMNoCap_guards (E : Env W) (j : lruJ) (w : W) (p : ParsedFQN) :
    visitLOMNoCap E j w p =
      match visitGuards E j w p with
      | Visit.skip => j
      | Visit.misplacedEC ct =>
        { j with misplaced := { j.misplaced with ec := j.misplaced.ec ++ [ct] } }
      | Visit.misplacedLom lom =>
        { j with misplaced := { j.misplaced with loms := j.misplaced.loms ++ [lom] } }
      | Visit.candidate lom =>
        if lom.atime > j.newest then
          { j with heap := heap.Push j.heap lom, curSize := j.curSize + lom.size,
                   newest := lom.atime }
        else { j with heap := heap.Push j.heap lom, curSize := j.curSize + lom.size } := by
  unfold visitLOMNoCap visitGuards
  by_cases ha : (!j.allowDelObj) = true
  · rw [if_pos ha, if_pos ha]
  · rw [if_neg ha, if_neg ha]
    cases E.lomInit w j.bck p.objName with
    | none => rfl
    | some lom0 =>
      dsimp only
      cases E.lomLoad w lom0 with
      | none => rfl
      | some lom =>
        dsimp only
        split_ifs <;> first | rfl | (dsimp only; split_ifs; rfl)

theorem visitGuards_congr (E : Env W) {a b : lruJ} (h : SameButHeap a b) (w : W)
    (p : ParsedFQN) : visitGuards E a w p = visitGuards E b w p := by
  obtain ⟨_, _, _, e4, e5, e6, _, e8, _, e10⟩ := h
  unfold visitGuards
  rw [e4, e5, e6, e8, e10]

theorem visitGuards_loaded (E : Env W) (j : lruJ) (w : W) (p : ParsedFQN) (lom : LOM)
    (h : visitGuards E j w p = Visit.candidate lom) : ∃ lom0, E.lomLoad w lom0 = some lom := by
  unfold visitGuards at h
  by_cases ha : (!j.allowDelObj) = true
  · rw [if_pos ha] at h
    exact Visit.noConfusion h
  · rw [if_neg ha] at h
    cases h1 : E.lomInit w j.bck p.objName with
    | none =>
      rw [h1] at h
      exact Visit.noConfusion h
    | some lom0 =>
      rw [h1] at h
      dsimp only at h
      cases h2 : E.lomLoad w lom0 with
      | none =>
        rw [h2] at h
        exact Visit.noConfusion h
      | some lom1 =>
        rw [h2] at h
        dsimp only at h
        split_ifs at h
        rw [Visit.candidate.injEq] at h
        exact ⟨lom0, by rw [h2, h]⟩

theorem visitCT_keeps (E : Env W) (j : lruJ) (w : W) (p : ParsedFQN) (fqn : String) :
    (visitCT E j w p fqn).heap = j.heap ∧ (visitCT E j w p fqn).curSize = j.curSize ∧
      (visitCT E j w p fqn).newest = j.newest ∧
      (visitCT E j w p fqn).totalSize = j.totalSize := by
  unfold visitCT
  split
  · dsimp only
    split_ifs <;> exact ⟨rfl, rfl, rfl, rfl⟩
  · split
    · exact ⟨rfl, rfl, rfl, rfl⟩
    · split_ifs
      · exact ⟨rfl, rfl, rfl, rfl⟩
      · split
        · exact ⟨rfl, rfl, rfl, rfl⟩
        · split_ifs <;> exact ⟨rfl, rfl, rfl, rfl⟩
  · split
    · exact ⟨rfl, rfl, rfl, rfl⟩
    · split_ifs <;> exact ⟨rfl, rfl, rfl, rfl⟩
  · exact ⟨rfl, rfl, rfl, rfl⟩

theorem visitCT_congr (E : Env W) {a b : lruJ} (h : SameButHeap a b) (w : W)
    (p : ParsedFQN) (fqn : String) :
    SameButHeap (visitCT E a w p fqn) (visitCT E b w p fqn) := by
  obtain ⟨c1, t1, n1, h1, ow1, mp1, bk1, now1, ini1, mpath1, cfg1, thr1, ad1⟩ := a
  obtain ⟨c2, t2, n2, h2, ow2, mp2, bk2, now2, ini2, mpath2, cfg2, thr2, ad2⟩ := b
  unfold SameButHeap at h
  dsimp only at h
  obtain ⟨rfl, rfl, rfl, rfl, rfl, rfl, rfl, rfl, rfl, rfl⟩ := h
  unfold visitCT
  split
  · dsimp only
    split_ifs <;> exact ⟨rfl, rfl, rfl, rfl, rfl, rfl, rfl, rfl, rfl, rfl⟩
  · split
    · exact ⟨rfl, rfl, rfl, rfl, rfl, rfl, rfl, rfl, rfl, rfl⟩
    · split_ifs
      · exact ⟨rfl, rfl, rfl, rfl, rfl, rfl, rfl, rfl, rfl, rfl⟩
      · split
        · exact ⟨rfl, rfl, rfl, rfl, rfl, rfl, rfl, rfl, rfl, rfl⟩
        · split_ifs <;> exact ⟨rfl, rfl, rfl, rfl, rfl, rfl, rfl, rfl, rfl, rfl⟩
  · split
    · exact ⟨rfl, rfl, rfl, rfl, rfl, rfl, rfl, rfl, rfl, rfl⟩
    · split_ifs <;> exact ⟨rfl, rfl, rfl, rfl, rfl, rfl, rfl, rfl, rfl, rfl⟩
  · exact ⟨rfl, rfl, rfl, rfl, rfl, rfl, rfl, rfl, rfl, rfl⟩

theorem capRel_mono {B B1 : Int} {hc hu : minHeap} (h : CapRel B hc hu) (hle : B1 ≤ B) :
    CapRel B1 hc hu := by
  obtain ⟨h1, h2, h3, D, hp, hD⟩ := h
  exact ⟨h1, h2, h3, D, hp, fun x hx => le_trans hle (hD x hx)⟩

/-- One visit keeps the capped and the uncapped walk related: they take the same decision
up to the cap, and an object that the cap discards has the whole heap, which then holds
at least `T` bytes, before it. -/
theorem visit_rel (E : Env W) (hsize : ∀ w lom0 lom, E.lomLoad w lom0 = some lom → 0 ≤ lom.size)
    (T : Int) (jc ju : lruJ) (w : W) (p : ParsedFQN) (h : WalkRel T jc ju) :
    WalkRel T (visitLOM E jc w p) (visitLOMNoCap E ju w p) := by
  rw [visitLOM_guards, visitLOMNoCap_guards, ← visitGuards_congr E h.1 w p]
  obtain ⟨hs, hT, hcur, hnew, hcap⟩ := h
  have hs1 := hs
  obtain ⟨e1, e2, e3, e4, e5, e6, e7, e8, e9, e10⟩ := hs1
  cases hg : visitGuards E jc w p with
  | skip => exact ⟨hs, hT, hcur, hnew, hcap⟩
  | misplacedEC ct =>
    dsimp only
    refine ⟨⟨e1, e2, ?_, e4, e5, e6, e7, e8, e9, e10⟩, hT, hcur, hnew, hcap⟩
    show ({ jc.misplaced with ec := jc.misplaced.ec ++ [ct] } : Misplaced)
      = { ju.misplaced with ec := ju.misplaced.ec ++ [ct] }
    rw [e3]
  | misplacedLom lom =>
    dsimp only
    refine ⟨⟨e1, e2, ?_, e4, e5, e6, e7, e8, e9, e10⟩, hT, hcur, hnew, hcap⟩
    show ({ jc.misplaced with loms := jc.misplaced.loms ++ [lom] } : Misplaced)
      = { ju.misplaced with loms := ju.misplaced.loms ++ [lom] }
    rw [e3]
  | candidate lom =>
    dsimp only
    obtain ⟨lom0, hl⟩ := visitGuards_loaded E jc w p lom hg
    have hsz : 0 ≤ lom.size := hsize w lom0 lom hl
    obtain ⟨hHc, hHu, hpos, D, hperm, hD⟩ := hcap
    have hPu := Push_spec ju.heap lom hHu
    have hPc := Push_spec jc.heap lom hHc
    have hposu : ∀ x ∈ heap.Push ju.heap lom, 0 ≤ x.size := by
      intro x hx
      rcases List.mem_append.mp (hPu.2.mem_iff.mp hx) with h | h
      · exact hpos x h
      · rw [List.mem_singleton] at h
        rw [h]
        exact hsz
    have capCase : jc.curSize ≥ jc.totalSize ∧ lom.atime > jc.newest →
        CapRel T jc.heap (heap.Push ju.heap lom) := by
      intro hc
      refine ⟨hHc, hPu.1, hposu, D ++ [lom], ?_, ?_⟩
      · exact hPu.2.trans ((hperm.append_right [lom]).trans
          (List.Perm.of_eq (List.append_assoc _ _ _)))
      · intro x hx
        rcases List.mem_append.mp hx with h | h
        · exact hD x h
        · rw [List.mem_singleton] at h
          rw [h, olderBytes_all (fun y hy => lt_of_le_of_lt (hnew y hy) hc.2), ← hcur, ← hT]
          exact hc.1
    have pushCase : CapRel T (heap.Push jc.heap lom) (heap.Push ju.heap lom) := by
      refine ⟨hPc.1, hPu.1, hposu, D, ?_, ?_⟩
      · refine hPu.2.trans ((hperm.append_right [lom]).trans ?_)
        refine List.Perm.trans ?_ (hPc.2.symm.append_right D)
        rw [List.append_assoc, List.append_assoc]
        exact List.Perm.append_left _ List.perm_append_comm
      · intro x hx
        rw [olderBytes_perm hPc.2, olderBytes_append]
        have h1 := hD x hx
        have h2 : 0 ≤ olderBytes [lom] x :=
          olderBytes_nonneg [lom] x (fun y hy => by
            rw [List.mem_singleton] at hy
            rw [hy]
            exact hsz)
        omega
    have hcur1 : jc.curSize + lom.size = heapBytes (heap.Push jc.heap lom) := by
      rw [heapBytes_Push, hcur]
    have hnewA : lom.atime > jc.newest → ∀ x ∈ heap.Push jc.heap lom, x.atime ≤ lom.atime := by
      intro hn x hx
      rcases List.mem_append.mp (hPc.2.mem_iff.mp hx) with h | h
      · exact le_of_lt (lt_of_le_of_lt (hnew x h) hn)
      · rw [List.mem_singleton] at h
        rw [h]
    have hnewB : ¬ lom.atime > jc.newest → ∀ x ∈ heap.Push jc.heap lom, x.atime ≤ jc.newest := by
      intro hn x hx
      rcases List.mem_append.mp (hPc.2.mem_iff.mp hx) with h | h
      · exact hnew x h
      · rw [List.mem_singleton] at h
        rw [h]
        exact not_lt.mp hn
    split_ifs with c1 c2 c3 c4 c5
    · exact ⟨⟨e1, e2, e3, e4, e5, e6, e7, e8, e9, e10⟩, hT, hcur, hnew, capCase c1⟩
    · exact ⟨⟨e1, e2, e3, e4, e5, e6, e7, e8, e9, e10⟩, hT, hcur, hnew, capCase c1⟩
    · exact ⟨⟨e1, e2, e3, e4, e5, e6, e7, e8, e9, e10⟩, hT, hcur1, hnewA ‹_›, pushCase⟩
    · exact ⟨⟨e1, e2, e3, e4, e5, e6, e7, e8, e9, e10⟩, hT, hcur1, hnewA ‹_›, pushCase⟩
    · exact ⟨⟨e1, e2, e3, e4, e5, e6, e7, e8, e9, e10⟩, hT, hcur1, hnewB ‹_›, pushCase⟩
    · exact ⟨⟨e1, e2, e3, e4, e5, e6, e7, e8, e9, e10⟩, hT, hcur1, hnewB ‹_›, pushCase⟩

theorem visitCT_rel (E : Env W) (T : Int) (jc ju : lruJ) (w : W) (p : ParsedFQN)
    (fqn : String) (h : WalkRel T jc ju) :
    WalkRel T (visitCT E jc w p fqn) (visitCT E ju w p fqn) := by
  obtain ⟨hs, hT, hcur, hnew, hcap⟩ := h
  have kc := visitCT_keeps E jc w p fqn
  have ku := visitCT_keeps E ju w p fqn
  refine ⟨visitCT_congr E hs w p fqn, ?_, ?_, ?_, ?_⟩
  · rw [kc.2.2.2]
    exact hT
  · rw [kc.2.1, kc.1]
    exact hcur
  · rw [kc.2.2.1, kc.1]
    exact hnew
  · rw [kc.1, ku.1]
    exact hcap

theorem walk_rel (E : Env W)
    (hsize : ∀ w lom0 lom, E.lomLoad w lom0 = some lom → 0 ≤ lom.size)
    (T : Int) (jc ju : lruJ) (s : Sys W) (de : DirEntry) (h : WalkRel T jc ju) :
    (walk E jc s de).1 = (walkNoCap E ju s de).1 ∧
    (walk E jc s de).2.2 = (walkNoCap E ju s de).2.2 ∧
    WalkRel T (walk E jc s de).2.1 (walkNoCap E ju s de).2.1 := by
  unfold walk walkNoCap
  by_cases hd : de.isDir = true
  · rw [if_pos hd, if_pos hd]
    exact ⟨rfl, rfl, h⟩
  · rw [if_neg hd, if_neg hd, yieldTerm_congr E h.1 s]
    generalize yieldTerm E ju s = r
    obtain ⟨e, s1⟩ := r
    cases e with
    | some e => exact ⟨rfl, rfl, h⟩
    | none =>
      dsimp only
      cases E.resolveFQN s1.w de.fqn with
      | none => exact ⟨rfl, rfl, h⟩
      | some parsed =>
        dsimp only
        split_ifs
        · exact ⟨rfl, rfl, visitCT_rel E T jc ju s1.w parsed de.fqn h⟩
        · exact ⟨rfl, rfl, visit_rel E hsize T jc ju s1.w parsed h⟩

theorem walkEntries_rel (E : Env W)
    (hsize : ∀ w lom0 lom, E.lomLoad w lom0 = some lom → 0 ≤ lom.size) (T : Int) :
    ∀ (des : List DirEntry) (jc ju : lruJ) (s : Sys W), WalkRel T jc ju →
      (walkEntries E des jc s).1 = (walkEntriesNoCap E des ju s).1 ∧
      (walkEntries E des jc s).2.2 = (walkEntriesNoCap E des ju s).2.2 ∧
      WalkRel T (walkEntries E des jc s).2.1 (walkEntriesNoCap E des ju s).2.1
  | [], _, _, _, h => ⟨rfl, rfl, h⟩
  | de :: rest, jc, ju, s, h => by
    unfold walkEntries walkEntriesNoCap
    have hw := walk_rel E hsize T jc ju s de h
    generalize walk E jc s de = rc at hw ⊢
    generalize walkNoCap E ju s de = ru at hw ⊢
    obtain ⟨ec, jc1, sc1⟩ := rc
    obtain ⟨eu, ju1, su1⟩ := ru
    dsimp only at hw
    obtain ⟨rfl, rfl, hrel⟩ := hw
    cases ec with
    | some e => exact ⟨rfl, rfl, hrel⟩
    | none => exact walkEntries_rel E hsize T rest jc1 ju1 sc1 hrel

theorem capRel_nil {B : Int} {hu : minHeap} (h : CapRel B [] hu) (hB : 0 < B) : hu = [] := by
  obtain ⟨_, _, _, D, hperm, hD⟩ := h
  have hDnil : D = [] := by
    cases D with
    | nil => rfl
    | cons d D1 =>
      have := hD d (List.mem_cons_self _ _)
      simp [olderBytes] at this
      omega
  rw [hDnil] at hperm
  exact List.Perm.eq_nil hperm

theorem capRel_pop {B : Int} {hc hu : minHeap} (h : CapRel B hc hu) (hB : 0 < B)
    (hnd : (hu.map LOM.atime).Nodup) (hne : 0 < hc.length) :
    ∃ x hc1 hu1, heap.Pop hc = (some x, hc1) ∧ heap.Pop hu = (some x, hu1) ∧
      hc1.length + 1 = hc.length ∧ hu1.length + 1 = hu.length ∧
      CapRel (B - x.size) hc1 hu1 ∧ (hu1.map LOM.atime).Nodup := by
  obtain ⟨hHc, hHu, hpos, D, hperm, hD⟩ := h
  obtain ⟨xc, hc1, hpc, hpermc, hHc1, hminc, hlenc⟩ := Pop_spec hc hne hHc
  have hune : 0 < hu.length := by
    rw [hperm.length_eq, List.length_append]
    omega
  obtain ⟨xu, hu1, hpu, hpermu, hHu1, hminu, hlenu⟩ := Pop_spec hu hune hHu
  have hnd1 : ((xu :: hu1).map LOM.atime).Nodup := (hpermu.map _).nodup_iff.mpr hnd
  rw [List.map_cons, List.nodup_cons] at hnd1
  have hxc_hu : xc ∈ hu :=
    hperm.mem_iff.mpr (List.mem_append_left _ (hpermc.mem_iff.mp (List.mem_cons_self _ _)))
  have hxu_hu : xu ∈ hu := hpermu.mem_iff.mp (List.mem_cons_self _ _)
  have hxu : xu ∈ hc ++ D := hperm.mem_iff.mp hxu_hu
  have hminu1 : ∀ y ∈ hu, xu.atime ≤ y.atime := by
    intro y hy
    rcases List.mem_cons.mp (hpermu.mem_iff.mpr hy) with h | h
    · rw [h]
    · exact hminu y h
  have hminc1 : ∀ y ∈ hc, xc.atime ≤ y.atime := by
    intro y hy
    rcases List.mem_cons.mp (hpermc.mem_iff.mpr hy) with h | h
    · rw [h]
    · exact hminc y h
  have hle1 : xu.atime ≤ xc.atime := hminu1 xc hxc_hu
  have hle2 : xc.atime ≤ xu.atime := by
    rcases List.mem_append.mp hxu with h | h
    · exact hminc1 xu h
    · obtain ⟨y, hy, hlt⟩ := exists_older_of_pos (lt_of_lt_of_le hB (hD xu h))
      have := hminu1 y (hperm.mem_iff.mpr (List.mem_append_left _ hy))
      omega
  have hx : xc = xu := List.inj_on_of_nodup_map hnd hxc_hu hxu_hu (le_antisymm hle2 hle1)
  subst hx
  have hperm1 : hu1.Perm (hc1 ++ D) :=
    (List.perm_cons xc).mp (hpermu.trans (hperm.trans (hpermc.symm.append_right D)))
  refine ⟨xc, hc1, hu1, hpc, hpu, hlenc, hlenu, ⟨hHc1, hHu1, ?_, D, hperm1, ?_⟩, hnd1.2⟩
  · intro x hx
    exact hpos x (hpermu.mem_iff.mp (List.mem_cons_of_mem _ hx))
  · intro d hd
    have h1 := hD d hd
    have hd1 : d ∈ hu1 := hperm1.mem_iff.mpr (List.mem_append_right _ hd)
    have hlt : xc.atime < d.atime := by
      have hle := hminu d hd1
      have hne : xc.atime ≠ d.atime := by
        intro heq
        apply hnd1.1
        rw [heq]
        exact List.mem_map_of_mem LOM.atime hd1
      omega
    rw [← olderBytes_perm hpermc d, olderBytes_cons, if_pos hlt] at h1
    omega

theorem evictHeap_idle (E : Env W) (fuel : Nat) (j : lruJ) (s : Sys W) (v : EvictVars)
    (h : j.heap = [] ∨ j.totalSize ≤ 0) : evictHeap E fuel j s v = ((v, none), j, s) := by
  cases fuel with
  | zero => rfl
  | succ n =>
    unfold evictHeap
    rw [if_neg]
    intro hc
    rcases h with h | h
    · rw [h] at hc
      exact absurd hc.1 (by simp [minHeap.Len])
    · omega

/-- The drain loop on the capped heap and on the heap without the cap: round by round the
same object is popped and removed, so both loops return the same values and leave the
same state outside, and the joggers they leave differ in the heap at most. -/
theorem drain_lockstep (E : Env W) (hrm : ∀ w lom, (E.lomRemove w lom).1 = true) :
    ∀ (fc fu : Nat) (jc ju : lruJ) (s : Sys W) (v : EvictVars),
      jc.heap.length ≤ fc → ju.heap.length ≤ fu → SameButHeap jc ju →
      CapRel jc.totalSize jc.heap ju.heap → (ju.heap.map LOM.atime).Nodup →
      (evictHeap E fc jc s v).1 = (evictHeap E fu ju s v).1 ∧
      (evictHeap E fc jc s v).2.2 = (evictHeap E fu ju s v).2.2 ∧
      SameButHeap (evictHeap E fc jc s v).2.1 (evictHeap E fu ju s v).2.1 := by
  intro fc
  induction fc with
  | zero =>
    intro fu jc ju s v hlc hlu hs hcap hnd
    have hnil : jc.heap = [] := List.length_eq_zero.mp (Nat.le_zero.mp hlc)
    rw [evictHeap_idle E 0 jc s v (Or.inl hnil)]
    by_cases hB : 0 < jc.totalSize
    · rw [hnil] at hcap
      rw [evictHeap_idle E fu ju s v (Or.inl (capRel_nil hcap hB))]
      exact ⟨rfl, rfl, hs⟩
    · rw [evictHeap_idle E fu ju s v (Or.inr (by rw [← hs.1]; omega))]
      exact ⟨rfl, rfl, hs⟩
  | succ n ih =>
    intro fu jc ju s v hlc hlu hs hcap hnd
    by_cases hB : 0 < jc.totalSize
    · by_cases hnil : jc.heap = []
      · rw [evictHeap_idle E _ jc s v (Or.inl hnil)]
        rw [hnil] at hcap
        rw [evictHeap_idle E fu ju s v (Or.inl (capRel_nil hcap hB))]
        exact ⟨rfl, rfl, hs⟩
      · have hne : 0 < jc.heap.length := List.length_pos.mpr hnil
        obtain ⟨x, hc1, hu1, hpc, hpu, hlenc, hlenu, hcap1, hnd1⟩ := capRel_pop hcap hB hnd hne
        obtain ⟨m, rfl⟩ : ∃ m, fu = m + 1 := ⟨fu - 1, by omega⟩
        have hBu : 0 < ju.totalSize := by
          rw [← hs.1]
          exact hB
        have hr : (evictObj E s x).1 = true := hrm s.w x
        have hs1 : SameButHeap { jc with heap := hc1 } { ju with heap := hu1 } := hs
        have hpr := postRemove_congr E hs1 (evictObj E s x).2 v.capCheck x.size
        have hfc := postRemove_frame E { jc with heap := hc1 } (evictObj E s x).2
          v.capCheck x.size
        have hfu := postRemove_frame E { ju with heap := hu1 } (evictObj E s x).2
          v.capCheck x.size
        unfold evictHeap
        have hneu : 0 < ju.heap.length := by omega
        rw [if_pos ⟨hne, hB⟩, if_pos ⟨hneu, hBu⟩, hpc, hpu]
        dsimp only
        rw [if_neg (by simp [hr]), if_neg (by simp [hr])]
        generalize postRemove E { jc with heap := hc1 } (evictObj E s x).2 v.capCheck x.size
          = rc at hpr hfc ⊢
        generalize postRemove E { ju with heap := hu1 } (evictObj E s x).2 v.capCheck x.size
          = ru at hpr hfu ⊢
        obtain ⟨⟨cc, ec⟩, jc2, sc2⟩ := rc
        obtain ⟨⟨cu, eu⟩, ju2, su2⟩ := ru
        dsimp only at hpr hfc hfu
        obtain ⟨h1, rfl, hs2⟩ := hpr
        rw [Prod.mk.injEq] at h1
        obtain ⟨rfl, rfl⟩ := h1
        cases ec with
        | some e => exact ⟨rfl, rfl, hs2⟩
        | none =>
          dsimp only
          refine ih m jc2 ju2 sc2 _ ?_ ?_ hs2 ?_ ?_
          · rw [hfc.2.1]
            show hc1.length ≤ n
            omega
          · rw [hfu.2.1]
            show hu1.length ≤ m
            omega
          · rw [hfc.1, hfc.2.1, hfu.2.1]
            exact hcap1
          · rw [hfu.2.1]
            exact hnd1
    · rw [evictHeap_idle E _ jc s v (Or.inr (by omega))]
      rw [evictHeap_idle E fu ju s v (Or.inr (by rw [← hs.1]; omega))]
      exact ⟨rfl, rfl, hs⟩

/-- C28: the cap on the heap does not change what is evicted.  Walk the entries of one
bucket from a jogger with an empty heap and `curSize = 0`, once with `visitLOM` (capped)
and once pushing every eligible object (no discard at the cap).  If the objects have
sizes that are not negative and pairwise distinct access times, and every removal
succeeds, then both walks end alike, and draining the capped heap and draining the full
heap, from the same state and with the same budget `<= totalSize` of the walk, remove the
same objects in the same order: both drain loops return the same values (error included)
and leave the same state outside, trace of removals included.  (Neither `totalSize > 0`
nor `newest = 0` nor access times that are not negative are needed.) -/
theorem heap_cap_keeps_evictions (E : Env W)
    (hrm : ∀ w lom, (E.lomRemove w lom).1 = true)
    (hsize : ∀ w lom0 lom, E.lomLoad w lom0 = some lom → 0 ≤ lom.size)
    (j0 : lruJ) (s0 : Sys W) (des : List DirEntry)
    (hheap : j0.heap = []) (hcur : j0.curSize = 0)
    (hnd : ((walkEntriesNoCap E des j0 s0).2.1.heap.map LOM.atime).Nodup)
    (jd : lruJ) (hB : jd.totalSize ≤ j0.totalSize) (s : Sys W) (v : EvictVars) :
    (walkEntries E des j0 s0).1 = (walkEntriesNoCap E des j0 s0).1 ∧
    (walkEntries E des j0 s0).2.2 = (walkEntriesNoCap E des j0 s0).2.2 ∧
    (evictHeap E (walkEntries E des j0 s0).2.1.heap.Len
        { jd with heap := (walkEntries E des j0 s0).2.1.heap } s v).1
      = (evictHeap E (walkEntriesNoCap E des j0 s0).2.1.heap.Len
        { jd with heap := (walkEntriesNoCap E des j0 s0).2.1.heap } s v).1 ∧
    (evictHeap E (walkEntries E des j0 s0).2.1.heap.Len
        { jd with heap := (walkEntries E des j0 s0).2.1.heap } s v).2.2
      = (evictHeap E (walkEntriesNoCap E des j0 s0).2.1.heap.Len
        { jd with heap := (walkEntriesNoCap E des j0 s0).2.1.heap } s v).2.2 ∧
    evictedObjs (evictHeap E (walkEntries E des j0 s0).2.1.heap.Len
        { jd with heap := (walkEntries E des j0 s0).2.1.heap } s v).2.2.trace
      = evictedObjs (evictHeap E (walkEntriesNoCap E des j0 s0).2.1.heap.Len
        { jd with heap := (walkEntriesNoCap E des j0 s0).2.1.heap } s v).2.2.trace := by
  have hnil : HeapOn ([] : minHeap) ([] : minHeap).length :=
    fun k _ hk => absurd hk (Nat.not_lt_zero k)
  have h0 : WalkRel j0.totalSize j0 j0 := by
    refine ⟨sameButHeap_refl j0, rfl, ?_, ?_, ?_⟩
    · rw [hcur, hheap]
      rfl
    · rw [hheap]
      intro x hx
      exact absurd hx (List.not_mem_nil _)
    · rw [hheap]
      exact ⟨hnil, hnil, fun x hx => absurd hx (List.not_mem_nil _), [], List.Perm.refl _,
        fun x hx => absurd hx (List.not_mem_nil _)⟩
  obtain ⟨he, hs, hrel⟩ := walkEntries_rel E hsize j0.totalSize des j0 j0 s0 h0
  have hd := drain_lockstep E hrm (walkEntries E des j0 s0).2.1.heap.Len
    (walkEntriesNoCap E des j0 s0).2.1.heap.Len
    { jd with heap := (walkEntries E des j0 s0).2.1.heap }
    { jd with heap := (walkEntriesNoCap E des j0 s0).2.1.heap } s v
    (le_refl _) (le_refl _) ⟨rfl, rfl, rfl, rfl, rfl, rfl, rfl, rfl, rfl, rfl⟩
    (capRel_mono hrel.2.2.2.2 hB) hnd
  exact ⟨he, hs, hd.1, hd.2.1, by rw [hd.2.1]⟩

/-- Witness for C28: three objects of 60 bytes, accessed at times 5, 6 and 7, and a budget
of 100 bytes.  The cap keeps the third object out of the heap; with or without it the
first two objects are evicted. -/
theorem heap_cap_keeps_evictions_witness :
    (walkEntries exEnvThree exThree exJoggerReady exSys).2.1.heap.length = 2 ∧
    (walkEntriesNoCap exEnvThree exThree exJoggerReady exSys).2.1.heap.length = 3 ∧
    (evictedObjs (evictHeap exEnvThree
        (walkEntries exEnvThree exThree exJoggerReady exSys).2.1.heap.Len
        { exJoggerReady with
          heap := (walkEntries exEnvThree exThree exJoggerReady exSys).2.1.heap } exSys
        { size := 0, bevicted := 0, fevicted := 0, capCheck := 0 }).2.2.trace).length = 2 ∧
    evictedObjs (evictHeap exEnvThree
        (walkEntries exEnvThree exThree exJoggerReady exSys).2.1.heap.Len
        { exJoggerReady with
          heap := (walkEntries exEnvThree exThree exJoggerReady exSys).2.1.heap } exSys
        { size := 0, bevicted := 0, fevicted := 0, capCheck := 0 }).2.2.trace
      = evictedObjs (evictHeap exEnvThree
        (walkEntriesNoCap exEnvThree exThree exJoggerReady exSys).2.1.heap.Len
        { exJoggerReady with
          heap := (walkEntriesNoCap exEnvThree exThree exJoggerReady exSys).2.1.heap } exSys
        { size := 0, bevicted := 0, fevicted := 0, capCheck := 0 }).2.2.trace :=
  ⟨by decide, by decide, by decide,
    (heap_cap_keeps_evictions exEnvThree (fun _ _ => rfl)
      (fun _ _ _ h => by rw [← Option.some.inj h]; exact (by decide : (0 : Int) ≤ 60))
      exJoggerReady exSys exThree rfl rfl (by decide) exJoggerReady (by decide) exSys
      { size := 0, bevicted := 0, fevicted := 0, capCheck := 0 }).2.2.2.2⟩

/-! ## No wrap-around in the budget -/

/-- Counterexample to C29 as stated: with `10^17` blocks of `4096` bytes, none available,
and watermarks 70 and 80, all the conditions of the claim hold (`blocks * 100` fits in 64
bits, `usedPct = 100 >= HighWM`, `bsize >= 0`) and the subtraction does not wrap, yet the
64-bit signed product `int64(used - lwmBlocks) * bsize` overflows and `evictSize` sets a
negative `totalSize`. -/
theorem evictSize_product_overflows :
    (0 : Nat) < 100000000000000000 ∧ (100000000000000000 : Nat) * 100 < 2 ^ 64 ∧
    (0 : Int) ≤ exJogger.config.lowWM ∧ exJogger.config.lowWM ≤ exJogger.config.highWM ∧
    exJogger.config.highWM
      ≤ ((specUsedPct { blocks := 100000000000000000, bavail := 0, bsize := 4096 } : Nat) : Int) ∧
    specLwmBlocks exJogger.config.lowWM 100000000000000000 ≤ 100000000000000000 - 0 ∧
    (evictSize exEnvHuge exJogger 0).1 = none ∧
    (evictSize exEnvHuge exJogger 0).2.totalSize < 0 := by
  decide

/-- C29 (amended): for `blocks > 0`, `bavail <= blocks`, `blocks * 100 < 2^64`,
`0 <= LowWM <= HighWM` and `usedPct = used * 100 / blocks >= HighWM`, one has
`used >= blocks * LowWM / 100`, so the unsigned subtraction `used - lwmBlocks` in
`evictSize` does not wrap; if moreover `bsize >= 0` and the product
`(used - lwmBlocks) * bsize` is below `2^63`, then `evictSize` sets `totalSize` to that
product, which is `>= 0`, and `> 0` when `LowWM < HighWM` and `bsize > 0`. -/
theorem evictSize_no_wrap (E : Env W) (j : lruJ) (w : W) (st : FSStats)
    (hst : E.getFSStats w j.mpath = Except.ok st)
    (hpos : 0 < st.blocks) (hle : st.bavail ≤ st.blocks) (h100 : st.blocks * 100 < 2 ^ 64)
    (hl0 : 0 ≤ j.config.lowWM) (hlh : j.config.lowWM ≤ j.config.highWM)
    (hhw : j.config.highWM ≤ (((st.blocks - st.bavail) * 100 / st.blocks : Nat) : Int)) :
    st.blocks * j.config.lowWM.toNat / 100 ≤ st.blocks - st.bavail ∧
    subU64 (subU64 st.blocks st.bavail) (specLwmBlocks j.config.lowWM st.blocks)
      = (st.blocks - st.bavail) - st.blocks * j.config.lowWM.toNat / 100 ∧
    (0 ≤ st.bsize →
      (((st.blocks - st.bavail) - st.blocks * j.config.lowWM.toNat / 100 : Nat) : Int)
        * st.bsize < 2 ^ 63 →
      evictSize E j w = (none, { j with totalSize :=
        (((st.blocks - st.bavail) - st.blocks * j.config.lowWM.toNat / 100 : Nat) : Int)
          * st.bsize }) ∧
      0 ≤ (evictSize E j w).2.totalSize ∧
      (j.config.lowWM < j.config.highWM → 0 < st.bsize →
        0 < (evictSize E j w).2.totalSize)) := by
  obtain ⟨blocks, bavail, bsize⟩ := st
  dsimp only at hpos hle h100 hhw ⊢
  generalize hU : blocks - bavail = U at hhw ⊢
  have hUB : U ≤ blocks := by omega
  obtain ⟨n, hn⟩ : ∃ n : Nat, j.config.lowWM = (n : Int) := ⟨j.config.lowWM.toNat, by omega⟩
  obtain ⟨H, hH⟩ : ∃ H : Nat, j.config.highWM = (H : Int) :=
    ⟨j.config.highWM.toNat, by omega⟩
  rw [hn] at hlh ⊢
  rw [hH] at hlh hhw
  have hnH : n ≤ H := by exact_mod_cast hlh
  have hHP : H ≤ U * 100 / blocks := by exact_mod_cast hhw
  have hP100 : U * 100 / blocks ≤ 100 :=
    Nat.div_le_of_le_mul (by rw [Nat.mul_comm blocks 100]; exact Nat.mul_le_mul_right 100 hUB |>.trans (by rw [Nat.mul_comm]))
  have hnB : n * blocks ≤ U * 100 := (Nat.le_div_iff_mul_le hpos).mp (hnH.trans hHP)
  have hn100 : n ≤ 100 := (hnH.trans hHP).trans hP100
  have hH100 : H ≤ 100 := hHP.trans hP100
  have hBn : blocks * n ≤ blocks * 100 := Nat.mul_le_mul_left blocks hn100
  have hL : blocks * n / 100 ≤ U :=
    Nat.div_le_of_le_mul (by rw [Nat.mul_comm blocks n, Nat.mul_comm 100 U]; exact hnB)
  have htn : ((n : Int)).toNat = n := Int.toNat_natCast n
  rw [htn]
  have e0 : subU64 blocks bavail = U := by
    unfold subU64
    omega
  have e1 : toU64 (n : Int) = n := by
    unfold toU64
    omega
  have e2 : mulU64 blocks n = blocks * n := by
    unfold mulU64
    exact Nat.mod_eq_of_lt (by omega)
  have e3 : subU64 U (blocks * n / 100) = U - blocks * n / 100 := by
    unfold subU64
    omega
  have e4 : mulU64 U 100 = U * 100 := by
    unfold mulU64
    exact Nat.mod_eq_of_lt (by omega)
  have e5 : toU64 (H : Int) = H := by
    unfold toU64
    omega
  refine ⟨hL, ?_, ?_⟩
  · unfold specLwmBlocks
    rw [e0, e1, e2, e3]
  · intro hb0 hprod
    have e6 : toI64 (U - blocks * n / 100) = ((U - blocks * n / 100 : Nat) : Int) := by
      unfold toI64
      rw [if_pos (by omega)]
    have hx0 : 0 ≤ ((U - blocks * n / 100 : Nat) : Int) * bsize :=
      Int.mul_nonneg (Int.ofNat_nonneg _) hb0
    have e7 : mulI64 ((U - blocks * n / 100 : Nat) : Int) bsize
        = ((U - blocks * n / 100 : Nat) : Int) * bsize := by
      unfold mulI64 wrapI64
      generalize ((U - blocks * n / 100 : Nat) : Int) * bsize = x at hprod hx0
      omega
    have hev : evictSize E j w
        = (none, { j with totalSize := ((U - blocks * n / 100 : Nat) : Int) * bsize }) := by
      unfold evictSize
      rw [hst]
      dsimp only
      rw [if_neg (by omega), e0, e4, hH, e5, if_neg (by omega), hn, e1, e2, e3, e6, e7]
    refine ⟨hev, ?_, ?_⟩
    · rw [hev]
      exact hx0
    · intro hlt hbs
      rw [hev]
      have hnH1 : n + 1 ≤ H := by
        rw [hH] at hlt
        exact_mod_cast hlt
      have hnB1 : (n + 1) * blocks ≤ U * 100 :=
        (Nat.le_div_iff_mul_le hpos).mp (hnH1.trans hHP)
      have hlt2 : blocks * n / 100 < U := by
        apply Nat.div_lt_of_lt_mul
        have : (n + 1) * blocks = blocks * n + blocks := by ring
        omega
      have hpos2 : (0 : Int) < ((U - blocks * n / 100 : Nat) : Int) := by
        have : 0 < U - blocks * n / 100 := by omega
        exact_mod_cast this
      exact Int.mul_pos hpos2 hbs

/-- Witness for C29 (amended): at 90% of 1000000 blocks of 4096 bytes with watermarks 70
and 80 the budget, `(900000 - 700000) * 4096`, is positive. -/
theorem evictSize_no_wrap_witness :
    0 < (evictSize exEnv exJogger 0).2.totalSize :=
  ((evictSize_no_wrap exEnv exJogger 0 { blocks := 1000000, bavail := 100000, bsize := 4096 }
    rfl (by decide) (by decide) (by decide) (by decide) (by decide) (by decide)).2.2
    (by decide) (by decide)).2.2 (by decide) (by decide)


end Lru

/-! ## Reading a file out of an archive -/

namespace Ais

theorem freadTarLoop_found {Rd : Type} (reader : Rd) (filename archname : String)
    (err : ArchErr) : ∀ (hs : List TarHeader) (hdr : TarHeader),
      hs.find? (fun h => decide (h.name = filename)) = some hdr →
      freadTarLoop reader filename archname hs err = .ok { R := reader, N := hdr.size }
  | [], _, h => by simp at h
  | h0 :: rest, hdr, h => by
    unfold freadTarLoop
    by_cases hn : h0.name = filename
    · rw [if_neg (by simp [hn])]
      rw [List.find?_cons_of_pos _ (by simp [hn])] at h
      rw [Option.some.inj h]
    · rw [if_pos hn]
      rw [List.find?_cons_of_neg _ (by simp [hn])] at h
      exact freadTarLoop_found reader filename archname err rest hdr h

theorem freadZipLoop_found {F : Type} (filename archname : String) :
    ∀ (fs : List (ZipFile F)) (f : ZipFile F),
      fs.find? (fun g => decide (g.name = filename) && !g.isDir) = some f →
      freadZipLoop filename archname fs =
        match f.opened with
        | .ok file => (some { file := some file, size := f.size }, none)
        | .error err => (some { file := none, size := f.size }, some err)
  | [], _, h => by simp at h
  | f0 :: rest, f, h => by
    unfold freadZipLoop
    by_cases hn : f0.name = filename
    · rw [if_neg (by simp [hn])]
      by_cases hd : f0.isDir = true
      · rw [if_pos hd]
        rw [List.find?_cons_of_neg _ (by simp [hd])] at h
        exact freadZipLoop_found filename archname rest f h
      · rw [if_neg hd]
        rw [List.find?_cons_of_pos _ (by simp [hn, hd])] at h
        rw [Option.some.inj h]
    · rw [if_pos hn]
      rw [List.find?_cons_of_neg _ (by simp [hn])] at h
      exact freadZipLoop_found filename archname rest f h

theorem find?_of_nodup {α : Type} (key : α → String) (p : α → Bool) (x : α)
    (hp : p x = true) (hkey : ∀ y, p y = true → key y = key x) :
    ∀ (l : List α), (l.map key).Nodup → x ∈ l → l.find? p = some x
  | [], _, hx => absurd hx (List.not_mem_nil _)
  | y :: rest, hnd, hx => by
    rw [List.map_cons, List.nodup_cons] at hnd
    by_cases hy : p y = true
    · rw [List.find?_cons_of_pos _ hy]
      rcases List.mem_cons.mp hx with h | h
      · rw [h]
      · exfalso
        apply hnd.1
        rw [hkey y hy]
        exact List.mem_map_of_mem key h
    · rw [List.find?_cons_of_neg _ hy]
      rcases List.mem_cons.mp hx with h | h
      · rw [h] at hp
        exact absurd hp hy
      · exact find?_of_nodup key p x hp hkey rest hnd.2 h

/-- C23 (amended): reading a name out of an archive finds the first entry of that name (for a zip
archive: the first that is not a directory) and returns a reader whose `Size()` is the
size recorded for that entry.  `freadTar` and `freadTgz` (once `gzip.NewReader` has
opened the stream) return no error; `freadZip` returns the error of `f.Open()`, so none
when the stored file opens.  Hence, in an archive whose entries have pairwise distinct
names, reading the name of any stored entry (any stored regular file of a zip archive)
returns a reader with the size recorded for that very entry. -/
theorem fread_finds_entry {Rd F : Type} (lib : ArchLib Rd F) (reader : Rd)
    (filename archname : String) :
    (∀ hdr, (lib.tarNewReader reader).headers.find? (fun h => decide (h.name = filename))
        = some hdr →
      ∃ csl, freadTar lib reader filename archname = .ok csl ∧ csl.Size = hdr.size) ∧
    (∀ gzr hdr, lib.gzipNewReader reader = .ok gzr →
      (lib.tarNewReader gzr).headers.find? (fun h => decide (h.name = filename)) = some hdr →
      ∃ csc, freadTgz lib reader filename archname = .ok csc ∧ csc.Size = hdr.size) ∧
    (∀ size files f, lib.zipNewReader reader size = .ok files →
      files.find? (fun g => decide (g.name = filename) && !g.isDir) = some f →
      (∃ csf, (freadZip lib reader filename archname size).1 = some csf ∧
        csf.Size = f.size) ∧
      (∀ file, f.opened = .ok file →
        (freadZip lib reader filename archname size).2 = none) ∧
      (∀ err, f.opened = .error err →
        (freadZip lib reader filename archname size).2 = some err)) ∧
    (((lib.tarNewReader reader).headers.map TarHeader.name).Nodup →
      ∀ hdr ∈ (lib.tarNewReader reader).headers,
        ∃ csl, freadTar lib reader hdr.name archname = .ok csl ∧ csl.Size = hdr.size) ∧
    (∀ gzr, lib.gzipNewReader reader = .ok gzr →
      ((lib.tarNewReader gzr).headers.map TarHeader.name).Nodup →
      ∀ hdr ∈ (lib.tarNewReader gzr).headers,
        ∃ csc, freadTgz lib reader hdr.name archname = .ok csc ∧ csc.Size = hdr.size) ∧
    (∀ size files, lib.zipNewReader reader size = .ok files →
      (files.map ZipFile.name).Nodup →
      ∀ f ∈ files, f.isDir = false → ∀ file, f.opened = .ok file →
        ∃ csf, freadZip lib reader f.name archname size = (some csf, none) ∧
          csf.Size = f.size) := by
  have tarOk : ∀ (r : Rd) (name : String) (hdr : TarHeader),
      (lib.tarNewReader r).headers.find? (fun h => decide (h.name = name)) = some hdr →
      freadTar lib r name archname = .ok { R := r, N := hdr.size } := by
    intro r name hdr h
    unfold freadTar
    exact freadTarLoop_found r name archname _ _ hdr h
  have tgzOk : ∀ (gzr : Rd) (name : String) (hdr : TarHeader),
      lib.gzipNewReader reader = .ok gzr →
      (lib.tarNewReader gzr).headers.find? (fun h => decide (h.name = name)) = some hdr →
      freadTgz lib reader name archname
        = .ok { gzr := gzr, R := { R := gzr, N := hdr.size }, N := hdr.size } := by
    intro gzr name hdr hg h
    unfold freadTgz
    rw [hg]
    dsimp only
    rw [tarOk gzr name hdr h]
  have tarFind : ∀ (r : Rd), ((lib.tarNewReader r).headers.map TarHeader.name).Nodup →
      ∀ hdr ∈ (lib.tarNewReader r).headers,
        (lib.tarNewReader r).headers.find? (fun h => decide (h.name = hdr.name)) = some hdr := by
    intro r hnd hdr hmem
    exact find?_of_nodup TarHeader.name _ hdr (by simp)
      (fun y hy => by simpa using hy) _ hnd hmem
  refine ⟨?_, ?_, ?_, ?_, ?_, ?_⟩
  · intro hdr h
    exact ⟨_, tarOk reader filename hdr h, rfl⟩
  · intro gzr hdr hg h
    exact ⟨_, tgzOk gzr filename hdr hg h, rfl⟩
  · intro size files f hz h
    have hl := freadZipLoop_found filename archname files f h
    unfold freadZip
    rw [hz]
    dsimp only
    rw [hl]
    refine ⟨?_, ?_, ?_⟩
    · cases f.opened with
      | ok file => exact ⟨_, rfl, rfl⟩
      | error err => exact ⟨_, rfl, rfl⟩
    · intro file ho
      rw [ho]
    · intro err ho
      rw [ho]
  · intro hnd hdr hmem
    exact ⟨_, tarOk reader hdr.name hdr (tarFind reader hnd hdr hmem), rfl⟩
  · intro gzr hg hnd hdr hmem
    exact ⟨_, tgzOk gzr hdr.name hdr hg (tarFind gzr hnd hdr hmem), rfl⟩
  · intro size files hz hnd f hmem hdir file ho
    have hfind : files.find? (fun g => decide (g.name = f.name) && !g.isDir) = some f :=
      find?_of_nodup ZipFile.name _ f (by simp [hdir])
        (fun y hy => by
          simp only [Bool.and_eq_true, decide_eq_true_eq] at hy
          exact hy.1) _ hnd hmem
    have hl := freadZipLoop_found f.name archname files f hfind
    refine ⟨{ file := some file, size := f.size }, ?_, rfl⟩
    unfold freadZip
    rw [hz]
    dsimp only
    rw [hl, ho]

/-- Counterexample to C23 as stated: `b.txt` is a regular file stored in the zip archive,
but it is stored with a method for which `f.Open()` fails; `freadZip` returns that error
(with a reader of the recorded size 7). -/
theorem freadZip_open_fails :
    freadZip exLibNoMethod exArchive "b.txt" "arch.zip" 10
      = (some { file := none, size := 7 }, some errAlgorithm) := by
  decide

/-- Witness for C23: reading `b.txt` out of the archive of two files gives a reader of
size 7. -/
theorem fread_finds_entry_witness :
    ∃ csl, freadTar exLib exArchive "b.txt" "arch.tar" = .ok csl ∧ csl.Size = 7 :=
  (fread_finds_entry exLib exArchive "b.txt" "arch.tar").1 { name := "b.txt", size := 7 }
    (by decide)

end Ais

/-! ## The communication type of `etl init code` -/

namespace Cli

theorem hasSuffix_iff (s t : String) : hasSuffix s t = true ↔ t.data <:+ s.data := by
  unfold hasSuffix
  exact List.isSuffixOf_iff_suffix

theorem hasSuffix_append (s t : String) : hasSuffix (s ++ t) t = true := by
  rw [hasSuffix_iff, String.data_append]
  exact List.suffix_append _ _

theorem not_both_suffixes (s : String) (h : hasSuffix s "://" = true) :
    hasSuffix s ":/" = false := by
  rw [hasSuffix_iff] at h
  cases hb : hasSuffix s ":/" with
  | false => rfl
  | true =>
    rw [hasSuffix_iff] at hb
    obtain ⟨t, ht⟩ := h
    obtain ⟨u, hu⟩ := hb
    have e := congrArg List.reverse (ht.trans hu.symm)
    simp at e

theorem commTypeX_of_suffix (s : String) (h : hasSuffix s "://" = true) :
    etlInitCodeHandler_commTypeX s = s := by
  unfold etlInitCodeHandler_commTypeX
  dsimp only
  split_ifs with h1 h2 h3 h4
  · rw [not_both_suffixes s h] at h2
    exact absurd h2 (by simp)
  · rw [not_both_suffixes s h] at h2
    exact absurd h2 (by simp)
  · rw [h] at h4
    exact absurd h4 (by simp)
  · rfl
  · rfl

theorem commTypeX_suffix (s : String) (hne : s ≠ "") :
    hasSuffix (etlInitCodeHandler_commTypeX s) "://" = true := by
  unfold etlInitCodeHandler_commTypeX
  dsimp only
  rw [if_pos hne]
  split_ifs with h2 h3 h4
  · exact hasSuffix_append _ _
  · simpa using h3
  · exact hasSuffix_append _ _
  · simpa using h4

/-- C30: the normalisation of the communication type in `etlInitCodeHandler` gives, for
every non-empty string, a value that ends with `://`; a value that already ends with
`://` is left unchanged; normalising twice equals normalising once; and `hpush`,
`hpush:/` and `hpush://` all become `hpush://`. -/
theorem commTypeX_normalised (s : String) :
    (s ≠ "" → hasSuffix (etlInitCodeHandler_commTypeX s) "://" = true) ∧
    (hasSuffix s "://" = true → etlInitCodeHandler_commTypeX s = s) ∧
    etlInitCodeHandler_commTypeX (etlInitCodeHandler_commTypeX s)
      = etlInitCodeHandler_commTypeX s ∧
    etlInitCodeHandler_commTypeX "hpush" = "hpush://" ∧
    etlInitCodeHandler_commTypeX "hpush:/" = "hpush://" ∧
    etlInitCodeHandler_commTypeX "hpush://" = "hpush://" := by
  refine ⟨commTypeX_suffix s, commTypeX_of_suffix s, ?_, by decide, by decide, by decide⟩
  by_cases hne : s = ""
  · subst hne
    decide
  · exact commTypeX_of_suffix _ (commTypeX_suffix s hne)

/-- Witness for C30: `hpull` becomes `hpull://`, which ends with `://`. -/
theorem commTypeX_normalised_witness :
    hasSuffix (etlInitCodeHandler_commTypeX "hpull") "://" = true :=
  (commTypeX_normalised "hpull").1 (by decide)

end Cli
